import Mathlib

/-!
Verification of the CStructs+ container library (vector.c, singly_list.c,
doubly_list.c) against its natural-language specification.

The C code is shallowly embedded:
* the vector buffer is modelled by the list of its live elements (the first
  `size` slots); `size` is the length of that list and `capacity` is carried
  explicitly, mirroring the struct fields;
* `malloc` / `realloc` outcomes are supplied as explicit boolean oracles
  (`allocOk`): `true` means the allocation succeeds, `false` that it returns
  NULL, exactly at the points where the C code can fail;
* both linked lists are modelled with an explicit heap: nodes live in an
  address-indexed store (`List (Option node)`), links are `Option Nat`
  addresses, and `free` blanks a slot, so the pointer structure of the C
  code (next/prev links, head/tail caches) is represented faithfully;
* `size_t` values are `Nat`; the one place where unsigned wraparound is
  observable (the reverse-iterator `position = size - 1` on an empty list)
  is modelled with explicit arithmetic modulo `2 ^ 64`.
-/

set_option autoImplicit false
set_option linter.unnecessarySeqFocus false
set_option linter.unusedVariables false

namespace CStructs

/-- Status codes of core.h (`status_t`). -/
inductive status_t where
  | SUCCESS
  | ERROR_INVALID_INPUT
  | ERROR_MEMORY_ALLOCATION
  | ERROR_INDEX_OUT_OF_BOUNDS
  | ERROR_EMPTY_CONTAINER
  | ERROR_NOT_FOUND
  | ERROR_FULL_CONTAINER
deriving DecidableEq, Repr

/-- `VECTOR_INITIAL_CAPACITY` from vector.h. -/
def VECTOR_INITIAL_CAPACITY : Nat := 16

/-- The vector struct (`vector_t`): `data` is the list of live elements
(the first `size` slots of the buffer, so `size = data.length`),
`capacity` and `element_size` are the remaining struct fields. -/
structure vector_t (α : Type) where
  data : List α
  capacity : Nat
  element_size : Nat
deriving DecidableEq, Repr

variable {α : Type}

/-- The `size` field of the vector: number of live elements. -/
def vector_t.size (v : vector_t α) : Nat := v.data.length

/-- `vector_reserve`: no-op when `new_capacity <= capacity`; otherwise
reallocates (oracle `allocOk`); on allocation failure the old buffer and
capacity are untouched. -/
def vector_reserve (allocOk : Bool) (v : vector_t α) (new_capacity : Nat) :
    status_t × vector_t α :=
  if new_capacity ≤ v.capacity then (.SUCCESS, v)
  else if allocOk then (.SUCCESS, { v with capacity := new_capacity })
  else (.ERROR_MEMORY_ALLOCATION, v)

/-- The capacity computed by `vector_check_grow` before reserving:
`new_capacity = (size_t)(capacity * VECTOR_GROWTH_FACTOR)` with
`VECTOR_GROWTH_FACTOR = 1.5` (for a `size_t` value the truncated product is
`capacity + capacity / 2`), raised to `VECTOR_INITIAL_CAPACITY` if smaller,
with a fallback to `capacity + 1` if still not above the old capacity. -/
def vector_new_capacity (c : Nat) : Nat :=
  let nc1 := c + c / 2
  let nc2 := if nc1 < VECTOR_INITIAL_CAPACITY then VECTOR_INITIAL_CAPACITY else nc1
  if nc2 ≤ c then c + 1 else nc2

/-- `vector_check_grow`: when `size >= capacity`, reserve the grown
capacity, else do nothing. -/
def vector_check_grow (allocOk : Bool) (v : vector_t α) : status_t × vector_t α :=
  if v.capacity ≤ v.size then
    vector_reserve allocOk v (vector_new_capacity v.capacity)
  else (.SUCCESS, v)

/-- `vector_push_back`: grow-check, then copy the element to offset `size`
and increment `size`. -/
def vector_push_back (allocOk : Bool) (v : vector_t α) (element : α) :
    status_t × vector_t α :=
  let r := vector_check_grow allocOk v
  if r.1 = .SUCCESS then (.SUCCESS, { r.2 with data := r.2.data ++ [element] })
  else r

/-- `vector_pop_back`: `ERROR_EMPTY_CONTAINER` on an empty vector, else
copies the last element out and decrements `size` (capacity unchanged). -/
def vector_pop_back (v : vector_t α) : status_t × vector_t α × Option α :=
  if v.size = 0 then (.ERROR_EMPTY_CONTAINER, v, none)
  else (.SUCCESS, { v with data := v.data.dropLast }, v.data.getLast?)

/-- `vector_check_index`: `ERROR_INDEX_OUT_OF_BOUNDS` when `index >= size`. -/
def vector_check_index (v : vector_t α) (index : Nat) : status_t :=
  if v.size ≤ index then .ERROR_INDEX_OUT_OF_BOUNDS else .SUCCESS

/-- `vector_insert`: rejects `index > size`, grow-checks, appends via
`vector_push_back` when `index = size`, otherwise shifts `[index, size)`
one slot right and writes the element at `index`. -/
def vector_insert (allocOk : Bool) (v : vector_t α) (index : Nat) (element : α) :
    status_t × vector_t α :=
  if v.size < index then (.ERROR_INDEX_OUT_OF_BOUNDS, v)
  else
    let r := vector_check_grow allocOk v
    if r.1 = .SUCCESS then
      if index = r.2.size then vector_push_back allocOk r.2 element
      else (.SUCCESS,
        { r.2 with data := r.2.data.take index ++ element :: r.2.data.drop index })
    else r

/-- `vector_remove`: bounds-checked; the last index delegates to
`vector_pop_back`, otherwise `[index+1, size)` shifts one slot left. -/
def vector_remove (v : vector_t α) (index : Nat) : status_t × vector_t α :=
  if vector_check_index v index ≠ .SUCCESS then (.ERROR_INDEX_OUT_OF_BOUNDS, v)
  else if index = v.size - 1 then
    let r := vector_pop_back v
    (r.1, r.2.1)
  else (.SUCCESS, { v with data := v.data.take index ++ v.data.drop (index + 1) })

/-- `vector_clear`: resets `size` to 0, buffer and capacity retained. -/
def vector_clear (v : vector_t α) : vector_t α := { v with data := [] }

/-- `vector_get`: bounds-checked copy of the element at `index`. -/
def vector_get (v : vector_t α) (index : Nat) : status_t × Option α :=
  if vector_check_index v index ≠ .SUCCESS then (.ERROR_INDEX_OUT_OF_BOUNDS, none)
  else (.SUCCESS, v.data[index]?)

/-- `vector_set`: bounds-checked overwrite of the element at `index`. -/
def vector_set (v : vector_t α) (index : Nat) (element : α) : status_t × vector_t α :=
  if vector_check_index v index ≠ .SUCCESS then (.ERROR_INDEX_OUT_OF_BOUNDS, v)
  else (.SUCCESS, { v with data := v.data.set index element })

/-- `vector_shrink_to_fit`: no-op at `size = capacity`; at `size = 0` frees
the buffer and sets capacity to 0; otherwise reallocates to exactly `size`. -/
def vector_shrink_to_fit (allocOk : Bool) (v : vector_t α) : status_t × vector_t α :=
  if v.size = v.capacity then (.SUCCESS, v)
  else if v.size = 0 then (.SUCCESS, { v with capacity := 0 })
  else if allocOk then (.SUCCESS, { v with capacity := v.size })
  else (.ERROR_MEMORY_ALLOCATION, v)

/-- `vector_create_with_capacity`: fails on `element_size = 0`; an
`initial_capacity` of 0 is replaced by `VECTOR_INITIAL_CAPACITY`; the oracle
covers the two allocations (struct and buffer). -/
def vector_create_with_capacity (allocOk : Bool) (element_size initial_capacity : Nat) :
    Option (vector_t α) :=
  if element_size = 0 then none
  else if allocOk then
    some { data := [],
           capacity := if initial_capacity = 0 then VECTOR_INITIAL_CAPACITY
                       else initial_capacity,
           element_size := element_size }
  else none

/-- The element-copy loop of `vector_copy`: pushes the source elements one
by one, destroying the partial result (returning `none`) if a push fails;
`pushOk i` is the allocation oracle for the i-th push. -/
def vector_copy_loop (pushOk : Nat → Bool) :
    List α → Nat → vector_t α → Option (vector_t α)
  | [], _, dest => some dest
  | x :: rest, i, dest =>
    let r := vector_push_back (pushOk i) dest x
    if r.1 = .SUCCESS then vector_copy_loop pushOk rest (i + 1) r.2 else none

/-- `vector_copy`: creates a destination sized to the source capacity, then
deep-copies element by element via `vector_push_back`. -/
def vector_copy (createOk : Bool) (pushOk : Nat → Bool) (src : vector_t α) :
    Option (vector_t α) :=
  match vector_create_with_capacity createOk src.element_size src.capacity with
  | none => none
  | some dest => vector_copy_loop pushOk src.data 0 dest

/-- The operations of the vector API that act on a single vector, with their
arguments and allocation oracles.  (`vector_swap` and `vector_copy` act on a
pair of vectors and are modelled separately.) -/
inductive VectorOp (α : Type) where
  | push_back (allocOk : Bool) (e : α)
  | pop_back
  | insert (allocOk : Bool) (i : Nat) (e : α)
  | remove (i : Nat)
  | get (i : Nat)
  | set (i : Nat) (e : α)
  | reserve (allocOk : Bool) (n : Nat)
  | shrink_to_fit (allocOk : Bool)
  | clear
deriving DecidableEq, Repr

/-- Applies a vector operation, returning its status and the new state. -/
def applyV (op : VectorOp α) (v : vector_t α) : status_t × vector_t α :=
  match op with
  | .push_back b e => vector_push_back b v e
  | .pop_back => let r := vector_pop_back v; (r.1, r.2.1)
  | .insert b i e => vector_insert b v i e
  | .remove i => vector_remove v i
  | .get i => ((vector_get v i).1, v)
  | .set i e => vector_set v i e
  | .reserve b n => vector_reserve b v n
  | .shrink_to_fit b => vector_shrink_to_fit b v
  | .clear => (.SUCCESS, vector_clear v)

/-- Recognizes the `shrink_to_fit` operation. -/
def VectorOp.isShrinkToFit : VectorOp α → Bool
  | .shrink_to_fit _ => true
  | _ => false

/-- Applies a sequence of vector operations left to right. -/
def applyVSeq (ops : List (VectorOp α)) (v : vector_t α) : vector_t α :=
  ops.foldl (fun s op => (applyV op s).2) v

/-! ### Vector lemmas -/

theorem vector_reserve_error {b : Bool} {v : vector_t α} {n : Nat}
    (h : (vector_reserve b v n).1 ≠ .SUCCESS) : (vector_reserve b v n).2 = v := by
  unfold vector_reserve at *
  split_ifs at * <;> simp_all

theorem vector_reserve_capacity (b : Bool) (v : vector_t α) (n : Nat) :
    v.capacity ≤ (vector_reserve b v n).2.capacity := by
  unfold vector_reserve
  split_ifs <;> simp <;> omega

theorem vector_reserve_fields (b : Bool) (v : vector_t α) (n : Nat) :
    (vector_reserve b v n).2.data = v.data ∧
    (vector_reserve b v n).2.element_size = v.element_size := by
  unfold vector_reserve
  split_ifs <;> simp

theorem vector_check_grow_error {b : Bool} {v : vector_t α}
    (h : (vector_check_grow b v).1 ≠ .SUCCESS) : (vector_check_grow b v).2 = v := by
  unfold vector_check_grow at *
  split_ifs at *
  · exact vector_reserve_error h
  · simp_all

theorem vector_check_grow_capacity (b : Bool) (v : vector_t α) :
    v.capacity ≤ (vector_check_grow b v).2.capacity := by
  unfold vector_check_grow
  split_ifs
  · exact vector_reserve_capacity ..
  · simp

theorem vector_check_grow_fields (b : Bool) (v : vector_t α) :
    (vector_check_grow b v).2.data = v.data ∧
    (vector_check_grow b v).2.element_size = v.element_size := by
  unfold vector_check_grow
  split_ifs
  · exact vector_reserve_fields ..
  · simp

/-- The grown capacity is exactly `max (capacity + capacity / 2) 16` and is
strictly larger than the old capacity: the `capacity + 1` fallback can never
fire, so every growth step strictly increases the capacity. -/
theorem vector_new_capacity_eq (c : Nat) :
    vector_new_capacity c = max (c + c / 2) VECTOR_INITIAL_CAPACITY ∧
    c < vector_new_capacity c := by
  have hd : c / 2 ≤ c := Nat.div_le_self c 2
  have hd2 : 2 ≤ c → 1 ≤ c / 2 := fun h => by omega
  have hmax : max (c + c / 2) VECTOR_INITIAL_CAPACITY =
      if c + c / 2 < VECTOR_INITIAL_CAPACITY then VECTOR_INITIAL_CAPACITY
      else c + c / 2 := by
    rcases Nat.lt_or_ge (c + c / 2) VECTOR_INITIAL_CAPACITY with hh | hh
    · simp [hh, Nat.max_eq_right hh.le]
    · simp [Nat.not_lt.mpr hh, Nat.max_eq_left hh]
  simp only [vector_new_capacity, VECTOR_INITIAL_CAPACITY] at *
  by_cases hc1 : c ≤ 1
  · have : c / 2 = 0 := by omega
    split_ifs <;> omega
  · have : 1 ≤ c / 2 := hd2 (by omega)
    split_ifs <;> omega

/-- With a successful allocator, `vector_check_grow` always succeeds, leaving
the data untouched and only (possibly) enlarging the capacity. -/
theorem vector_check_grow_true (v : vector_t α) :
    ∃ c, vector_check_grow true v = (.SUCCESS, { v with capacity := c }) ∧
      v.capacity ≤ c := by
  have hnc := vector_new_capacity_eq v.capacity
  by_cases h1 : v.capacity ≤ v.size
  · refine ⟨vector_new_capacity v.capacity, ?_, by omega⟩
    unfold vector_check_grow vector_reserve
    rw [if_pos h1, if_neg (by omega), if_pos rfl]
  · exact ⟨v.capacity, by unfold vector_check_grow; rw [if_neg h1], le_refl _⟩

/-- When the vector is at capacity, the grow step with a successful allocator
reallocates to exactly `max (capacity + capacity / 2) 16`. -/
theorem vector_check_grow_at_capacity (v : vector_t α) (h : v.capacity ≤ v.size) :
    vector_check_grow true v =
      (.SUCCESS,
        { v with capacity := max (v.capacity + v.capacity / 2) VECTOR_INITIAL_CAPACITY }) ∧
    v.capacity < max (v.capacity + v.capacity / 2) VECTOR_INITIAL_CAPACITY := by
  obtain ⟨hnc, hlt⟩ := vector_new_capacity_eq v.capacity
  refine ⟨?_, hnc ▸ hlt⟩
  unfold vector_check_grow vector_reserve
  rw [if_pos h, if_neg (by omega), if_pos rfl, hnc]

/-- C2: a vector whose size has reached its capacity grows, on the next
insertion (`push_back` or `insert` at any valid index), to capacity
`max (capacity * 1.5, 16)` (the truncated `size_t` product `capacity * 1.5`
being `capacity + capacity / 2`); the `capacity + 1` fallback never fires,
and the new capacity strictly exceeds the old one. -/
theorem vector_growth_on_insertion (v : vector_t α) (e : α)
    (h : v.size = v.capacity) :
    v.capacity < max (v.capacity + v.capacity / 2) VECTOR_INITIAL_CAPACITY ∧
    (vector_push_back true v e).1 = .SUCCESS ∧
    (vector_push_back true v e).2.capacity =
      max (v.capacity + v.capacity / 2) VECTOR_INITIAL_CAPACITY ∧
    ∀ i, i ≤ v.size →
      (vector_insert true v i e).1 = .SUCCESS ∧
      (vector_insert true v i e).2.capacity =
        max (v.capacity + v.capacity / 2) VECTOR_INITIAL_CAPACITY := by
  obtain ⟨hg, hlt⟩ := vector_check_grow_at_capacity v (le_of_eq h.symm)
  set M := max (v.capacity + v.capacity / 2) VECTOR_INITIAL_CAPACITY with hM
  have hpush : ∀ w : vector_t α, w.size < w.capacity →
      vector_push_back true w e = (.SUCCESS, { w with data := w.data ++ [e] }) := by
    intro w hw
    have hcond : ¬ (w.capacity ≤ w.size) := by omega
    unfold vector_push_back vector_check_grow
    rw [if_neg hcond]
    simp
  have hpush1 : vector_push_back true v e =
      (.SUCCESS, { v with data := v.data ++ [e], capacity := M }) := by
    unfold vector_push_back
    rw [hg]
    simp
  refine ⟨hlt, by rw [hpush1], by rw [hpush1], ?_⟩
  intro i hi
  have hins : vector_insert true v i e =
      vector_push_back true ({ v with capacity := M } : vector_t α) e ∨
      vector_insert true v i e =
        (.SUCCESS,
          { v with capacity := M, data := v.data.take i ++ e :: v.data.drop i }) := by
    have hcond : ¬ (v.size < i) := by omega
    unfold vector_insert
    rw [if_neg hcond, hg]
    simp only [reduceIte]
    by_cases hie : i = ({ v with capacity := M } : vector_t α).size
    · rw [if_pos hie]
      exact Or.inl rfl
    · rw [if_neg hie]
      exact Or.inr rfl
  have hlt2 : ({ v with capacity := M } : vector_t α).size <
      ({ v with capacity := M } : vector_t α).capacity := by
    have hc : ({ v with capacity := M } : vector_t α).capacity = M := rfl
    have hs : ({ v with capacity := M } : vector_t α).size = v.size := rfl
    omega
  rcases hins with hcase | hcase <;> rw [hcase]
  · rw [hpush _ hlt2]
    exact ⟨rfl, rfl⟩
  · exact ⟨rfl, rfl⟩

theorem vector_reserve_status (b : Bool) (v : vector_t α) (n : Nat) :
    (vector_reserve b v n).1 = .SUCCESS ∨
    (vector_reserve b v n).1 = .ERROR_MEMORY_ALLOCATION := by
  unfold vector_reserve
  split_ifs <;> simp

theorem vector_check_grow_status (b : Bool) (v : vector_t α) :
    (vector_check_grow b v).1 = .SUCCESS ∨
    (vector_check_grow b v).1 = .ERROR_MEMORY_ALLOCATION := by
  unfold vector_check_grow
  split_ifs
  · exact vector_reserve_status ..
  · simp

theorem vector_push_back_status (b : Bool) (v : vector_t α) (e : α) :
    (vector_push_back b v e).1 = .SUCCESS ∨
    (vector_push_back b v e).1 = .ERROR_MEMORY_ALLOCATION := by
  unfold vector_push_back
  rcases vector_check_grow_status b v with hs | hs <;> simp [hs]

/-- `vector_insert` returns `ERROR_INDEX_OUT_OF_BOUNDS` exactly when the
index exceeds the size (`index = size` is a valid append); any other failure
is an allocation failure. -/
theorem vector_insert_oob_iff (b : Bool) (v : vector_t α) (j : Nat) (e : α) :
    (vector_insert b v j e).1 = .ERROR_INDEX_OUT_OF_BOUNDS ↔ v.size < j := by
  unfold vector_insert
  by_cases hj : v.size < j
  · rw [if_pos hj]
    simp [hj]
  · rw [if_neg hj]
    simp only [hj, iff_false]
    rcases vector_check_grow_status b v with hs | hs
    · rw [if_pos hs]
      split_ifs
      · rcases vector_push_back_status b (vector_check_grow b v).2 e with hp | hp <;>
          simp [hp]
      · simp
    · rw [if_neg (by simp [hs])]
      simp [hs]

/-- A valid insert with a successful allocator succeeds and shifts
`[index, size)` one slot right, writing the element at `index`. -/
theorem vector_insert_success (v : vector_t α) (i : Nat) (e : α) (h : i ≤ v.size) :
    ∃ c, vector_insert true v i e =
      (.SUCCESS,
        { v with data := v.data.take i ++ e :: v.data.drop i, capacity := c }) := by
  obtain ⟨c1, hg, hc1⟩ := vector_check_grow_true v
  have hcond : ¬ (v.size < i) := by omega
  unfold vector_insert
  rw [if_neg hcond, hg]
  simp only [reduceIte]
  by_cases hie : i = ({ v with capacity := c1 } : vector_t α).size
  · rw [if_pos hie]
    obtain ⟨c2, hg2, hc2⟩ := vector_check_grow_true ({ v with capacity := c1 } : vector_t α)
    refine ⟨c2, ?_⟩
    unfold vector_push_back
    rw [hg2]
    have hi2 : i = v.size := hie
    simp [hi2, vector_t.size, List.take_length, List.drop_length]
  · rw [if_neg hie]
    exact ⟨c1, rfl⟩

/-- C4: `insert(index, element)` fails with IndexOutOfBounds exactly when
`index > size`; on success `get(index)` returns the inserted element and the
elements formerly at `[index, size)` sit at `[index+1, size+1)` in their
original order. -/
theorem vector_insert_shift_spec (v : vector_t α) (i : Nat) (e : α)
    (h : i ≤ v.size) :
    (∀ (j : Nat) (b : Bool),
        ((vector_insert b v j e).1 = .ERROR_INDEX_OUT_OF_BOUNDS ↔ v.size < j)) ∧
    (vector_insert true v i e).1 = .SUCCESS ∧
    (vector_insert true v i e).2.data = v.data.take i ++ e :: v.data.drop i ∧
    (vector_get (vector_insert true v i e).2 i).2 = some e ∧
    ∀ j, i ≤ j → j < v.size →
      (vector_insert true v i e).2.data[j + 1]? = v.data[j]? := by
  obtain ⟨c, hc⟩ := vector_insert_success v i e h
  have hlen : v.size = v.data.length := rfl
  have htake : (v.data.take i).length = i := by
    simp [List.length_take]
    omega
  have hdata : (vector_insert true v i e).2.data =
      v.data.take i ++ e :: v.data.drop i := by rw [hc]
  refine ⟨fun j b => vector_insert_oob_iff b v j e, by rw [hc], hdata, ?_, ?_⟩
  · have hsz : (vector_insert true v i e).2.size = v.size + 1 := by
      show (vector_insert true v i e).2.data.length = v.data.length + 1
      rw [hdata]
      simp
      omega
    unfold vector_get vector_check_index
    rw [if_neg (by simp; omega)]
    simp only
    rw [hdata, List.getElem?_append_right (by omega), htake]
    simp
  · intro j hij hjs
    rw [hdata, List.getElem?_append_right (by omega), htake]
    have hj1 : j + 1 - i = (j - i) + 1 := by omega
    rw [hj1, List.getElem?_cons_succ, List.getElem?_drop]
    congr 1
    omega

/-- Witness for C4 at `v = [1,2,3]`, `insert(1, 99)`. -/
theorem vector_insert_shift_spec_witness :
    (vector_insert true
        ({ data := [1, 2, 3], capacity := 4, element_size := 4 } : vector_t Nat)
        1 99).1 = .SUCCESS ∧
    (vector_get (vector_insert true
        ({ data := [1, 2, 3], capacity := 4, element_size := 4 } : vector_t Nat)
        1 99).2 1).2 = some 99 :=
  ⟨(vector_insert_shift_spec
      ({ data := [1, 2, 3], capacity := 4, element_size := 4 } : vector_t Nat)
      1 99 (by decide)).2.1,
   (vector_insert_shift_spec
      ({ data := [1, 2, 3], capacity := 4, element_size := 4 } : vector_t Nat)
      1 99 (by decide)).2.2.2.1⟩

/-- While the destination has room for all remaining elements, the copy loop
never triggers a growth and simply appends every element. -/
theorem vector_copy_loop_ok (pushOk : Nat → Bool) (src : List α) :
    ∀ (i : Nat) (dest : vector_t α), dest.size + src.length ≤ dest.capacity →
      vector_copy_loop pushOk src i dest = some { dest with data := dest.data ++ src } := by
  induction src with
  | nil => intro i dest _; simp [vector_copy_loop]
  | cons x rest ih =>
    intro i dest hroom
    have hx : vector_push_back (pushOk i) dest x =
        (.SUCCESS, { dest with data := dest.data ++ [x] }) := by
      have hcond : ¬ (dest.capacity ≤ dest.size) := by
        simp only [List.length_cons] at hroom
        omega
      unfold vector_push_back vector_check_grow
      rw [if_neg hcond]
      simp
    have hsz : ({ dest with data := dest.data ++ [x] } : vector_t α).size =
        dest.size + 1 := by
      show (dest.data ++ [x]).length = dest.data.length + 1
      simp
    rw [vector_copy_loop, hx]
    simp only [reduceIte]
    have hcap : ({ dest with data := dest.data ++ [x] } : vector_t α).capacity =
        dest.capacity := rfl
    rw [ih (i + 1) _
      (by simp only [List.length_cons] at hroom; rw [hsz, hcap]; omega)]
    simp

/-- C3 (amended): `vector_copy` of a well-formed source succeeds whenever the
creation allocation succeeds, independently of the per-push oracle (no push
can fail, because the destination is pre-sized); the copy has the same size
and element sequence; its capacity equals the source capacity except when
that capacity is 0, in which case `vector_create_with_capacity` substitutes
the default capacity 16.  When creation fails the result is `NULL` and no
partial vector is returned. -/
theorem vector_copy_spec (src : vector_t α) (pushOk : Nat → Bool)
    (hwf : src.size ≤ src.capacity) (hes : src.element_size ≠ 0) :
    vector_copy true pushOk src =
      some { data := src.data,
             capacity := if src.capacity = 0 then VECTOR_INITIAL_CAPACITY
                         else src.capacity,
             element_size := src.element_size } ∧
    vector_copy false pushOk src = none := by
  constructor
  · unfold vector_copy vector_create_with_capacity
    rw [if_neg hes, if_pos rfl]
    simp only
    rw [vector_copy_loop_ok]
    · simp
    · by_cases h0 : src.capacity = 0
      · have : src.size = 0 := by omega
        have hdata : src.data.length = 0 := this
        simp [vector_t.size, h0, hdata, VECTOR_INITIAL_CAPACITY]
      · simp [vector_t.size, h0]
        have : src.size = src.data.length := rfl
        omega
  · unfold vector_copy vector_create_with_capacity
    rw [if_neg hes]
    simp

/-- Witness for C3 on a concrete two-element source. -/
theorem vector_copy_spec_witness :
    vector_copy true (fun _ => true)
        ({ data := [1, 2], capacity := 2, element_size := 4 } : vector_t Nat) =
      some { data := [1, 2],
             capacity := if (2 : Nat) = 0 then VECTOR_INITIAL_CAPACITY else 2,
             element_size := 4 } ∧
    vector_copy false (fun _ => true)
        ({ data := [1, 2], capacity := 2, element_size := 4 } : vector_t Nat) = none :=
  vector_copy_spec
    ({ data := [1, 2], capacity := 2, element_size := 4 } : vector_t Nat)
    (fun _ => true) (by decide) (by decide)

/-- Counterexample to C3 as stated: a source of capacity 0 (reachable, e.g.
after `shrink_to_fit` on an empty vector, shown in the second conjunct) is
copied into a vector of capacity 16, not of the source's capacity. -/
theorem vector_copy_capacity_cex :
    vector_copy true (fun _ => true)
        ({ data := [], capacity := 0, element_size := 4 } : vector_t Nat) =
      some { data := [], capacity := 16, element_size := 4 } ∧
    vector_shrink_to_fit true
        ({ data := [], capacity := 8, element_size := 4 } : vector_t Nat) =
      (.SUCCESS, { data := [], capacity := 0, element_size := 4 }) ∧
    (16 : Nat) ≠ 0 := by
  refine ⟨?_, by decide, by decide⟩
  decide

theorem vector_check_grow_false (v : vector_t α) :
    (vector_check_grow false v).2 = v := by
  unfold vector_check_grow vector_reserve
  split_ifs <;> simp_all

theorem vector_push_back_true_success (v : vector_t α) (e : α) :
    (vector_push_back true v e).1 = .SUCCESS := by
  obtain ⟨c, hg, _⟩ := vector_check_grow_true v
  unfold vector_push_back
  rw [hg]
  simp

theorem vector_push_back_error {b : Bool} {v : vector_t α} {e : α}
    (h : (vector_push_back b v e).1 ≠ .SUCCESS) :
    (vector_push_back b v e).2 = (vector_check_grow b v).2 := by
  unfold vector_push_back at *
  rcases vector_check_grow_status b v with hs | hs
  · simp [hs] at h
  · simp [hs]

theorem vector_push_back_capacity (b : Bool) (v : vector_t α) (e : α) :
    (vector_push_back b v e).2.capacity = (vector_check_grow b v).2.capacity := by
  unfold vector_push_back
  rcases vector_check_grow_status b v with hs | hs <;> simp [hs]

/-- Any vector operation that fails leaves the vector exactly as it was:
validation failures return before mutating, and a failed reallocation keeps
the old buffer and capacity. -/
theorem applyV_error_unchanged (op : VectorOp α) (v : vector_t α)
    (h : (applyV op v).1 ≠ .SUCCESS) : (applyV op v).2 = v := by
  cases op with
  | push_back b e =>
    show (vector_push_back b v e).2 = v
    have h2 := vector_push_back_error (h : (vector_push_back b v e).1 ≠ .SUCCESS)
    rw [h2]
    cases b with
    | false => exact vector_check_grow_false v
    | true =>
      exact absurd (vector_push_back_true_success v e) h
  | pop_back =>
    simp only [applyV, vector_pop_back] at h ⊢
    split_ifs at h ⊢ <;> simp_all
  | insert b i e =>
    show (vector_insert b v i e).2 = v
    replace h : (vector_insert b v i e).1 ≠ .SUCCESS := h
    unfold vector_insert at h ⊢
    by_cases h1 : v.size < i
    · rw [if_pos h1]
    · rw [if_neg h1] at h ⊢
      simp only at h ⊢
      rcases vector_check_grow_status b v with hs | hs
      · rw [if_pos hs] at h ⊢
        by_cases hie : i = (vector_check_grow b v).2.size
        · rw [if_pos hie] at h ⊢
          rw [vector_push_back_error h]
          cases b with
          | false => rw [vector_check_grow_false, vector_check_grow_false]
          | true => exact absurd (vector_push_back_true_success _ e) h
        · rw [if_neg hie] at h
          simp at h
      · rw [if_neg (by simp [hs])] at h ⊢
        exact vector_check_grow_error (by simp [hs])
  | remove i =>
    simp only [applyV, vector_remove, vector_pop_back] at h ⊢
    split_ifs at h ⊢ <;> simp_all [vector_check_index]
  | get i =>
    rfl
  | set i e =>
    simp only [applyV, vector_set] at h ⊢
    split_ifs at h ⊢ <;> simp_all
  | reserve b n =>
    exact vector_reserve_error h
  | shrink_to_fit b =>
    simp only [applyV, vector_shrink_to_fit] at h ⊢
    split_ifs at h ⊢ <;> simp_all
  | clear =>
    simp [applyV] at h

/-- Every vector operation other than `shrink_to_fit` leaves the capacity
greater than or equal to what it was. -/
theorem applyV_capacity_mono (op : VectorOp α) (v : vector_t α)
    (h : op.isShrinkToFit = false) : v.capacity ≤ (applyV op v).2.capacity := by
  cases op with
  | push_back b e =>
    show v.capacity ≤ (vector_push_back b v e).2.capacity
    rw [vector_push_back_capacity]
    exact vector_check_grow_capacity b v
  | pop_back =>
    simp only [applyV, vector_pop_back]
    split_ifs <;> simp
  | insert b i e =>
    show v.capacity ≤ (vector_insert b v i e).2.capacity
    unfold vector_insert
    by_cases h1 : v.size < i
    · rw [if_pos h1]
    · rw [if_neg h1]
      simp only
      rcases vector_check_grow_status b v with hs | hs
      · rw [if_pos hs]
        by_cases hie : i = (vector_check_grow b v).2.size
        · rw [if_pos hie, vector_push_back_capacity]
          exact le_trans (vector_check_grow_capacity b v) (vector_check_grow_capacity ..)
        · rw [if_neg hie]
          exact vector_check_grow_capacity b v
      · rw [if_neg (by simp [hs])]
        exact vector_check_grow_capacity b v
  | remove i =>
    simp only [applyV, vector_remove, vector_pop_back]
    split_ifs <;> simp
  | get i => exact le_refl _
  | set i e =>
    simp only [applyV, vector_set]
    split_ifs <;> simp
  | reserve b n => exact vector_reserve_capacity ..
  | shrink_to_fit b => simp [VectorOp.isShrinkToFit] at h
  | clear => exact le_refl _

/-- C9: over any sequence of single-vector operations that contains no
`shrink_to_fit`, the capacity is monotonically non-decreasing (in particular
`pop_back` and `clear` never reduce it). -/
theorem vector_capacity_monotone (ops : List (VectorOp α)) (v : vector_t α)
    (h : ∀ op ∈ ops, op.isShrinkToFit = false) :
    v.capacity ≤ (applyVSeq ops v).capacity := by
  induction ops generalizing v with
  | nil => exact le_refl _
  | cons op rest ih =>
    have hstep : applyVSeq (op :: rest) v = applyVSeq rest (applyV op v).2 := rfl
    rw [hstep]
    exact le_trans (applyV_capacity_mono op v (h op (by simp)))
      (ih _ (fun o ho => h o (by simp [ho])))

/-- Witness for C9: push, pop and clear on a concrete vector do not shrink
its capacity. -/
theorem vector_capacity_monotone_witness :
    (({ data := [], capacity := 16, element_size := 4 } : vector_t Nat)).capacity ≤
      (applyVSeq [VectorOp.push_back true 1, VectorOp.pop_back, VectorOp.clear]
        ({ data := [], capacity := 16, element_size := 4 } : vector_t Nat)).capacity :=
  vector_capacity_monotone _ _ (by decide)

/-- Witness: a full vector of capacity 1 grows to capacity 16 on push_back. -/
theorem vector_growth_on_insertion_witness :
    (vector_push_back true
        ({ data := [7], capacity := 1, element_size := 4 } : vector_t Nat) 9).1 =
      .SUCCESS ∧
    (vector_push_back true
        ({ data := [7], capacity := 1, element_size := 4 } : vector_t Nat) 9).2.capacity =
      max (1 + 1 / 2) VECTOR_INITIAL_CAPACITY :=
  ⟨(vector_growth_on_insertion _ 9 (by decide)).2.1,
   (vector_growth_on_insertion _ 9 (by decide)).2.2.1⟩

/-! ### Singly linked list: pointer-level model

Nodes are heap-allocated; the heap is an address-indexed store, `none`
meaning an unallocated or freed slot.  Links are addresses (`Option Nat`).
Reading through a dangling pointer is undefined behavior in the C code; the
model totalizes such reads to `none` (they are unreachable from well-formed
states, which is what the theorems assume). -/

/-- A singly-list node (`singly_node_t`): owned data plus the `next` link. -/
structure singly_node_t (α : Type) where
  data : α
  next : Option Nat
deriving DecidableEq, Repr

/-- The node heap for singly lists. -/
structure SHeap (α : Type) where
  store : List (Option (singly_node_t α))
deriving DecidableEq, Repr

def SHeap.get (h : SHeap α) (a : Nat) : Option (singly_node_t α) :=
  (h.store[a]?).bind id

/-- Allocation (`mem_alloc` + node setup): returns the extended heap and the
fresh address. -/
def SHeap.alloc (h : SHeap α) (nd : singly_node_t α) : SHeap α × Nat :=
  (⟨h.store ++ [some nd]⟩, h.store.length)

/-- `mem_free` of a node: the slot becomes unallocated. -/
def SHeap.free (h : SHeap α) (a : Nat) : SHeap α := ⟨h.store.set a none⟩

def SHeap.write (h : SHeap α) (a : Nat) (nd : singly_node_t α) : SHeap α :=
  ⟨h.store.set a (some nd)⟩

/-- The assignment `a->next = nxt`. -/
def SHeap.setNext (h : SHeap α) (a : Nat) (nxt : Option Nat) : SHeap α :=
  match h.get a with
  | some nd => h.write a { nd with next := nxt }
  | none => h

/-- The assignment `a->data = x` (a `mem_copy` into the node's data). -/
def SHeap.setData (h : SHeap α) (a : Nat) (x : α) : SHeap α :=
  match h.get a with
  | some nd => h.write a { nd with data := x }
  | none => h

/-- The read `a->next`. -/
def SHeap.nextOf (h : SHeap α) (a : Nat) : Option Nat :=
  match h.get a with
  | some nd => nd.next
  | none => none

/-- The list header (`singly_list_t`). -/
structure singly_list_t where
  head : Option Nat
  tail : Option Nat
  size : Nat
  element_size : Nat
deriving DecidableEq, Repr

/-- A singly-list program state: the node heap plus the list header. -/
structure SState (α : Type) where
  heap : SHeap α
  list : singly_list_t
deriving DecidableEq, Repr

/-- `singly_list_push_front`. -/
def singly_list_push_front (allocOk : Bool) (s : SState α) (element : α) :
    status_t × SState α :=
  if allocOk then
    let r := s.heap.alloc { data := element, next := s.list.head }
    (.SUCCESS,
      ⟨r.1,
       { s.list with
         head := some r.2
         tail := if s.list.tail = none then some r.2 else s.list.tail
         size := s.list.size + 1 }⟩)
  else (.ERROR_MEMORY_ALLOCATION, s)

/-- `singly_list_push_back`. -/
def singly_list_push_back (allocOk : Bool) (s : SState α) (element : α) :
    status_t × SState α :=
  if allocOk then
    let r := s.heap.alloc { data := element, next := none }
    match s.list.tail with
    | none =>
      (.SUCCESS,
        ⟨r.1,
         { s.list with head := some r.2, tail := some r.2, size := s.list.size + 1 }⟩)
    | some t =>
      (.SUCCESS,
        ⟨r.1.setNext t (some r.2),
         { s.list with tail := some r.2, size := s.list.size + 1 }⟩)
  else (.ERROR_MEMORY_ALLOCATION, s)

/-- `singly_list_pop_front`. -/
def singly_list_pop_front (s : SState α) : status_t × SState α × Option α :=
  match s.list.head with
  | none => (.ERROR_EMPTY_CONTAINER, s, none)
  | some a =>
    let out := (s.heap.get a).map singly_node_t.data
    let newHead := s.heap.nextOf a
    (.SUCCESS,
      ⟨s.heap.free a,
       { s.list with
         head := newHead
         tail := if newHead = none then none else s.list.tail
         size := s.list.size - 1 }⟩, out)

/-- The `while (current->next != list->tail)` search in
`singly_list_pop_back`, fueled; `none` corresponds to a malformed chain, on
which the C loop would dereference a dangling pointer. -/
def s_before_tail (h : SHeap α) (t : Nat) : Nat → Nat → Option Nat
  | _, 0 => none
  | cur, fuel + 1 =>
    if h.nextOf cur = some t then some cur
    else
      match h.nextOf cur with
      | some nxt => s_before_tail h t nxt fuel
      | none => none

/-- `singly_list_pop_back`: O(n), finds the node before `tail` by forward
traversal.  (The fallback branches marked unreachable correspond to
malformed chains, where the C loop's behavior is undefined.) -/
def singly_list_pop_back (s : SState α) : status_t × SState α × Option α :=
  match s.list.head with
  | none => (.ERROR_EMPTY_CONTAINER, s, none)
  | some hd =>
    let out := match s.list.tail with
      | some t => (s.heap.get t).map singly_node_t.data
      | none => none
    if s.list.head = s.list.tail then
      (.SUCCESS,
        ⟨s.heap.free hd,
         { s.list with head := none, tail := none, size := s.list.size - 1 }⟩, out)
    else
      match s.list.tail with
      | none => (.SUCCESS, s, out)
      | some t =>
        match s_before_tail s.heap t hd s.list.size with
        | none => (.SUCCESS, s, out)
        | some p =>
          (.SUCCESS,
            ⟨(s.heap.free t).setNext p none,
             { s.list with tail := some p, size := s.list.size - 1 }⟩, out)

/-- The guarded index walk of `get_node_at`
(`for (i = 0; i < index && current != NULL; i++) current = current->next`). -/
def s_walk (h : SHeap α) : Option Nat → Nat → Option Nat
  | a, 0 => a
  | none, _ + 1 => none
  | some a, k + 1 => s_walk h (h.nextOf a) k

/-- `get_node_at`: bounds check, then walk from the head. -/
def get_node_at (s : SState α) (index : Nat) : Option Nat :=
  if s.list.size ≤ index then none
  else s_walk s.heap s.list.head index

/-- `singly_list_insert`. -/
def singly_list_insert (allocOk : Bool) (s : SState α) (index : Nat) (element : α) :
    status_t × SState α :=
  if s.list.size < index then (.ERROR_INDEX_OUT_OF_BOUNDS, s)
  else if index = 0 then singly_list_push_front allocOk s element
  else if index = s.list.size then singly_list_push_back allocOk s element
  else
    match get_node_at s (index - 1) with
    | none => (.ERROR_INDEX_OUT_OF_BOUNDS, s)
    | some p =>
      if allocOk then
        let r := s.heap.alloc { data := element, next := s.heap.nextOf p }
        (.SUCCESS, ⟨r.1.setNext p (some r.2), { s.list with size := s.list.size + 1 }⟩)
      else (.ERROR_MEMORY_ALLOCATION, s)

/-- `singly_list_remove`. -/
def singly_list_remove (s : SState α) (index : Nat) : status_t × SState α :=
  if s.list.size ≤ index then (.ERROR_INDEX_OUT_OF_BOUNDS, s)
  else if index = 0 then
    let r := singly_list_pop_front s
    (r.1, r.2.1)
  else
    match get_node_at s (index - 1) with
    | none => (.ERROR_INDEX_OUT_OF_BOUNDS, s)
    | some p =>
      match s.heap.nextOf p with
      | none => (.ERROR_INDEX_OUT_OF_BOUNDS, s)
      | some rm =>
        (.SUCCESS,
          ⟨((s.heap.setNext p (s.heap.nextOf rm)).free rm),
           { s.list with
             tail := if some rm = s.list.tail then some p else s.list.tail
             size := s.list.size - 1 }⟩)

/-- `singly_list_get`: the element is copied out of the node at `index`. -/
def singly_list_get (s : SState α) (index : Nat) : status_t × Option α :=
  match get_node_at s index with
  | none => (.ERROR_INDEX_OUT_OF_BOUNDS, none)
  | some a => (.SUCCESS, (s.heap.get a).map singly_node_t.data)

/-- `singly_list_set`. -/
def singly_list_set (s : SState α) (index : Nat) (element : α) :
    status_t × SState α :=
  match get_node_at s index with
  | none => (.ERROR_INDEX_OUT_OF_BOUNDS, s)
  | some a => (.SUCCESS, ⟨s.heap.setData a element, s.list⟩)

/-- The destroy-all loop of `singly_list_clear`, fueled by the list size. -/
def s_clear_loop (h : SHeap α) : Option Nat → Nat → SHeap α
  | none, _ => h
  | some _, 0 => h
  | some a, fuel + 1 => s_clear_loop (h.free a) (h.nextOf a) fuel

/-- `singly_list_clear`. -/
def singly_list_clear (s : SState α) : SState α :=
  ⟨s_clear_loop s.heap s.list.head s.list.size,
   { s.list with head := none, tail := none, size := 0 }⟩

/-- The pointer-reversal loop of `singly_list_reverse`, fueled: returns the
final heap and the `prev` pointer (the new head). -/
def s_rev_loop (h : SHeap α) : Option Nat → Option Nat → Nat → SHeap α × Option Nat
  | prev, none, _ => (h, prev)
  | prev, some _, 0 => (h, prev)
  | prev, some a, fuel + 1 =>
    match h.get a with
    | none => (h, prev)
    | some nd => s_rev_loop (h.write a { nd with next := prev }) (some a) nd.next fuel

/-- `singly_list_reverse`: in-place pointer reversal, head and tail swapped. -/
def singly_list_reverse (s : SState α) : status_t × SState α :=
  if s.list.size ≤ 1 then (.SUCCESS, s)
  else
    let r := s_rev_loop s.heap none s.list.head s.list.size
    (.SUCCESS, ⟨r.1, { s.list with head := r.2, tail := s.list.head }⟩)

/-- `singly_list_iter_remove` for an iterator at zero-based `position`
(`position` counts the `iter_next` calls made): requires at least one prior
`next`, then delegates to index-based removal of `position - 1`. -/
def singly_list_iter_remove (s : SState α) (position : Nat) : status_t × SState α :=
  if position = 0 then (.ERROR_INVALID_INPUT, s)
  else singly_list_remove s (position - 1)

/-! ### Doubly linked list: pointer-level model -/

/-- A doubly-list node (`doubly_node_t`): data, `next`, and the non-owning
`prev` back-link. -/
structure doubly_node_t (α : Type) where
  data : α
  next : Option Nat
  prev : Option Nat
deriving DecidableEq, Repr

/-- The node heap for doubly lists. -/
structure DHeap (α : Type) where
  store : List (Option (doubly_node_t α))
deriving DecidableEq, Repr

def DHeap.get (h : DHeap α) (a : Nat) : Option (doubly_node_t α) :=
  (h.store[a]?).bind id

def DHeap.alloc (h : DHeap α) (nd : doubly_node_t α) : DHeap α × Nat :=
  (⟨h.store ++ [some nd]⟩, h.store.length)

def DHeap.free (h : DHeap α) (a : Nat) : DHeap α := ⟨h.store.set a none⟩

def DHeap.write (h : DHeap α) (a : Nat) (nd : doubly_node_t α) : DHeap α :=
  ⟨h.store.set a (some nd)⟩

/-- The assignment `a->next = nxt`. -/
def DHeap.setNext (h : DHeap α) (a : Nat) (nxt : Option Nat) : DHeap α :=
  match h.get a with
  | some nd => h.write a { nd with next := nxt }
  | none => h

/-- The assignment `a->prev = p`. -/
def DHeap.setPrev (h : DHeap α) (a : Nat) (p : Option Nat) : DHeap α :=
  match h.get a with
  | some nd => h.write a { nd with prev := p }
  | none => h

/-- The assignment `a->data = x`. -/
def DHeap.setData (h : DHeap α) (a : Nat) (x : α) : DHeap α :=
  match h.get a with
  | some nd => h.write a { nd with data := x }
  | none => h

/-- The read `a->next`. -/
def DHeap.nextOf (h : DHeap α) (a : Nat) : Option Nat :=
  match h.get a with
  | some nd => nd.next
  | none => none

/-- The read `a->prev`. -/
def DHeap.prevOf (h : DHeap α) (a : Nat) : Option Nat :=
  match h.get a with
  | some nd => nd.prev
  | none => none

/-- The list header (`doubly_list_t`). -/
structure doubly_list_t where
  head : Option Nat
  tail : Option Nat
  size : Nat
  element_size : Nat
deriving DecidableEq, Repr

/-- A doubly-list program state. -/
structure DState (α : Type) where
  heap : DHeap α
  list : doubly_list_t
deriving DecidableEq, Repr

/-- `doubly_list_push_front`. -/
def doubly_list_push_front (allocOk : Bool) (s : DState α) (element : α) :
    status_t × DState α :=
  if allocOk then
    let r := s.heap.alloc { data := element, next := s.list.head, prev := none }
    let h1 := match s.list.head with
      | some hd => r.1.setPrev hd (some r.2)
      | none => r.1
    (.SUCCESS,
      ⟨h1,
       { s.list with
         head := some r.2
         tail := if s.list.tail = none then some r.2 else s.list.tail
         size := s.list.size + 1 }⟩)
  else (.ERROR_MEMORY_ALLOCATION, s)

/-- `doubly_list_push_back`. -/
def doubly_list_push_back (allocOk : Bool) (s : DState α) (element : α) :
    status_t × DState α :=
  if allocOk then
    let r := s.heap.alloc { data := element, next := none, prev := s.list.tail }
    let h1 := match s.list.tail with
      | some t => r.1.setNext t (some r.2)
      | none => r.1
    (.SUCCESS,
      ⟨h1,
       { s.list with
         tail := some r.2
         head := if s.list.head = none then some r.2 else s.list.head
         size := s.list.size + 1 }⟩)
  else (.ERROR_MEMORY_ALLOCATION, s)

/-- `doubly_list_pop_front`. -/
def doubly_list_pop_front (s : DState α) : status_t × DState α × Option α :=
  match s.list.head with
  | none => (.ERROR_EMPTY_CONTAINER, s, none)
  | some a =>
    let out := (s.heap.get a).map doubly_node_t.data
    let newHead := s.heap.nextOf a
    let h1 := match newHead with
      | some nh => s.heap.setPrev nh none
      | none => s.heap
    (.SUCCESS,
      ⟨h1.free a,
       { s.list with
         head := newHead
         tail := if newHead = none then none else s.list.tail
         size := s.list.size - 1 }⟩, out)

/-- `doubly_list_pop_back`: O(1) via `tail->prev`. -/
def doubly_list_pop_back (s : DState α) : status_t × DState α × Option α :=
  match s.list.tail with
  | none => (.ERROR_EMPTY_CONTAINER, s, none)
  | some a =>
    let out := (s.heap.get a).map doubly_node_t.data
    let newTail := s.heap.prevOf a
    let h1 := match newTail with
      | some nt => s.heap.setNext nt none
      | none => s.heap
    (.SUCCESS,
      ⟨h1.free a,
       { s.list with
         tail := newTail
         head := if newTail = none then none else s.list.head
         size := s.list.size - 1 }⟩, out)

/-- Guarded forward walk (`current = current->next`, `index` times, stopping
at NULL). -/
def d_walk_next (h : DHeap α) : Option Nat → Nat → Option Nat
  | a, 0 => a
  | none, _ + 1 => none
  | some a, k + 1 => d_walk_next h (h.nextOf a) k

/-- Guarded backward walk (`current = current->prev`). -/
def d_walk_prev (h : DHeap α) : Option Nat → Nat → Option Nat
  | a, 0 => a
  | none, _ + 1 => none
  | some a, k + 1 => d_walk_prev h (h.prevOf a) k

/-- `get_doubly_node_at`: nearest-end traversal — forward from `head` when
`index < size / 2`, else backward from `tail` (`size - 1 - index` steps). -/
def get_doubly_node_at (s : DState α) (index : Nat) : Option Nat :=
  if s.list.size ≤ index then none
  else if index < s.list.size / 2 then d_walk_next s.heap s.list.head index
  else d_walk_prev s.heap s.list.tail (s.list.size - 1 - index)

/-- `doubly_list_insert`: ends are delegated to the push operations,
otherwise the new node is spliced in before the node at `index`. -/
def doubly_list_insert (allocOk : Bool) (s : DState α) (index : Nat) (element : α) :
    status_t × DState α :=
  if s.list.size < index then (.ERROR_INDEX_OUT_OF_BOUNDS, s)
  else if index = 0 then doubly_list_push_front allocOk s element
  else if index = s.list.size then doubly_list_push_back allocOk s element
  else
    match get_doubly_node_at s index with
    | none => (.ERROR_INDEX_OUT_OF_BOUNDS, s)
    | some cur =>
      if allocOk then
        let r := s.heap.alloc
          { data := element, next := some cur, prev := s.heap.prevOf cur }
        let h1 := match s.heap.prevOf cur with
          | some p => r.1.setNext p (some r.2)
          | none => r.1
        (.SUCCESS, ⟨h1.setPrev cur (some r.2), { s.list with size := s.list.size + 1 }⟩)
      else (.ERROR_MEMORY_ALLOCATION, s)

/-- `doubly_list_remove`: ends delegate to the pops, otherwise the node is
spliced out via its own links. -/
def doubly_list_remove (s : DState α) (index : Nat) : status_t × DState α :=
  if s.list.size ≤ index then (.ERROR_INDEX_OUT_OF_BOUNDS, s)
  else if index = 0 then
    let r := doubly_list_pop_front s
    (r.1, r.2.1)
  else if index = s.list.size - 1 then
    let r := doubly_list_pop_back s
    (r.1, r.2.1)
  else
    match get_doubly_node_at s index with
    | none => (.ERROR_INDEX_OUT_OF_BOUNDS, s)
    | some rm =>
      let h1 := match s.heap.prevOf rm with
        | some p => s.heap.setNext p (s.heap.nextOf rm)
        | none => s.heap
      let h2 := match s.heap.nextOf rm with
        | some n => h1.setPrev n (s.heap.prevOf rm)
        | none => h1
      (.SUCCESS, ⟨h2.free rm, { s.list with size := s.list.size - 1 }⟩)

/-- `doubly_list_get`. -/
def doubly_list_get (s : DState α) (index : Nat) : status_t × Option α :=
  match get_doubly_node_at s index with
  | none => (.ERROR_INDEX_OUT_OF_BOUNDS, none)
  | some a => (.SUCCESS, (s.heap.get a).map doubly_node_t.data)

/-- `doubly_list_set`. -/
def doubly_list_set (s : DState α) (index : Nat) (element : α) :
    status_t × DState α :=
  match get_doubly_node_at s index with
  | none => (.ERROR_INDEX_OUT_OF_BOUNDS, s)
  | some a => (.SUCCESS, ⟨s.heap.setData a element, s.list⟩)

/-- The destroy-all loop of `doubly_list_clear`, fueled by the list size. -/
def d_clear_loop (h : DHeap α) : Option Nat → Nat → DHeap α
  | none, _ => h
  | some _, 0 => h
  | some a, fuel + 1 => d_clear_loop (h.free a) (h.nextOf a) fuel

/-- `doubly_list_clear`. -/
def doubly_list_clear (s : DState α) : DState α :=
  ⟨d_clear_loop s.heap s.list.head s.list.size,
   { s.list with head := none, tail := none, size := 0 }⟩

/-- The link-flipping loop of `doubly_list_reverse`: each node's `next` and
`prev` are swapped, walking via the old `next` pointer. -/
def d_rev_loop (h : DHeap α) : Option Nat → Nat → DHeap α
  | none, _ => h
  | some _, 0 => h
  | some a, fuel + 1 =>
    match h.get a with
    | none => h
    | some nd =>
      d_rev_loop (h.write a { nd with next := nd.prev, prev := nd.next }) nd.next fuel

/-- `doubly_list_reverse`: head and tail swapped, every node's link pair
flipped. -/
def doubly_list_reverse (s : DState α) : status_t × DState α :=
  if s.list.size ≤ 1 then (.SUCCESS, s)
  else
    (.SUCCESS,
      ⟨d_rev_loop s.heap s.list.head s.list.size,
       { s.list with head := s.list.tail, tail := s.list.head }⟩)

/-- `2^64`: the modulus of `size_t` arithmetic on the reference platform. -/
def SIZE_T_MOD : Nat := 2 ^ 64

/-- The doubly-list iterator (`doubly_list_iter_t`): the referenced list is
the ambient state; `current` is the next node to yield. -/
structure doubly_list_iter_t where
  current : Option Nat
  position : Nat
deriving DecidableEq, Repr

/-- `doubly_list_iter_create`: starts at the head, position 0. -/
def doubly_list_iter_create (s : DState α) : doubly_list_iter_t :=
  { current := s.list.head, position := 0 }

/-- `doubly_list_iter_create_reverse`: starts at the tail with
`position = list->size - 1` computed in `size_t` arithmetic, which wraps to
`2^64 - 1` when the size is 0. -/
def doubly_list_iter_create_reverse (s : DState α) : doubly_list_iter_t :=
  { current := s.list.tail
    position := (s.list.size % SIZE_T_MOD + SIZE_T_MOD - 1) % SIZE_T_MOD }

/-- `doubly_list_iter_has_next`: true iff `current` is non-NULL. -/
def doubly_list_iter_has_next (it : doubly_list_iter_t) : Bool :=
  it.current ≠ none

/-- `doubly_list_iter_has_prev`: true iff `current` is non-NULL. -/
def doubly_list_iter_has_prev (it : doubly_list_iter_t) : Bool :=
  it.current ≠ none

/-- `doubly_list_iter_next`: copies the current node's data out, advances to
`current->next`, increments `position`. -/
def doubly_list_iter_next (s : DState α) (it : doubly_list_iter_t) :
    status_t × doubly_list_iter_t × Option α :=
  match it.current with
  | none => (.ERROR_INVALID_INPUT, it, none)
  | some a =>
    (.SUCCESS,
      { current := s.heap.nextOf a, position := (it.position + 1) % SIZE_T_MOD },
      (s.heap.get a).map doubly_node_t.data)

/-- `doubly_list_iter_prev`: copies the current node's data out, moves to
`current->prev`, decrements `position` (in `size_t` arithmetic). -/
def doubly_list_iter_prev (s : DState α) (it : doubly_list_iter_t) :
    status_t × doubly_list_iter_t × Option α :=
  match it.current with
  | none => (.ERROR_INVALID_INPUT, it, none)
  | some a =>
    (.SUCCESS,
      { current := s.heap.prevOf a
        position := (it.position + SIZE_T_MOD - 1) % SIZE_T_MOD },
      (s.heap.get a).map doubly_node_t.data)

/-- `doubly_list_iter_remove`: splices out the node `current` points at via
its own `prev`/`next` links (O(1), updating head/tail when at an end),
advances `current` to the removed node's successor, decrements the size and
frees the node; `position` is not modified.  (Reading a dangling `current`
is undefined behavior in C; the model returns the state unchanged in that
unreachable case.) -/
def doubly_list_iter_remove (s : DState α) (it : doubly_list_iter_t) :
    status_t × DState α × doubly_list_iter_t :=
  match it.current with
  | none => (.ERROR_INVALID_INPUT, s, it)
  | some a =>
    match s.heap.get a with
    | none => (.SUCCESS, s, it)
    | some nd =>
      let h1 := match nd.prev with
        | some p => s.heap.setNext p nd.next
        | none => s.heap
      let h2 := match nd.next with
        | some n => h1.setPrev n nd.prev
        | none => h1
      (.SUCCESS,
        ⟨h2.free a,
         { s.list with
           head := if nd.prev = none then nd.next else s.list.head
           tail := if nd.next = none then nd.prev else s.list.tail
           size := s.list.size - 1 }⟩,
        { it with current := nd.next })

/-! ### Heap access lemmas (singly) -/

theorem SHeap.get_lt_of_some {h : SHeap α} {a : Nat} {nd : singly_node_t α}
    (hg : h.get a = some nd) : a < h.store.length := by
  by_contra hc
  have : h.store[a]? = none := List.getElem?_eq_none (by omega)
  simp [SHeap.get, this] at hg

theorem SHeap.get_alloc (h : SHeap α) (nd : singly_node_t α) (a : Nat) :
    (h.alloc nd).1.get a = if a = h.store.length then some nd else h.get a := by
  unfold SHeap.alloc SHeap.get
  simp only
  rcases Nat.lt_trichotomy a h.store.length with hlt | heq | hgt
  · rw [List.getElem?_append_left hlt, if_neg (by omega)]
  · subst heq
    rw [List.getElem?_concat_length, if_pos rfl]
    rfl
  · rw [if_neg (by omega)]
    rw [List.getElem?_eq_none (by simp; omega), List.getElem?_eq_none (by omega)]

theorem SHeap.get_free (h : SHeap α) (b a : Nat) :
    (h.free b).get a = if a = b then none else h.get a := by
  unfold SHeap.free SHeap.get
  simp only
  rw [List.getElem?_set]
  by_cases hab : a = b
  · subst hab
    rw [if_pos rfl, if_pos rfl]
    split_ifs <;> rfl
  · rw [if_neg (fun hh => hab hh.symm), if_neg hab]

theorem SHeap.get_write {h : SHeap α} {b : Nat} {nd0 : singly_node_t α}
    (hb : h.get b = some nd0) (nd : singly_node_t α) (a : Nat) :
    (h.write b nd).get a = if a = b then some nd else h.get a := by
  have hlt := SHeap.get_lt_of_some hb
  unfold SHeap.write SHeap.get
  simp only
  rw [List.getElem?_set]
  by_cases hab : a = b
  · subst hab
    rw [if_pos rfl, if_pos rfl, if_pos hlt]
    rfl
  · rw [if_neg (fun hh => hab hh.symm), if_neg hab]

theorem SHeap.get_setNext {h : SHeap α} {b : Nat} {nd0 : singly_node_t α}
    (hb : h.get b = some nd0) (nxt : Option Nat) (a : Nat) :
    (h.setNext b nxt).get a =
      if a = b then some { nd0 with next := nxt } else h.get a := by
  unfold SHeap.setNext
  rw [hb]
  exact SHeap.get_write hb _ a

theorem SHeap.get_setData {h : SHeap α} {b : Nat} {nd0 : singly_node_t α}
    (hb : h.get b = some nd0) (x : α) (a : Nat) :
    (h.setData b x).get a =
      if a = b then some { nd0 with data := x } else h.get a := by
  unfold SHeap.setData
  rw [hb]
  exact SHeap.get_write hb _ a

theorem SHeap.nextOf_some {h : SHeap α} {a : Nat} {nd : singly_node_t α}
    (hg : h.get a = some nd) : h.nextOf a = nd.next := by
  unfold SHeap.nextOf
  rw [hg]

/-! ### Singly chain segments -/

/-- `SSeg h s q addrs xs`: starting from the pointer `s`, following `next`
visits exactly the nodes at `addrs` (with data `xs`) and ends with the
pointer value `q`. -/
inductive SSeg (h : SHeap α) : Option Nat → Option Nat → List Nat → List α → Prop
  | nil (q : Option Nat) : SSeg h q q [] []
  | cons {a : Nat} {nd : singly_node_t α} {q : Option Nat} {rest : List Nat}
      {xs : List α} :
      h.get a = some nd → SSeg h nd.next q rest xs →
      SSeg h (some a) q (a :: rest) (nd.data :: xs)

/-- The representation invariant of a singly list (the structural invariant
of the spec): the chain from `head` spells `addrs`/`xs`, terminates at NULL,
has exactly `size` nodes, `tail` caches the last node, and the node
addresses are distinct. -/
def SRep (s : SState α) (addrs : List Nat) (xs : List α) : Prop :=
  SSeg s.heap s.list.head none addrs xs ∧
  addrs.length = s.list.size ∧
  s.list.tail = addrs.getLast? ∧
  addrs.Nodup

/-- Structural well-formedness of a singly-list state. -/
def SWF (s : SState α) : Prop := ∃ addrs xs, SRep s addrs xs

theorem SSeg.length_eq {h : SHeap α} {s q : Option Nat} {addrs : List Nat}
    {xs : List α} (hs : SSeg h s q addrs xs) : xs.length = addrs.length := by
  induction hs with
  | nil => rfl
  | cons _ _ ih => simpa using ih

theorem SSeg.get_mem {h : SHeap α} {s q : Option Nat} {addrs : List Nat}
    {xs : List α} (hs : SSeg h s q addrs xs) {a : Nat} (ha : a ∈ addrs) :
    ∃ nd, h.get a = some nd := by
  induction hs with
  | nil => simp at ha
  | cons hget _ ih =>
    rcases List.mem_cons.mp ha with heq | hm
    · exact ⟨_, heq ▸ hget⟩
    · exact ih hm

theorem SSeg.frame {h h2 : SHeap α} {s q : Option Nat} {addrs : List Nat}
    {xs : List α} (hs : SSeg h s q addrs xs)
    (hagree : ∀ a ∈ addrs, h2.get a = h.get a) : SSeg h2 s q addrs xs := by
  induction hs with
  | nil => exact SSeg.nil _
  | cons hget hrest ih =>
    exact SSeg.cons ((hagree _ (by simp)).trans hget)
      (ih fun a ha => hagree a (by simp [ha]))

theorem SSeg.append {h : SHeap α} {s m q : Option Nat} {l1 l2 : List Nat}
    {x1 x2 : List α} (h1 : SSeg h s m l1 x1) (h2 : SSeg h m q l2 x2) :
    SSeg h s q (l1 ++ l2) (x1 ++ x2) := by
  induction h1 with
  | nil => exact h2
  | cons hget hrest ih => exact SSeg.cons hget (ih h2)

theorem SSeg.split {h : SHeap α} {s q : Option Nat} {l1 l2 : List Nat}
    {x1 x2 : List α} (hs : SSeg h s q (l1 ++ l2) (x1 ++ x2))
    (hlen : x1.length = l1.length) :
    ∃ m, SSeg h s m l1 x1 ∧ SSeg h m q l2 x2 := by
  induction l1 generalizing s x1 with
  | nil =>
    have hx : x1 = [] := List.length_eq_zero.mp (by simpa using hlen)
    subst hx
    exact ⟨s, SSeg.nil s, by simpa using hs⟩
  | cons a rest ih =>
    cases x1 with
    | nil => simp at hlen
    | cons x xr =>
      cases hs with
      | cons hget hrest =>
        obtain ⟨m, hm1, hm2⟩ := ih hrest (by simpa using hlen)
        exact ⟨m, SSeg.cons hget hm1, hm2⟩

theorem SSeg.mem_lt {h : SHeap α} {s q : Option Nat} {addrs : List Nat}
    {xs : List α} (hs : SSeg h s q addrs xs) {a : Nat} (ha : a ∈ addrs) :
    a < h.store.length := by
  obtain ⟨nd, hnd⟩ := hs.get_mem ha
  exact SHeap.get_lt_of_some hnd

/-- Chains are unaffected by allocating a fresh node. -/
theorem SSeg.alloc_frame {h : SHeap α} {s q : Option Nat} {addrs : List Nat}
    {xs : List α} (hs : SSeg h s q addrs xs) (nd : singly_node_t α) :
    SSeg (h.alloc nd).1 s q addrs xs :=
  hs.frame fun a ha => by
    rw [SHeap.get_alloc, if_neg (by have := hs.mem_lt ha; omega)]

/-- The head pointer of a non-empty chain is its first address. -/
theorem SSeg.start_eq {h : SHeap α} {s q : Option Nat} {a : Nat}
    {addrs : List Nat} {xs : List α} (hs : SSeg h s q (a :: addrs) xs) :
    s = some a := by
  cases hs
  rfl

/-- An empty chain identifies its two boundary pointers. -/
theorem SSeg.nil_eq {h : SHeap α} {s q : Option Nat}
    (hs : SSeg h s q ([] : List Nat) ([] : List α)) : s = q := by
  cases hs
  rfl

/-- Inversion of an empty chain. -/
theorem SSeg.nil_inv {h : SHeap α} {s q : Option Nat} {xs : List α}
    (hs : SSeg h s q ([] : List Nat) xs) : s = q ∧ xs = [] := by
  cases hs
  exact ⟨rfl, rfl⟩

/-- Walking `i < length` steps from the start of a chain lands on `addrs[i]`. -/
theorem SSeg.walk_lt {h : SHeap α} {s q : Option Nat} {addrs : List Nat}
    {xs : List α} (hs : SSeg h s q addrs xs) :
    ∀ i, i < addrs.length → s_walk h s i = addrs[i]? := by
  induction hs with
  | nil => intro i hi; simp at hi
  | cons hget hrest ih =>
    intro i hi
    cases i with
    | zero => rw [s_walk]; simp [List.getElem?_cons_zero]
    | succ k =>
      rw [s_walk, SHeap.nextOf_some hget, List.getElem?_cons_succ]
      exact ih k (by simpa using hi)

/-- Walking exactly `length` steps from the start reaches the exit pointer. -/
theorem SSeg.walk_end {h : SHeap α} {s q : Option Nat} {addrs : List Nat}
    {xs : List α} (hs : SSeg h s q addrs xs) :
    s_walk h s addrs.length = q := by
  induction hs with
  | nil => simp [s_walk]
  | cons hget hrest ih =>
    rw [List.length_cons, s_walk, SHeap.nextOf_some hget]
    exact ih

/-- Inversion of a non-empty chain. -/
theorem SSeg.cons_inv {h : SHeap α} {s q : Option Nat} {a : Nat}
    {rest : List Nat} {xs : List α} (hs : SSeg h s q (a :: rest) xs) :
    s = some a ∧
    ∃ nd xs0, h.get a = some nd ∧ xs = nd.data :: xs0 ∧ SSeg h nd.next q rest xs0 := by
  cases hs with
  | cons hget hrest => exact ⟨rfl, _, _, hget, rfl, hrest⟩

/-- The node at position `i` of a chain carries the data at position `i`. -/
theorem SSeg.data_at {h : SHeap α} {s q : Option Nat} {addrs : List Nat}
    {xs : List α} (hs : SSeg h s q addrs xs) :
    ∀ (i a : Nat), addrs[i]? = some a →
      ∃ nd, h.get a = some nd ∧ xs[i]? = some nd.data := by
  induction hs with
  | nil =>
    intro i a ha
    simp at ha
  | cons hget hrest ih =>
    rename_i a0 nd q0 rest xs0
    intro i a ha
    cases i with
    | zero =>
      rw [List.getElem?_cons_zero, Option.some_inj] at ha
      subst ha
      exact ⟨nd, hget, by rw [List.getElem?_cons_zero]⟩
    | succ k =>
      rw [List.getElem?_cons_succ] at ha
      obtain ⟨nd2, h1, h2⟩ := ih k a ha
      exact ⟨nd2, h1, by rw [List.getElem?_cons_succ]; exact h2⟩

/-- Redirecting the `next` link of the last node of a chain retargets the
chain's exit pointer. -/
theorem SSeg.setNext_last {h : SHeap α} {s q : Option Nat} {l0 : List Nat}
    {b : Nat} {xs : List α} (hs : SSeg h s q (l0 ++ [b]) xs)
    (hnd : (l0 ++ [b]).Nodup) (q2 : Option Nat) :
    SSeg (h.setNext b q2) s q2 (l0 ++ [b]) xs := by
  induction l0 generalizing s xs with
  | nil =>
    rw [List.nil_append] at hs ⊢
    obtain ⟨hsb, nd, xs0, hget, hxs, hrest⟩ := hs.cons_inv
    have h0 := SSeg.nil_inv hrest
    subst hxs hsb
    rw [h0.2]
    have hget2 : (h.setNext b q2).get b = some { nd with next := q2 } := by
      rw [SHeap.get_setNext hget, if_pos rfl]
    show SSeg (h.setNext b q2) (some b) q2 (b :: [])
      ({ nd with next := q2 }.data :: [])
    exact SSeg.cons hget2 (SSeg.nil q2)
  | cons a l0 ih =>
    rw [List.cons_append] at hs ⊢
    obtain ⟨hsa, nd, xs0, hget, hxs, hrest⟩ := hs.cons_inv
    have hna : a ∉ l0 ++ [b] := (List.nodup_cons.mp hnd).1
    have hab : a ≠ b := fun he => hna (by simp [he])
    obtain ⟨ndb, hndb⟩ := hrest.get_mem (a := b) (by simp)
    subst hxs hsa
    have hget2 : (h.setNext b q2).get a = some nd := by
      rw [SHeap.get_setNext hndb, if_neg hab]
      exact hget
    exact SSeg.cons hget2 (ih hrest (List.nodup_cons.mp hnd).2)

/-- Updating the data of a chain node updates exactly that position of the
value list. -/
theorem SSeg.setData_at {h : SHeap α} {s q : Option Nat} {addrs : List Nat}
    {xs : List α} (hs : SSeg h s q addrs xs) (hnd : addrs.Nodup) :
    ∀ (i b : Nat) (x : α), addrs[i]? = some b →
      SSeg (h.setData b x) s q addrs (xs.set i x) := by
  induction hs with
  | nil =>
    intro i b x hb
    simp at hb
  | cons hget hrest ih =>
    rename_i a nd q0 rest xs0
    intro i b x hb
    obtain ⟨hna, hnr⟩ := List.nodup_cons.mp hnd
    cases i with
    | zero =>
      rw [List.getElem?_cons_zero, Option.some_inj] at hb
      subst hb
      have hget2 : (h.setData a x).get a = some { nd with data := x } := by
        rw [SHeap.get_setData hget, if_pos rfl]
      have hrest2 : SSeg (h.setData a x) nd.next q0 rest xs0 :=
        hrest.frame fun c hc => by
          rw [SHeap.get_setData hget, if_neg (by rintro rfl; exact hna hc)]
      exact SSeg.cons hget2 hrest2
    | succ k =>
      rw [List.getElem?_cons_succ] at hb
      have hbm : b ∈ rest := List.getElem?_mem hb
      have hab : a ≠ b := by
        rintro rfl
        exact hna hbm
      obtain ⟨ndb, hndb⟩ := hrest.get_mem hbm
      have hget2 : (h.setData b x).get a = some nd := by
        rw [SHeap.get_setData hndb, if_neg hab]
        exact hget
      exact SSeg.cons hget2 (ih hnr k b x hb)

/-! ### Singly list: operation correctness over the representation -/

theorem SRep.tail_none_iff {s : SState α} {addrs : List Nat} {xs : List α}
    (hr : SRep s addrs xs) : s.list.tail = none ↔ addrs = [] := by
  obtain ⟨hseg, hlen, htail, hnd⟩ := hr
  rw [htail]
  cases addrs with
  | nil => simp
  | cons a l => simp [List.getLast?_cons]

theorem SRep.head_eq {s : SState α} {addrs : List Nat} {xs : List α}
    (hr : SRep s addrs xs) : s.list.head = addrs.head? := by
  obtain ⟨hseg, hlen, htail, hnd⟩ := hr
  cases addrs with
  | nil => simpa using hseg.nil_inv.1
  | cons a l => simpa using hseg.start_eq

theorem SRep.length_xs {s : SState α} {addrs : List Nat} {xs : List α}
    (hr : SRep s addrs xs) : xs.length = s.list.size := by
  rw [hr.1.length_eq, hr.2.1]

theorem singly_push_front_spec {s : SState α} {addrs : List Nat} {xs : List α}
    (hr : SRep s addrs xs) (x : α) :
    (singly_list_push_front true s x).1 = .SUCCESS ∧
    SRep (singly_list_push_front true s x).2 (s.heap.store.length :: addrs) (x :: xs) := by
  obtain ⟨hseg, hlen, htail, hnd⟩ := hr
  have hfresh : ∀ a ∈ addrs, a ≠ s.heap.store.length := by
    intro a ha
    have := hseg.mem_lt ha
    omega
  have hfget : ((s.heap.alloc { data := x, next := s.list.head }).1).get
      s.heap.store.length = some { data := x, next := s.list.head } := by
    rw [SHeap.get_alloc, if_pos rfl]
  have hseg2 : SSeg (s.heap.alloc { data := x, next := s.list.head }).1
      s.list.head none addrs xs := hseg.alloc_frame _
  unfold singly_list_push_front
  simp only [reduceIte]
  refine ⟨by trivial, SSeg.cons hfget hseg2, by simpa using hlen, ?_, ?_⟩
  · show (if s.list.tail = none then some (s.heap.alloc _).2 else s.list.tail) =
      (s.heap.store.length :: addrs).getLast?
    cases haddr : addrs with
    | nil =>
      rw [if_pos (show s.list.tail = none by rw [htail, haddr]; rfl)]
      rfl
    | cons a l =>
      rw [if_neg (by rw [htail, haddr]; simp [List.getLast?_cons]),
        List.getLast?_cons_cons, htail, haddr]
  · exact List.nodup_cons.mpr ⟨fun hmem => hfresh _ hmem rfl, hnd⟩

theorem singly_push_back_spec {s : SState α} {addrs : List Nat} {xs : List α}
    (hr : SRep s addrs xs) (x : α) :
    (singly_list_push_back true s x).1 = .SUCCESS ∧
    SRep (singly_list_push_back true s x).2 (addrs ++ [s.heap.store.length])
      (xs ++ [x]) := by
  obtain ⟨hseg, hlen, htail, hnd⟩ := hr
  have hfresh : s.heap.store.length ∉ addrs := by
    intro hmem
    have := hseg.mem_lt hmem
    omega
  have hnd2 : (addrs ++ [s.heap.store.length]).Nodup := by
    rw [List.nodup_append]
    exact ⟨hnd, by simp, by intro a ha hb; simp at hb; subst hb; exact hfresh ha⟩
  unfold singly_list_push_back
  simp only [reduceIte]
  cases htl : s.list.tail with
  | none =>
    have haddr : addrs = [] := (SRep.tail_none_iff ⟨hseg, hlen, htail, hnd⟩).mp htl
    have hxs : xs = [] := by
      have := hseg.length_eq
      rw [haddr] at this
      simpa using List.length_eq_zero.mp this
    subst haddr hxs
    have hfget : ((s.heap.alloc { data := x, next := none }).1).get
        s.heap.store.length = some { data := x, next := none } := by
      rw [SHeap.get_alloc, if_pos rfl]
    refine ⟨by trivial, SSeg.cons hfget (SSeg.nil none), ?_, by rfl, by simp⟩
    simp only [List.nil_append, List.length_cons, List.length_nil] at hlen ⊢
    omega
  | some t =>
    obtain ⟨l0, hl0⟩ : ∃ l0, addrs = l0 ++ [t] := by
      rw [htail] at htl
      exact List.getLast?_eq_some_iff.mp htl
    subst hl0
    have hxlen : xs.length = l0.length + 1 := by
      rw [hseg.length_eq]
      simp
    have hxdecomp : xs.take l0.length ++ xs.drop l0.length = xs :=
      List.take_append_drop _ _
    obtain ⟨m, hm1, hm2⟩ := SSeg.split (by rw [hxdecomp]; exact hseg)
      (by rw [List.length_take]; omega)
    obtain ⟨hmt, ndt, xs2, hgett, hxdrop, hrest2⟩ := hm2.cons_inv
    obtain ⟨hnext_none, hxs2⟩ := hrest2.nil_inv
    subst hxs2
    have hfne : t ≠ s.heap.store.length := by
      have := hseg.mem_lt (a := t) (by simp)
      omega
    have hseg_h1 : SSeg (s.heap.alloc { data := x, next := none }).1
        s.list.head none (l0 ++ [t]) xs := hseg.alloc_frame _
    have hseg_h2 : SSeg ((s.heap.alloc { data := x, next := none }).1.setNext t
        (some s.heap.store.length)) s.list.head (some s.heap.store.length)
        (l0 ++ [t]) xs := hseg_h1.setNext_last hnd _
    have hfget : ((s.heap.alloc { data := x, next := none }).1.setNext t
        (some s.heap.store.length)).get s.heap.store.length =
        some { data := x, next := none } := by
      obtain ⟨ndt2, hndt2⟩ := hseg_h1.get_mem (a := t) (by simp)
      rw [SHeap.get_setNext hndt2, if_neg (fun hh => hfne hh.symm),
        SHeap.get_alloc, if_pos rfl]
    have hchain : SSeg ((s.heap.alloc { data := x, next := none }).1.setNext t
        (some s.heap.store.length)) s.list.head none
        ((l0 ++ [t]) ++ [s.heap.store.length]) (xs ++ [x]) :=
      hseg_h2.append (SSeg.cons hfget (SSeg.nil none))
    refine ⟨by trivial, hchain, ?_, ?_, hnd2⟩
    · simp only [List.length_append, List.length_cons, List.length_nil] at hlen ⊢
      omega
    · rw [List.getLast?_concat]
      rfl

theorem singly_pop_front_empty {s : SState α} (hr : SRep s [] ([] : List α)) :
    singly_list_pop_front s = (.ERROR_EMPTY_CONTAINER, s, none) := by
  have hh : s.list.head = none := by
    rw [hr.head_eq]
    rfl
  simp only [singly_list_pop_front, hh]

theorem singly_pop_front_spec {s : SState α} {a : Nat} {addrs : List Nat}
    {x : α} {xs : List α} (hr : SRep s (a :: addrs) (x :: xs)) :
    (singly_list_pop_front s).1 = .SUCCESS ∧
    (singly_list_pop_front s).2.2 = some x ∧
    SRep (singly_list_pop_front s).2.1 addrs xs := by
  obtain ⟨hseg, hlen, htail, hnd⟩ := hr
  obtain ⟨hhead, nd, xs0, hget, hxs, hrest⟩ := hseg.cons_inv
  obtain ⟨hx, hxs0⟩ : x = nd.data ∧ xs = xs0 := by
    injection hxs with h1 h2
    exact ⟨h1, h2⟩
  subst hx hxs0
  obtain ⟨hna, hnd2⟩ := List.nodup_cons.mp hnd
  have hnext : s.heap.nextOf a = nd.next := SHeap.nextOf_some hget
  have hrest2 : SSeg (s.heap.free a) nd.next none addrs xs :=
    hrest.frame fun c hc => by
      rw [SHeap.get_free, if_neg (by rintro rfl; exact hna hc)]
  simp only [singly_list_pop_front, hhead, hnext, hget]
  refine ⟨by trivial, by trivial, hrest2, by simp at hlen ⊢; omega, ?_, hnd2⟩
  show (if nd.next = none then none else s.list.tail) = addrs.getLast?
  cases haddr : addrs with
  | nil =>
    rw [if_pos]
    · rfl
    · rw [haddr] at hrest
      exact hrest.nil_inv.1
  | cons b l =>
    rw [if_neg (by rw [haddr] at hrest; rw [hrest.start_eq]; simp), htail, haddr,
      List.getLast?_cons_cons]

theorem singly_get_spec {s : SState α} {addrs : List Nat} {xs : List α}
    (hr : SRep s addrs xs) (i : Nat) (hi : i < s.list.size) :
    singly_list_get s i = (.SUCCESS, xs[i]?) := by
  obtain ⟨hseg, hlen, htail, hnd⟩ := hr
  have hi2 : i < addrs.length := by omega
  obtain ⟨a, ha⟩ : ∃ a, addrs[i]? = some a := ⟨_, List.getElem?_eq_getElem hi2⟩
  obtain ⟨nd, hget, hdata⟩ := hseg.data_at i a ha
  have hnode : get_node_at s i = some a := by
    unfold get_node_at
    rw [if_neg (by omega), hseg.walk_lt i hi2, ha]
  simp only [singly_list_get, hnode, hget, hdata]
  rfl

theorem singly_set_spec {s : SState α} {addrs : List Nat} {xs : List α}
    (hr : SRep s addrs xs) (i : Nat) (x : α) (hi : i < s.list.size) :
    (singly_list_set s i x).1 = .SUCCESS ∧
    SRep (singly_list_set s i x).2 addrs (xs.set i x) := by
  obtain ⟨hseg, hlen, htail, hnd⟩ := hr
  have hi2 : i < addrs.length := by omega
  obtain ⟨a, ha⟩ : ∃ a, addrs[i]? = some a := ⟨_, List.getElem?_eq_getElem hi2⟩
  have hnode : get_node_at s i = some a := by
    unfold get_node_at
    rw [if_neg (by omega), hseg.walk_lt i hi2, ha]
  simp only [singly_list_set, hnode]
  exact ⟨by trivial, hseg.setData_at hnd i a x ha, hlen, htail, hnd⟩

theorem singly_insert_middle {s : SState α} {A : List Nat} {p b : Nat}
    {B : List Nat} {xA : List α} {xp xb : α} {xB : List α}
    (hr : SRep s (A ++ p :: b :: B) (xA ++ xp :: xb :: xB))
    (hlenA : xA.length = A.length) (x : α) :
    (singly_list_insert true s (A.length + 1) x).1 = .SUCCESS ∧
    SRep (singly_list_insert true s (A.length + 1) x).2
      (A ++ p :: s.heap.store.length :: b :: B)
      (xA ++ xp :: x :: xb :: xB) := by
  obtain ⟨hseg, hlen, htail, hnd⟩ := hr
  have hlen2 : A.length + B.length + 2 = s.list.size := by
    simp at hlen
    omega
  obtain ⟨m1, hm1, hm2⟩ := hseg.split hlenA
  obtain ⟨hm1p, ndp, xs0, hgetp, hxs0, hrestp⟩ := hm2.cons_inv
  subst hm1p
  obtain ⟨hxp, hxs0b⟩ : xp = ndp.data ∧ xb :: xB = xs0 := by
    injection hxs0 with h1 h2
    exact ⟨h1, h2⟩
  subst hxs0b
  subst hxp
  have hnextp : ndp.next = some b := hrestp.start_eq
  have hp1 := List.nodup_cons.mp (List.nodup_middle.mp hnd)
  have hpA : p ∉ A := fun hc => hp1.1 (by simp [hc])
  have hpbB : p ∉ b :: B := fun hc => hp1.1 (by simp at hc ⊢; tauto)
  have hmemlt : ∀ c ∈ A ++ p :: b :: B, c < s.heap.store.length :=
    fun c hc => hseg.mem_lt hc
  have hplt : p < s.heap.store.length := hmemlt p (by simp)
  have hnxp : s.heap.nextOf p = some b := by
    rw [SHeap.nextOf_some hgetp, hnextp]
  have hnode : get_node_at s (A.length + 1 - 1) = some p := by
    show get_node_at s A.length = some p
    unfold get_node_at
    rw [if_neg (by omega), hseg.walk_lt A.length (by simp),
      List.getElem?_append_right (le_refl _)]
    simp
  have hgetp1 : ((s.heap.alloc { data := x, next := s.heap.nextOf p }).1).get p =
      some ndp := by
    rw [SHeap.get_alloc, if_neg (by omega)]
    exact hgetp
  have hfnep : ¬ (s.heap.store.length = p) := by omega
  have hgetp2 : (((s.heap.alloc { data := x, next := s.heap.nextOf p }).1).setNext
      p (some s.heap.store.length)).get p =
      some { ndp with next := some s.heap.store.length } := by
    rw [SHeap.get_setNext hgetp1, if_pos rfl]
  have hgetf : (((s.heap.alloc { data := x, next := s.heap.nextOf p }).1).setNext
      p (some s.heap.store.length)).get s.heap.store.length =
      some { data := x, next := some b } := by
    rw [SHeap.get_setNext hgetp1, if_neg hfnep, SHeap.get_alloc, if_pos rfl, hnxp]
  have hframe : ∀ c ∈ A ++ p :: b :: B, c ≠ p →
      (((s.heap.alloc { data := x, next := s.heap.nextOf p }).1).setNext
        p (some s.heap.store.length)).get c = s.heap.get c := by
    intro c hc hcp
    rw [SHeap.get_setNext hgetp1, if_neg hcp, SHeap.get_alloc,
      if_neg (by have := hmemlt c hc; omega)]
  have hsegA : SSeg (((s.heap.alloc { data := x, next := s.heap.nextOf p }).1).setNext
      p (some s.heap.store.length)) s.list.head (some p) A xA :=
    hm1.frame fun c hc => hframe c (by simp [hc]) (by rintro rfl; exact hpA hc)
  have hrest2 : SSeg (((s.heap.alloc { data := x, next := s.heap.nextOf p }).1).setNext
      p (some s.heap.store.length)) (some b) none (b :: B) (xb :: xB) := by
    have hagree2 : ∀ c ∈ b :: B, ((((s.heap.alloc
        { data := x, next := s.heap.nextOf p }).1).setNext
        p (some s.heap.store.length)).get c) = s.heap.get c := fun c hc =>
      hframe c (by simp at hc ⊢; tauto) (by rintro rfl; exact hpbB hc)
    have := hrestp.frame hagree2
    rwa [hnextp] at this
  have hchain : SSeg (((s.heap.alloc { data := x, next := s.heap.nextOf p }).1).setNext
      p (some s.heap.store.length)) s.list.head none
      (A ++ p :: s.heap.store.length :: b :: B)
      (xA ++ ndp.data :: x :: xb :: xB) := by
    have hc2 : SSeg (((s.heap.alloc
        { data := x, next := s.heap.nextOf p }).1).setNext
        p (some s.heap.store.length)) (some p) none
        (p :: s.heap.store.length :: b :: B)
        (({ ndp with next := some s.heap.store.length } : singly_node_t α).data ::
          x :: xb :: xB) :=
      SSeg.cons hgetp2 (SSeg.cons hgetf hrest2)
    exact hsegA.append hc2
  have hndnew : (A ++ p :: s.heap.store.length :: b :: B).Nodup := by
    have hshape : A ++ p :: s.heap.store.length :: b :: B =
        (A ++ [p]) ++ s.heap.store.length :: (b :: B) := by simp
    rw [hshape, List.nodup_middle, List.nodup_cons]
    constructor
    · intro hc
      have hc2 : s.heap.store.length ∈ A ++ p :: b :: B := by
        simp at hc ⊢
        tauto
      have := hmemlt _ hc2
      omega
    · have hshape2 : (A ++ [p]) ++ b :: B = A ++ p :: b :: B := by simp
      rw [hshape2]
      exact hnd
  have hcond1 : ¬ (s.list.size < A.length + 1) := by omega
  have hcond2 : ¬ (A.length + 1 = 0) := by omega
  have hcond3 : ¬ (A.length + 1 = s.list.size) := by omega
  unfold singly_list_insert
  rw [if_neg hcond1, if_neg hcond2, if_neg hcond3, hnode]
  simp only [reduceIte]
  refine ⟨by trivial, hchain, ?_, ?_, hndnew⟩
  · simp at hlen ⊢
    omega
  · show s.list.tail = (A ++ p :: s.heap.store.length :: b :: B).getLast?
    rw [htail]
    rw [List.getLast?_append, List.getLast?_append]
    simp [List.getLast?_cons]

theorem singly_remove_middle {s : SState α} {A : List Nat} {p rm : Nat}
    {B : List Nat} {xA : List α} {xp xrm : α} {xB : List α}
    (hr : SRep s (A ++ p :: rm :: B) (xA ++ xp :: xrm :: xB))
    (hlenA : xA.length = A.length) :
    (singly_list_remove s (A.length + 1)).1 = .SUCCESS ∧
    SRep (singly_list_remove s (A.length + 1)).2 (A ++ p :: B) (xA ++ xp :: xB) := by
  obtain ⟨hseg, hlen, htail, hnd⟩ := hr
  have hlen2 : A.length + B.length + 2 = s.list.size := by
    simp at hlen
    omega
  obtain ⟨m1, hm1, hm2⟩ := hseg.split hlenA
  obtain ⟨hm1p, ndp, xs0, hgetp, hxs0, hrestp⟩ := hm2.cons_inv
  subst hm1p
  obtain ⟨hxp, hxs0b⟩ : xp = ndp.data ∧ xrm :: xB = xs0 := by
    injection hxs0 with h1 h2
    exact ⟨h1, h2⟩
  subst hxs0b
  subst hxp
  obtain ⟨hnrm, ndrm, xs1, hgetrm, hxs1, hrestrm⟩ := hrestp.cons_inv
  obtain ⟨hxrm, hxs1b⟩ : xrm = ndrm.data ∧ xB = xs1 := by
    injection hxs1 with h1 h2
    exact ⟨h1, h2⟩
  subst hxs1b
  subst hxrm
  have hp1 := List.nodup_cons.mp (List.nodup_middle.mp hnd)
  have hpA : p ∉ A := fun hc => hp1.1 (by simp [hc])
  have hprm : p ≠ rm := fun hc => hp1.1 (by simp [hc])
  have hpB : p ∉ B := fun hc => hp1.1 (by simp [hc])
  have hrm1 : rm ∉ A ∧ rm ∉ B := by
    have h2 := hp1.2
    have h3 := List.nodup_cons.mp (List.nodup_middle.mp h2)
    constructor
    · intro hc
      exact h3.1 (by simp [hc])
    · intro hc
      exact h3.1 (by simp [hc])
  have hmemlt : ∀ c ∈ A ++ p :: rm :: B, c < s.heap.store.length :=
    fun c hc => hseg.mem_lt hc
  have hnxp : s.heap.nextOf p = some rm := by
    rw [SHeap.nextOf_some hgetp, hrestp.start_eq]
  have hnxrm : s.heap.nextOf rm = ndrm.next := SHeap.nextOf_some hgetrm
  have hnode : get_node_at s (A.length + 1 - 1) = some p := by
    show get_node_at s A.length = some p
    unfold get_node_at
    rw [if_neg (by omega), hseg.walk_lt A.length (by simp),
      List.getElem?_append_right (le_refl _)]
    simp
  have hgetp2 : ((s.heap.setNext p (s.heap.nextOf rm)).free rm).get p =
      some { ndp with next := ndrm.next } := by
    rw [SHeap.get_free, if_neg hprm, SHeap.get_setNext hgetp, if_pos rfl, hnxrm]
  have hframe : ∀ c ∈ A ++ p :: rm :: B, c ≠ p → c ≠ rm →
      ((s.heap.setNext p (s.heap.nextOf rm)).free rm).get c = s.heap.get c := by
    intro c hc hcp hcrm
    rw [SHeap.get_free, if_neg hcrm, SHeap.get_setNext hgetp, if_neg hcp]
  have hsegA : SSeg ((s.heap.setNext p (s.heap.nextOf rm)).free rm)
      s.list.head (some p) A xA :=
    hm1.frame fun c hc => hframe c (by simp [hc])
      (by rintro rfl; exact hpA hc) (by rintro rfl; exact hrm1.1 hc)
  have hrestB : SSeg ((s.heap.setNext p (s.heap.nextOf rm)).free rm)
      ndrm.next none B xB :=
    hrestrm.frame fun c hc => hframe c (by simp [hc])
      (by rintro rfl; exact hpB hc) (by rintro rfl; exact hrm1.2 hc)
  have hchain : SSeg ((s.heap.setNext p (s.heap.nextOf rm)).free rm)
      s.list.head none (A ++ p :: B) (xA ++ ndp.data :: xB) := by
    have hc2 : SSeg ((s.heap.setNext p (s.heap.nextOf rm)).free rm)
        (some p) none (p :: B)
        (({ ndp with next := ndrm.next } : singly_node_t α).data :: xB) :=
      SSeg.cons hgetp2 hrestB
    exact hsegA.append hc2
  have hndnew : (A ++ p :: B).Nodup := by
    refine List.Nodup.sublist ?_ hnd
    exact List.Sublist.append_left
      (List.Sublist.cons₂ p (List.sublist_cons_self rm B)) A
  have hcond1 : ¬ (s.list.size ≤ A.length + 1) := by omega
  have hcond2 : ¬ (A.length + 1 = 0) := by omega
  unfold singly_list_remove
  rw [if_neg hcond1, if_neg hcond2, hnode]
  simp only [hnxp]
  refine ⟨by trivial, hchain, ?_, ?_, hndnew⟩
  · simp at hlen ⊢
    omega
  · show (if some rm = s.list.tail then some p else s.list.tail) =
      (A ++ p :: B).getLast?
    cases B with
    | nil =>
      rw [if_pos (by rw [htail]; simp [List.getLast?_append, List.getLast?_cons])]
      rw [List.getLast?_append]
      simp
    | cons c B2 =>
      have hsome : (c :: B2).getLast? = some (B2.getLast?.getD c) :=
        List.getLast?_cons
      have htail2 : s.list.tail = some (B2.getLast?.getD c) := by
        rw [htail, List.getLast?_append, List.getLast?_cons_cons,
          List.getLast?_cons_cons, hsome]
        simp [Option.or]
      have hmemlast : B2.getLast?.getD c ∈ c :: B2 := by
        cases hB2 : B2.getLast? with
        | none => simp
        | some y =>
          obtain ⟨ys, hys⟩ := List.getLast?_eq_some_iff.mp hB2
          simp [hys]
      have htne : ¬ (some rm = s.list.tail) := by
        rw [htail2]
        intro hc
        have hrmB : rm ∈ c :: B2 := by
          rw [Option.some_inj.mp hc]
          exact hmemlast
        exact hrm1.2 hrmB
      rw [if_neg htne, htail2, List.getLast?_append, List.getLast?_cons_cons,
        hsome]
      simp [Option.or]

/-- The predecessor-of-tail search of `singly_list_pop_back` finds the last
node of the segment before the tail. -/
theorem s_before_tail_spec {h : SHeap α} {t : Nat} :
    ∀ (C : List Nat) (cur : Nat) (fuel : Nat) (xs : List α),
      SSeg h (some cur) (some t) (cur :: C) xs →
      t ∉ cur :: C → C.length + 1 ≤ fuel →
      s_before_tail h t cur fuel = (cur :: C).getLast? := by
  intro C
  induction C with
  | nil =>
    intro cur fuel xs hs ht hfuel
    obtain ⟨fuel2, rfl⟩ : ∃ f2, fuel = f2 + 1 := ⟨fuel - 1, by omega⟩
    obtain ⟨_, nd, xs0, hget, hxs, hrest⟩ := hs.cons_inv
    have hnx : h.nextOf cur = some t := by
      rw [SHeap.nextOf_some hget, hrest.nil_inv.1]
    rw [s_before_tail, if_pos hnx]
    rfl
  | cons c C2 ih =>
    intro cur fuel xs hs ht hfuel
    obtain ⟨fuel2, rfl⟩ : ∃ f2, fuel = f2 + 1 := ⟨fuel - 1, by omega⟩
    obtain ⟨_, nd, xs0, hget, hxs, hrest⟩ := hs.cons_inv
    have hnx : h.nextOf cur = some c := by
      rw [SHeap.nextOf_some hget, hrest.start_eq]
    have hct : ¬ (h.nextOf cur = some t) := by
      rw [hnx]
      intro hc
      exact ht (by simp [Option.some_inj.mp hc])
    rw [s_before_tail, if_neg hct, hnx]
    have hrest2 : SSeg h (some c) (some t) (c :: C2) xs0 := hrest.start_eq ▸ hrest
    show s_before_tail h t c fuel2 = (cur :: c :: C2).getLast?
    rw [ih c fuel2 xs0 hrest2 (by simp at ht ⊢; tauto)
      (by simp at hfuel ⊢; omega)]
    rw [List.getLast?_cons_cons]

theorem singly_pop_back_spec {s : SState α} {addrs : List Nat} {xs : List α}
    (hr : SRep s addrs xs) (hne : addrs ≠ []) :
    (singly_list_pop_back s).1 = .SUCCESS ∧
    (singly_list_pop_back s).2.2 = xs.getLast? ∧
    SRep (singly_list_pop_back s).2.1 addrs.dropLast xs.dropLast := by
  obtain ⟨hseg, hlen, htail, hnd⟩ := hr
  rcases List.eq_nil_or_concat addrs with rfl | ⟨l0, t, haddr⟩
  · exact absurd rfl hne
  · rw [List.concat_eq_append] at haddr
    subst haddr
    have htl : s.list.tail = some t := by rw [htail, List.getLast?_concat]
    rcases List.eq_nil_or_concat l0 with rfl | ⟨l1, p, hl0⟩
    · rw [List.nil_append] at hseg hlen htail hnd ⊢
      obtain ⟨hhead, nd, xs0, hget, hxs, hrest⟩ := hseg.cons_inv
      obtain ⟨-, hxs0⟩ := hrest.nil_inv
      subst hxs0
      subst hxs
      have hcond : s.list.head = s.list.tail := by rw [hhead, htl]
      simp only [singly_list_pop_back, hhead, htl, hget, hcond, reduceIte]
      refine ⟨by trivial, by trivial, SSeg.nil none, ?_, by trivial, by simp⟩
      simp at hlen ⊢
      omega
    · rw [List.concat_eq_append] at hl0
      subst hl0
      have hk : ((l1 ++ [p]) ++ [t]).length = l1.length + 2 := by simp
      have hxlen : xs.length = l1.length + 2 := by rw [hseg.length_eq, hk]
      have hseg2 : SSeg s.heap s.list.head none ((l1 ++ [p]) ++ [t])
          (xs.take (l1 ++ [p]).length ++ xs.drop (l1 ++ [p]).length) := by
        rw [List.take_append_drop]
        exact hseg
      obtain ⟨m, hm1, hm2⟩ := hseg2.split
        (by rw [List.length_take]; simp at hxlen ⊢; omega)
      obtain ⟨hmt, ndt, xs2, hgett, hdropk, hrest⟩ := hm2.cons_inv
      obtain ⟨hndtn, hxs2⟩ := hrest.nil_inv
      subst hxs2
      subst hmt
      have htnotin : t ∉ l1 ++ [p] := fun hmem =>
        (List.nodup_append.mp hnd).2.2 hmem (by simp)
      obtain ⟨cur, C, hcc⟩ : ∃ cur C, l1 ++ [p] = cur :: C := by
        cases hl : l1 ++ [p] with
        | nil => simp at hl
        | cons a b => exact ⟨a, b, rfl⟩
      have hm1c : SSeg s.heap s.list.head (some t) (cur :: C)
          (xs.take (l1 ++ [p]).length) := by rw [← hcc]; exact hm1
      have hheadeq : s.list.head = some cur := hm1c.start_eq
      have hm1cur : SSeg s.heap (some cur) (some t) (cur :: C)
          (xs.take (l1 ++ [p]).length) := hheadeq ▸ hm1c
      have hcurmem : cur ∈ l1 ++ [p] := by rw [hcc]; simp
      have hcurt : cur ≠ t := by
        rintro rfl
        exact htnotin hcurmem
      have hClen : C.length = l1.length := by
        have := congrArg List.length hcc
        simp at this
        omega
      have hszlen : l1.length + 2 = s.list.size := by
        rw [← hlen]
        simp
      have hbt : s_before_tail s.heap t cur s.list.size = some p := by
        rw [s_before_tail_spec C cur s.list.size _ hm1cur
          (by rw [← hcc] at *; exact fun hc => htnotin hc) (by omega),
          ← hcc, List.getLast?_concat]
      have hxlast : xs.getLast? = some ndt.data := by
        conv_lhs => rw [← List.take_append_drop ((l1 ++ [p]).length) xs]
        rw [hdropk, List.getLast?_concat]
      have hplt : p < s.heap.store.length := hseg.mem_lt (by simp)
      have hnd1 : (l1 ++ [p]).Nodup := (List.nodup_append.mp hnd).1
      have hframe1 : SSeg (s.heap.free t) s.list.head (some t) (l1 ++ [p])
          (xs.take (l1 ++ [p]).length) :=
        hm1.frame fun c hc => by
          rw [SHeap.get_free, if_neg (by rintro rfl; exact htnotin hc)]
      have hchain : SSeg ((s.heap.free t).setNext p none) s.list.head none
          (l1 ++ [p]) (xs.take (l1 ++ [p]).length) :=
        hframe1.setNext_last hnd1 none
      have hdl1 : ((l1 ++ [p]) ++ [t]).dropLast = l1 ++ [p] := List.dropLast_concat
      have hdl2 : xs.dropLast = xs.take ((l1 ++ [p]).length) := by
        rw [List.dropLast_eq_take, hxlen]
        simp
      rw [hdl1, hdl2]
      simp only [singly_list_pop_back, hheadeq, htl, hbt, hgett,
        Option.some.injEq, eq_false hcurt, if_false]
      refine ⟨by trivial, by rw [hxlast]; rfl, hheadeq ▸ hchain, ?_, ?_, hnd1⟩
      · simp
        omega
      · show some p = (l1 ++ [p]).getLast?
        rw [List.getLast?_concat]

theorem singly_clear_spec (s : SState α) : SRep (singly_list_clear s) ([] : List Nat) ([] : List α) :=
  ⟨SSeg.nil none, rfl, rfl, List.nodup_nil⟩

/-- The reversal loop: given the unprocessed chain and the already-reversed
chain (disjoint), running the loop for the unprocessed length produces the
fully reversed chain starting at the returned pointer. -/
theorem s_rev_loop_spec {h : SHeap α} {cur prev : Option Nat} {l lrev : List Nat}
    {x xrev : List α} (hun : SSeg h cur none l x)
    (hrev : SSeg h prev none lrev xrev)
    (hdisj : ∀ a ∈ l, a ∉ lrev) (hnd : l.Nodup) :
    SSeg (s_rev_loop h prev cur l.length).1 (s_rev_loop h prev cur l.length).2
      none (l.reverse ++ lrev) (x.reverse ++ xrev) := by
  induction l generalizing h cur prev lrev xrev x with
  | nil =>
    obtain ⟨hcq, hx⟩ := hun.nil_inv
    subst hx
    subst hcq
    simpa using hrev
  | cons a l2 ih =>
    obtain ⟨hcur, nd, x2, hget, hx, hrest⟩ := hun.cons_inv
    subst hcur
    subst hx
    obtain ⟨hna, hnd2⟩ := List.nodup_cons.mp hnd
    have hanotrev : a ∉ lrev := hdisj a (by simp)
    have hstep : s_rev_loop h prev (some a) (a :: l2).length =
        s_rev_loop (h.write a { nd with next := prev }) (some a) nd.next
          l2.length := by
      simp only [List.length_cons, s_rev_loop, hget]
    have hun2 : SSeg (h.write a { nd with next := prev }) nd.next none l2 x2 :=
      hrest.frame fun c hc => by
        rw [SHeap.get_write hget, if_neg (by rintro rfl; exact hna hc)]
    have hrev2 : SSeg (h.write a { nd with next := prev }) (some a) none
        (a :: lrev) (nd.data :: xrev) := by
      have hgeta : (h.write a { nd with next := prev }).get a =
          some { nd with next := prev } := by
        rw [SHeap.get_write hget, if_pos rfl]
      have h1 : SSeg (h.write a { nd with next := prev }) (some a) none
          (a :: lrev)
          (({ nd with next := prev } : singly_node_t α).data :: xrev) :=
        SSeg.cons hgeta (hrev.frame fun c hc => by
          rw [SHeap.get_write hget, if_neg (by rintro rfl; exact hanotrev hc)])
      exact h1
    have hdisj2 : ∀ c ∈ l2, c ∉ a :: lrev := by
      intro c hc
      simp only [List.mem_cons, not_or]
      exact ⟨by rintro rfl; exact hna hc, hdisj c (by simp [hc])⟩
    rw [hstep]
    have := ih hun2 hrev2 hdisj2 hnd2
    simpa [List.reverse_cons, List.append_assoc] using this

theorem singly_reverse_spec {s : SState α} {addrs : List Nat} {xs : List α}
    (hr : SRep s addrs xs) :
    (singly_list_reverse s).1 = .SUCCESS ∧
    SRep (singly_list_reverse s).2 addrs.reverse xs.reverse := by
  obtain ⟨hseg, hlen, htail, hnd⟩ := hr
  unfold singly_list_reverse
  by_cases hsz : s.list.size ≤ 1
  · rw [if_pos hsz]
    cases addrs with
    | nil =>
      have hx : xs = [] := List.length_eq_zero.mp (by simpa using hseg.length_eq)
      subst hx
      exact ⟨by trivial, hseg, hlen, htail, hnd⟩
    | cons a l =>
      have hl : l = [] := by
        have h3 := hlen
        simp only [List.length_cons] at h3
        exact List.length_eq_zero.mp (by omega)
      subst hl
      have hx : ∃ x0, xs = [x0] := by
        have hxl : xs.length = 1 := by simpa using hseg.length_eq
        cases xs with
        | nil => simp at hxl
        | cons x0 xr =>
          refine ⟨x0, ?_⟩
          have : xr = [] := List.length_eq_zero.mp (by simpa using hxl)
          rw [this]
      obtain ⟨x0, hx0⟩ := hx
      subst hx0
      rw [List.reverse_singleton, List.reverse_singleton]
      exact ⟨by trivial, hseg, hlen, htail, hnd⟩
  · rw [if_neg hsz]
    have hloop := s_rev_loop_spec hseg (SSeg.nil none) (by simp) hnd
    rw [hlen] at hloop
    simp only [List.append_nil] at hloop
    refine ⟨by trivial, hloop, by simpa using hlen, ?_,
      List.nodup_reverse.mpr hnd⟩
    show s.list.head = addrs.reverse.getLast?
    rw [List.getLast?_reverse]
    exact SRep.head_eq ⟨hseg, hlen, htail, hnd⟩

/-- Splitting two parallel lists around positions `i - 1` and `i`. -/
theorem two_split {β : Type} {l : List Nat} {x : List β}
    (hlen : x.length = l.length) {i : Nat} (h1 : 1 ≤ i) (h2 : i < l.length) :
    ∃ A p b B xA xp xb xB, l = A ++ p :: b :: B ∧ x = xA ++ xp :: xb :: xB ∧
      A.length = i - 1 ∧ xA.length = A.length := by
  have hi1 : i - 1 < l.length := by omega
  have hix : i - 1 < x.length := by omega
  have hi2 : i < x.length := by omega
  refine ⟨l.take (i - 1), l[i - 1], l[i], l.drop (i + 1),
    x.take (i - 1), x[i - 1], x[i], x.drop (i + 1), ?_, ?_, ?_, ?_⟩
  · conv_lhs => rw [← List.take_append_drop (i - 1) l]
    rw [List.drop_eq_getElem_cons hi1]
    congr 2
    have : i - 1 + 1 = i := by omega
    rw [this, List.drop_eq_getElem_cons h2]
  · conv_lhs => rw [← List.take_append_drop (i - 1) x]
    rw [List.drop_eq_getElem_cons hix]
    congr 2
    have : i - 1 + 1 = i := by omega
    rw [this, List.drop_eq_getElem_cons hi2]
  · rw [List.length_take]
    omega
  · rw [List.length_take, List.length_take]
    omega

/-- `singly_list_insert` with a successful allocator at any valid index
preserves the representation invariant. -/
theorem singly_insert_pres {s : SState α} {addrs : List Nat} {xs : List α}
    (hr : SRep s addrs xs) (i : Nat) (x : α) :
    SWF (singly_list_insert true s i x).2 := by
  by_cases hi : s.list.size < i
  · unfold singly_list_insert
    rw [if_pos hi]
    exact ⟨addrs, xs, hr⟩
  · by_cases h0 : i = 0
    · subst h0
      unfold singly_list_insert
      rw [if_neg hi, if_pos rfl]
      exact ⟨_, _, (singly_push_front_spec hr x).2⟩
    · by_cases hsz : i = s.list.size
      · unfold singly_list_insert
        rw [if_neg hi, if_neg h0, if_pos hsz]
        exact ⟨_, _, (singly_push_back_spec hr x).2⟩
      · have hlt : i < addrs.length := by
          rw [hr.2.1]
          omega
        obtain ⟨A, p, b, B, xA, xp, xb, xB, hl, hx, hA, hxA⟩ :=
          two_split (by rw [hr.1.length_eq]) (by omega) hlt
        have hieq : i = A.length + 1 := by omega
        rw [hieq]
        subst hl
        subst hx
        exact ⟨_, _, (singly_insert_middle hr hxA x).2⟩

/-- `singly_list_remove` at any index preserves the representation
invariant. -/
theorem singly_remove_pres {s : SState α} {addrs : List Nat} {xs : List α}
    (hr : SRep s addrs xs) (i : Nat) :
    SWF (singly_list_remove s i).2 := by
  by_cases hi : s.list.size ≤ i
  · unfold singly_list_remove
    rw [if_pos hi]
    exact ⟨addrs, xs, hr⟩
  · by_cases h0 : i = 0
    · subst h0
      unfold singly_list_remove
      rw [if_neg hi, if_pos rfl]
      cases addrs with
      | nil =>
        rw [← hr.2.1] at hi
        simp at hi
      | cons a rest =>
        cases xs with
        | nil =>
          have := hr.1.length_eq
          simp at this
        | cons x0 xr =>
          exact ⟨_, _, (singly_pop_front_spec hr).2.2⟩
    · have hlt : i < addrs.length := by
        rw [hr.2.1]
        omega
      obtain ⟨A, p, rm, B, xA, xp, xrm, xB, hl, hx, hA, hxA⟩ :=
        two_split (by rw [hr.1.length_eq]) (by omega) hlt
      have hieq : i = A.length + 1 := by omega
      rw [hieq]
      subst hl
      subst hx
      exact ⟨_, _, (singly_remove_middle hr hxA).2⟩

/-- The singly-list API operations.  (`singly_list_iter_remove` only uses the
iterator's `position`, which the constructor carries.) -/
inductive SinglyOp (α : Type) where
  | push_front (allocOk : Bool) (e : α)
  | push_back (allocOk : Bool) (e : α)
  | pop_front
  | pop_back
  | insert (allocOk : Bool) (i : Nat) (e : α)
  | remove (i : Nat)
  | get (i : Nat)
  | set (i : Nat) (e : α)
  | clear
  | reverse
  | iter_remove (pos : Nat)
deriving DecidableEq, Repr

/-- Applies a singly-list operation. -/
def applyS (op : SinglyOp α) (s : SState α) : status_t × SState α :=
  match op with
  | .push_front b e => singly_list_push_front b s e
  | .push_back b e => singly_list_push_back b s e
  | .pop_front => let r := singly_list_pop_front s; (r.1, r.2.1)
  | .pop_back => let r := singly_list_pop_back s; (r.1, r.2.1)
  | .insert b i e => singly_list_insert b s i e
  | .remove i => singly_list_remove s i
  | .get i => ((singly_list_get s i).1, s)
  | .set i e => singly_list_set s i e
  | .clear => (.SUCCESS, singly_list_clear s)
  | .reverse => singly_list_reverse s
  | .iter_remove pos => singly_list_iter_remove s pos

theorem singly_insert_false_unchanged (s : SState α) (i : Nat) (e : α) :
    (singly_list_insert false s i e).2 = s := by
  unfold singly_list_insert singly_list_push_front singly_list_push_back
  split_ifs <;> first
    | rfl
    | (cases get_node_at s (i - 1) <;> rfl)
    | simp_all

/-- Every singly-list operation preserves structural well-formedness. -/
theorem applyS_wf (op : SinglyOp α) (s : SState α) (hwf : SWF s) :
    SWF (applyS op s).2 := by
  obtain ⟨addrs, xs, hr⟩ := hwf
  cases op with
  | push_front b e =>
    cases b with
    | true => exact ⟨_, _, (singly_push_front_spec hr e).2⟩
    | false => exact ⟨addrs, xs, hr⟩
  | push_back b e =>
    cases b with
    | true => exact ⟨_, _, (singly_push_back_spec hr e).2⟩
    | false => exact ⟨addrs, xs, hr⟩
  | pop_front =>
    cases addrs with
    | nil =>
      obtain ⟨-, hx⟩ := hr.1.nil_inv
      subst hx
      show SWF (singly_list_pop_front s).2.1
      rw [singly_pop_front_empty hr]
      exact ⟨[], [], hr⟩
    | cons a rest =>
      cases xs with
      | nil =>
        have := hr.1.length_eq
        simp at this
      | cons x xr => exact ⟨_, _, (singly_pop_front_spec hr).2.2⟩
  | pop_back =>
    cases addrs with
    | nil =>
      have hh : s.list.head = none := by
        rw [hr.head_eq]
        rfl
      show SWF (singly_list_pop_back s).2.1
      simp only [singly_list_pop_back, hh]
      exact ⟨[], xs, hr⟩
    | cons a rest =>
      exact ⟨_, _, (singly_pop_back_spec hr (by simp)).2.2⟩
  | insert b i e =>
    cases b with
    | true => exact singly_insert_pres hr i e
    | false =>
      show SWF (singly_list_insert false s i e).2
      rw [singly_insert_false_unchanged]
      exact ⟨addrs, xs, hr⟩
  | remove i => exact singly_remove_pres hr i
  | get i => exact ⟨addrs, xs, hr⟩
  | set i e =>
    by_cases hi : i < s.list.size
    · exact ⟨_, _, (singly_set_spec hr i e hi).2⟩
    · have hnone : get_node_at s i = none := by
        unfold get_node_at
        rw [if_pos (by omega)]
      show SWF (singly_list_set s i e).2
      simp only [singly_list_set, hnone]
      exact ⟨addrs, xs, hr⟩
  | clear => exact ⟨_, _, singly_clear_spec s⟩
  | reverse => exact ⟨_, _, (singly_reverse_spec hr).2⟩
  | iter_remove pos =>
    by_cases hp : pos = 0
    · subst hp
      show SWF (singly_list_iter_remove s 0).2
      unfold singly_list_iter_remove
      rw [if_pos rfl]
      exact ⟨addrs, xs, hr⟩
    · show SWF (singly_list_iter_remove s pos).2
      unfold singly_list_iter_remove
      rw [if_neg hp]
      exact singly_remove_pres hr (pos - 1)

theorem singly_pop_front_error {s : SState α}
    (h : (singly_list_pop_front s).1 ≠ .SUCCESS) :
    (singly_list_pop_front s).2.1 = s := by
  cases hh : s.list.head with
  | none => simp [singly_list_pop_front, hh]
  | some hd => simp [singly_list_pop_front, hh] at h

theorem singly_remove_error {s : SState α} {i : Nat}
    (h : (singly_list_remove s i).1 ≠ .SUCCESS) :
    (singly_list_remove s i).2 = s := by
  unfold singly_list_remove at *
  split_ifs at h ⊢ with h1 h2
  · rfl
  · exact singly_pop_front_error h
  · cases hn : get_node_at s (i - 1) with
    | none => rfl
    | some p =>
      simp only [hn] at h
      dsimp only at h ⊢
      cases hx : s.heap.nextOf p with
      | none => rfl
      | some rm =>
        simp only [hx] at h
        simp at h

/-- Any singly-list operation that fails leaves the state exactly as it
was. -/
theorem applyS_error_unchanged (op : SinglyOp α) (s : SState α)
    (h : (applyS op s).1 ≠ .SUCCESS) : (applyS op s).2 = s := by
  cases op with
  | push_front b e =>
    show (singly_list_push_front b s e).2 = s
    replace h : (singly_list_push_front b s e).1 ≠ .SUCCESS := h
    unfold singly_list_push_front at *
    split_ifs at h ⊢ <;> simp_all
  | push_back b e =>
    show (singly_list_push_back b s e).2 = s
    replace h : (singly_list_push_back b s e).1 ≠ .SUCCESS := h
    unfold singly_list_push_back at *
    split_ifs at h ⊢ <;> first
      | rfl
      | (cases htl : s.list.tail <;> simp_all)
  | pop_front =>
    exact singly_pop_front_error h
  | pop_back =>
    show (singly_list_pop_back s).2.1 = s
    replace h : (singly_list_pop_back s).1 ≠ .SUCCESS := h
    cases hh : s.list.head with
    | none => simp [singly_list_pop_back, hh]
    | some hd =>
      exfalso
      apply h
      simp only [singly_list_pop_back, hh]
      split_ifs
      · rfl
      · cases htl : s.list.tail with
        | none => rfl
        | some t =>
          dsimp only
          cases hbt : s_before_tail s.heap t hd s.list.size with
          | none => rfl
          | some p => rfl
  | insert b i e =>
    show (singly_list_insert b s i e).2 = s
    replace h : (singly_list_insert b s i e).1 ≠ .SUCCESS := h
    cases b with
    | false => exact singly_insert_false_unchanged s i e
    | true =>
      unfold singly_list_insert at *
      split_ifs at h ⊢ with h1 h2 h3 h4
      · rfl
      · exfalso
        apply h
        unfold singly_list_push_front
        rw [if_pos rfl]
      · exfalso
        apply h
        unfold singly_list_push_back
        rw [if_pos rfl]
        cases s.list.tail <;> rfl
      · cases hn : get_node_at s (i - 1) with
        | none => rfl
        | some p =>
          simp only [hn] at h
          simp at h
      · simp_all
  | remove i => exact singly_remove_error h
  | get i => rfl
  | set i e =>
    show (singly_list_set s i e).2 = s
    replace h : (singly_list_set s i e).1 ≠ .SUCCESS := h
    cases hn : get_node_at s i with
    | none => simp [singly_list_set, hn]
    | some a => simp [singly_list_set, hn] at h
  | clear => simp [applyS] at h
  | reverse =>
    replace h : (singly_list_reverse s).1 ≠ .SUCCESS := h
    unfold singly_list_reverse at h
    split_ifs at h <;> simp_all
  | iter_remove pos =>
    show (singly_list_iter_remove s pos).2 = s
    replace h : (singly_list_iter_remove s pos).1 ≠ .SUCCESS := h
    unfold singly_list_iter_remove at *
    split_ifs at h ⊢
    · rfl
    · exact singly_remove_error h

/-! ### Heap access lemmas (doubly) -/

theorem DHeap.get_lt_of_someD {h : DHeap α} {a : Nat} {nd : doubly_node_t α}
    (hg : h.get a = some nd) : a < h.store.length := by
  by_contra hc
  have : h.store[a]? = none := List.getElem?_eq_none (by omega)
  simp [DHeap.get, this] at hg

theorem DHeap.get_allocD (h : DHeap α) (nd : doubly_node_t α) (a : Nat) :
    (h.alloc nd).1.get a = if a = h.store.length then some nd else h.get a := by
  unfold DHeap.alloc DHeap.get
  simp only
  rcases Nat.lt_trichotomy a h.store.length with hlt | heq | hgt
  · rw [List.getElem?_append_left hlt, if_neg (by omega)]
  · subst heq
    rw [List.getElem?_concat_length, if_pos rfl]
    rfl
  · rw [if_neg (by omega)]
    rw [List.getElem?_eq_none (by simp; omega), List.getElem?_eq_none (by omega)]

theorem DHeap.get_freeD (h : DHeap α) (b a : Nat) :
    (h.free b).get a = if a = b then none else h.get a := by
  unfold DHeap.free DHeap.get
  simp only
  rw [List.getElem?_set]
  by_cases hab : a = b
  · subst hab
    rw [if_pos rfl, if_pos rfl]
    split_ifs <;> rfl
  · rw [if_neg (fun hh => hab hh.symm), if_neg hab]

theorem DHeap.get_writeD {h : DHeap α} {b : Nat} {nd0 : doubly_node_t α}
    (hb : h.get b = some nd0) (nd : doubly_node_t α) (a : Nat) :
    (h.write b nd).get a = if a = b then some nd else h.get a := by
  have hlt := DHeap.get_lt_of_someD hb
  unfold DHeap.write DHeap.get
  simp only
  rw [List.getElem?_set]
  by_cases hab : a = b
  · subst hab
    rw [if_pos rfl, if_pos rfl, if_pos hlt]
    rfl
  · rw [if_neg (fun hh => hab hh.symm), if_neg hab]

theorem DHeap.get_setNextD {h : DHeap α} {b : Nat} {nd0 : doubly_node_t α}
    (hb : h.get b = some nd0) (nxt : Option Nat) (a : Nat) :
    (h.setNext b nxt).get a =
      if a = b then some { nd0 with next := nxt } else h.get a := by
  unfold DHeap.setNext
  rw [hb]
  exact DHeap.get_writeD hb _ a

theorem DHeap.get_setPrev {h : DHeap α} {b : Nat} {nd0 : doubly_node_t α}
    (hb : h.get b = some nd0) (p : Option Nat) (a : Nat) :
    (h.setPrev b p).get a =
      if a = b then some { nd0 with prev := p } else h.get a := by
  unfold DHeap.setPrev
  rw [hb]
  exact DHeap.get_writeD hb _ a

theorem DHeap.get_setDataD {h : DHeap α} {b : Nat} {nd0 : doubly_node_t α}
    (hb : h.get b = some nd0) (x : α) (a : Nat) :
    (h.setData b x).get a =
      if a = b then some { nd0 with data := x } else h.get a := by
  unfold DHeap.setData
  rw [hb]
  exact DHeap.get_writeD hb _ a

theorem DHeap.nextOf_someD {h : DHeap α} {a : Nat} {nd : doubly_node_t α}
    (hg : h.get a = some nd) : h.nextOf a = nd.next := by
  unfold DHeap.nextOf
  rw [hg]

theorem DHeap.prevOf_some {h : DHeap α} {a : Nat} {nd : doubly_node_t α}
    (hg : h.get a = some nd) : h.prevOf a = nd.prev := by
  unfold DHeap.prevOf
  rw [hg]

/-! ### Doubly chain segments -/

/-- `DSeg h p s q addrs xs`: from the pointer `s`, whose first node's `prev`
is `p`, following `next` visits exactly the nodes at `addrs` (with data
`xs`), every consecutive pair being linked both ways, and ends with the
pointer value `q`. -/
inductive DSeg (h : DHeap α) :
    Option Nat → Option Nat → Option Nat → List Nat → List α → Prop
  | nil (p q : Option Nat) : DSeg h p q q [] []
  | cons {p : Option Nat} {a : Nat} {nd : doubly_node_t α} {q : Option Nat}
      {rest : List Nat} {xs : List α} :
      h.get a = some nd → nd.prev = p → DSeg h (some a) nd.next q rest xs →
      DSeg h p (some a) q (a :: rest) (nd.data :: xs)

/-- Pointer to the last node of `l`, or `p` when `l` is empty: the `prev`
boundary seen by whatever follows `l`. -/
def endPtr (p : Option Nat) (l : List Nat) : Option Nat :=
  match l.getLast? with
  | some a => some a
  | none => p

theorem endPtr_nil (p : Option Nat) : endPtr p ([] : List Nat) = p := rfl

theorem endPtr_cons (p : Option Nat) (a : Nat) (rest : List Nat) :
    endPtr p (a :: rest) = endPtr (some a) rest := by
  unfold endPtr
  cases rest with
  | nil => rfl
  | cons c l =>
    rw [show (a :: c :: l).getLast? = (c :: l).getLast? from
      List.getLast?_cons_cons,
      show (c :: l).getLast? = some (l.getLast?.getD c) from List.getLast?_cons]

theorem endPtr_concat (p : Option Nat) (l : List Nat) (b : Nat) :
    endPtr p (l ++ [b]) = some b := by
  unfold endPtr
  rw [List.getLast?_concat]

/-- The representation invariant of a doubly list: the chain from `head`
(whose first `prev` is NULL) spells `addrs`/`xs` and exits at NULL, has
exactly `size` nodes, `tail` caches the last node, addresses distinct. -/
def DRep (s : DState α) (addrs : List Nat) (xs : List α) : Prop :=
  DSeg s.heap none s.list.head none addrs xs ∧
  addrs.length = s.list.size ∧
  s.list.tail = addrs.getLast? ∧
  addrs.Nodup

/-- Structural well-formedness of a doubly-list state. -/
def DWF (s : DState α) : Prop := ∃ addrs xs, DRep s addrs xs

theorem DSeg.length_eqD {h : DHeap α} {p s q : Option Nat} {addrs : List Nat}
    {xs : List α} (hs : DSeg h p s q addrs xs) : xs.length = addrs.length := by
  induction hs with
  | nil => rfl
  | cons _ _ _ ih => simpa using ih

theorem DSeg.get_memD {h : DHeap α} {p s q : Option Nat} {addrs : List Nat}
    {xs : List α} (hs : DSeg h p s q addrs xs) {a : Nat} (ha : a ∈ addrs) :
    ∃ nd, h.get a = some nd := by
  induction hs with
  | nil => simp at ha
  | cons hget _ _ ih =>
    rcases List.mem_cons.mp ha with heq | hm
    · exact ⟨_, heq ▸ hget⟩
    · exact ih hm

theorem DSeg.mem_ltD {h : DHeap α} {p s q : Option Nat} {addrs : List Nat}
    {xs : List α} (hs : DSeg h p s q addrs xs) {a : Nat} (ha : a ∈ addrs) :
    a < h.store.length := by
  obtain ⟨nd, hnd⟩ := hs.get_memD ha
  exact DHeap.get_lt_of_someD hnd

theorem DSeg.frameD {h h2 : DHeap α} {p s q : Option Nat} {addrs : List Nat}
    {xs : List α} (hs : DSeg h p s q addrs xs)
    (hagree : ∀ a ∈ addrs, h2.get a = h.get a) : DSeg h2 p s q addrs xs := by
  induction hs with
  | nil => exact DSeg.nil _ _
  | cons hget hprev hrest ih =>
    exact DSeg.cons ((hagree _ (by simp)).trans hget) hprev
      (ih fun a ha => hagree a (by simp [ha]))

theorem DSeg.alloc_frameD {h : DHeap α} {p s q : Option Nat} {addrs : List Nat}
    {xs : List α} (hs : DSeg h p s q addrs xs) (nd : doubly_node_t α) :
    DSeg (h.alloc nd).1 p s q addrs xs :=
  hs.frameD fun a ha => by
    rw [DHeap.get_allocD, if_neg (by have := hs.mem_ltD ha; omega)]

theorem DSeg.start_eqD {h : DHeap α} {p s q : Option Nat} {a : Nat}
    {addrs : List Nat} {xs : List α} (hs : DSeg h p s q (a :: addrs) xs) :
    s = some a := by
  cases hs
  rfl

theorem DSeg.nil_invD {h : DHeap α} {p s q : Option Nat} {xs : List α}
    (hs : DSeg h p s q ([] : List Nat) xs) : s = q ∧ xs = [] := by
  cases hs
  exact ⟨rfl, rfl⟩

theorem DSeg.cons_invD {h : DHeap α} {p s q : Option Nat} {a : Nat}
    {rest : List Nat} {xs : List α} (hs : DSeg h p s q (a :: rest) xs) :
    s = some a ∧
    ∃ nd xs0, h.get a = some nd ∧ nd.prev = p ∧ xs = nd.data :: xs0 ∧
      DSeg h (some a) nd.next q rest xs0 := by
  cases hs with
  | cons hget hprev hrest => exact ⟨rfl, _, _, hget, hprev, rfl, hrest⟩

theorem DSeg.appendD {h : DHeap α} {p s m r : Option Nat} {l1 l2 : List Nat}
    {x1 x2 : List α} (h1 : DSeg h p s m l1 x1)
    (h2 : DSeg h (endPtr p l1) m r l2 x2) :
    DSeg h p s r (l1 ++ l2) (x1 ++ x2) := by
  induction h1 with
  | nil => exact h2
  | cons hget hprev hrest ih =>
    refine DSeg.cons hget hprev (ih ?_)
    rwa [endPtr_cons] at h2

theorem DSeg.splitD {h : DHeap α} {p s r : Option Nat} {l1 l2 : List Nat}
    {x1 x2 : List α} (hs : DSeg h p s r (l1 ++ l2) (x1 ++ x2))
    (hlen : x1.length = l1.length) :
    ∃ m, DSeg h p s m l1 x1 ∧ DSeg h (endPtr p l1) m r l2 x2 := by
  induction l1 generalizing p s x1 with
  | nil =>
    have hx : x1 = [] := List.length_eq_zero.mp (by simpa using hlen)
    subst hx
    exact ⟨s, DSeg.nil p s, by simpa using hs⟩
  | cons a rest ih =>
    cases x1 with
    | nil => simp at hlen
    | cons x xr =>
      cases hs with
      | cons hget hprev hrest =>
        obtain ⟨m, hm1, hm2⟩ := ih hrest (by simpa using hlen)
        exact ⟨m, DSeg.cons hget hprev hm1, by rwa [endPtr_cons]⟩

theorem DSeg.walk_ltD {h : DHeap α} {p s q : Option Nat} {addrs : List Nat}
    {xs : List α} (hs : DSeg h p s q addrs xs) :
    ∀ i, i < addrs.length → d_walk_next h s i = addrs[i]? := by
  induction hs with
  | nil =>
    intro i hi
    simp at hi
  | cons hget hprev hrest ih =>
    intro i hi
    cases i with
    | zero =>
      rw [d_walk_next]
      simp [List.getElem?_cons_zero]
    | succ k =>
      rw [d_walk_next, DHeap.nextOf_someD hget, List.getElem?_cons_succ]
      exact ih k (by simpa using hi)

theorem DSeg.data_atD {h : DHeap α} {p s q : Option Nat} {addrs : List Nat}
    {xs : List α} (hs : DSeg h p s q addrs xs) :
    ∀ (i a : Nat), addrs[i]? = some a →
      ∃ nd, h.get a = some nd ∧ xs[i]? = some nd.data := by
  induction hs with
  | nil =>
    intro i a ha
    simp at ha
  | cons hget hprev hrest ih =>
    rename_i p0 a0 nd q0 rest xs0
    intro i a ha
    cases i with
    | zero =>
      rw [List.getElem?_cons_zero, Option.some_inj] at ha
      subst ha
      exact ⟨nd, hget, by rw [List.getElem?_cons_zero]⟩
    | succ k =>
      rw [List.getElem?_cons_succ] at ha
      obtain ⟨nd2, h1, h2⟩ := ih k a ha
      exact ⟨nd2, h1, by rw [List.getElem?_cons_succ]; exact h2⟩

/-- Walking `prev` pointers from the last node of a doubly chain visits the
chain backwards. -/
theorem DSeg.walk_prev {h : DHeap α} :
    ∀ {l : List Nat} {p s q : Option Nat} {x : List α}, DSeg h p s q l x →
      ∀ k, k < l.length → d_walk_prev h l.getLast? k = l[l.length - 1 - k]? := by
  intro l
  induction l using List.reverseRecOn with
  | nil =>
    intro p s q x hs k hk
    simp at hk
  | append_singleton l0 a ih =>
    intro p s q x hs k hk
    have hxlen : x.length = l0.length + 1 := by
      rw [hs.length_eqD]
      simp
    have hxd : x.take l0.length ++ x.drop l0.length = x := List.take_append_drop _ _
    have hs2 : DSeg h p s q (l0 ++ [a]) (x.take l0.length ++ x.drop l0.length) := by
      rw [hxd]
      exact hs
    obtain ⟨m, hm1, hm2⟩ := hs2.splitD (by rw [List.length_take]; omega)
    obtain ⟨hma, nd, xs2, hget, hprev, hxdrop, hrest⟩ := hm2.cons_invD
    cases k with
    | zero =>
      rw [List.getLast?_concat, d_walk_prev]
      have : (l0 ++ [a]).length - 1 - 0 = l0.length := by simp
      rw [this, List.getElem?_concat_length]
    | succ k2 =>
      rw [List.getLast?_concat, d_walk_prev, DHeap.prevOf_some hget, hprev]
      have hk2 : k2 < l0.length := by
        simp at hk
        omega
      have hl0ne : l0 ≠ [] := by
        intro hc
        rw [hc] at hk2
        simp at hk2
      have hend : endPtr p l0 = l0.getLast? := by
        unfold endPtr
        cases hg : l0.getLast? with
        | none =>
          exfalso
          exact hl0ne (by
            cases l0 with
            | nil => rfl
            | cons c l2 => simp [List.getLast?_cons] at hg)
        | some b => rfl
      rw [hend, ih hm1 k2 hk2]
      have hidx : (l0 ++ [a]).length - 1 - (k2 + 1) = l0.length - 1 - k2 := by
        simp
        omega
      rw [hidx, List.getElem?_append_left (by omega)]

/-- Redirecting the `next` link of the last node of a doubly chain
retargets the chain's exit pointer (all `prev` links are untouched). -/
theorem DSeg.setNext_lastD {h : DHeap α} {p s q : Option Nat} {l0 : List Nat}
    {b : Nat} {xs : List α} (hs : DSeg h p s q (l0 ++ [b]) xs)
    (hnd : (l0 ++ [b]).Nodup) (q2 : Option Nat) :
    DSeg (h.setNext b q2) p s q2 (l0 ++ [b]) xs := by
  induction l0 generalizing p s xs with
  | nil =>
    rw [List.nil_append] at hs ⊢
    obtain ⟨hsb, nd, xs0, hget, hprev, hxs, hrest⟩ := hs.cons_invD
    have h0 := hrest.nil_invD
    subst hxs hsb
    rw [h0.2]
    have hget2 : (h.setNext b q2).get b = some { nd with next := q2 } := by
      rw [DHeap.get_setNextD hget, if_pos rfl]
    show DSeg (h.setNext b q2) p (some b) q2 (b :: [])
      ({ nd with next := q2 }.data :: [])
    exact DSeg.cons hget2 hprev (DSeg.nil _ _)
  | cons a l0 ih =>
    rw [List.cons_append] at hs ⊢
    obtain ⟨hsa, nd, xs0, hget, hprev, hxs, hrest⟩ := hs.cons_invD
    have hna : a ∉ l0 ++ [b] := (List.nodup_cons.mp hnd).1
    have hab : a ≠ b := fun he => hna (by simp [he])
    obtain ⟨ndb, hndb⟩ := hrest.get_memD (a := b) (by simp)
    subst hxs hsa
    have hget2 : (h.setNext b q2).get a = some nd := by
      rw [DHeap.get_setNextD hndb, if_neg hab]
      exact hget
    exact DSeg.cons hget2 hprev (ih hrest (List.nodup_cons.mp hnd).2)

/-- Redirecting the `prev` link of the first node of a doubly chain
retargets the chain's entry back-pointer. -/
theorem DSeg.setPrev_first {h : DHeap α} {p q : Option Nat} {b : Nat}
    {rest : List Nat} {xs : List α} (hs : DSeg h p (some b) q (b :: rest) xs)
    (hnd : (b :: rest).Nodup) (p2 : Option Nat) :
    DSeg (h.setPrev b p2) p2 (some b) q (b :: rest) xs := by
  obtain ⟨-, nd, xs0, hget, hprev, hxs, hrest⟩ := hs.cons_invD
  subst hxs
  have hbn : b ∉ rest := (List.nodup_cons.mp hnd).1
  have hget2 : (h.setPrev b p2).get b = some { nd with prev := p2 } := by
    rw [DHeap.get_setPrev hget, if_pos rfl]
  have hrest2 : DSeg (h.setPrev b p2) (some b) nd.next q rest xs0 :=
    hrest.frameD fun c hc => by
      rw [DHeap.get_setPrev hget, if_neg (by rintro rfl; exact hbn hc)]
  show DSeg (h.setPrev b p2) p2 (some b) q (b :: rest)
    ({ nd with prev := p2 }.data :: xs0)
  exact DSeg.cons hget2 rfl hrest2

theorem DSeg.setData_atD {h : DHeap α} {p s q : Option Nat} {addrs : List Nat}
    {xs : List α} (hs : DSeg h p s q addrs xs) (hnd : addrs.Nodup) :
    ∀ (i b : Nat) (x : α), addrs[i]? = some b →
      DSeg (h.setData b x) p s q addrs (xs.set i x) := by
  induction hs with
  | nil =>
    intro i b x hb
    simp at hb
  | cons hget hprev hrest ih =>
    rename_i p0 a nd q0 rest xs0
    intro i b x hb
    obtain ⟨hna, hnr⟩ := List.nodup_cons.mp hnd
    cases i with
    | zero =>
      rw [List.getElem?_cons_zero, Option.some_inj] at hb
      subst hb
      have hget2 : (h.setData a x).get a = some { nd with data := x } := by
        rw [DHeap.get_setDataD hget, if_pos rfl]
      have hrest2 : DSeg (h.setData a x) (some a) nd.next q0 rest xs0 :=
        hrest.frameD fun c hc => by
          rw [DHeap.get_setDataD hget, if_neg (by rintro rfl; exact hna hc)]
      exact DSeg.cons hget2 hprev hrest2
    | succ k =>
      rw [List.getElem?_cons_succ] at hb
      have hbm : b ∈ rest := List.getElem?_mem hb
      have hab : a ≠ b := by
        rintro rfl
        exact hna hbm
      obtain ⟨ndb, hndb⟩ := hrest.get_memD hbm
      have hget2 : (h.setData b x).get a = some nd := by
        rw [DHeap.get_setDataD hndb, if_neg hab]
        exact hget
      exact DSeg.cons hget2 hprev (ih hnr k b x hb)

theorem DRep.tail_none_iffD {s : DState α} {addrs : List Nat} {xs : List α}
    (hr : DRep s addrs xs) : s.list.tail = none ↔ addrs = [] := by
  obtain ⟨hseg, hlen, htail, hnd⟩ := hr
  rw [htail]
  cases addrs with
  | nil => simp
  | cons a l => simp [List.getLast?_cons]

theorem DRep.head_eqD {s : DState α} {addrs : List Nat} {xs : List α}
    (hr : DRep s addrs xs) : s.list.head = addrs.head? := by
  obtain ⟨hseg, hlen, htail, hnd⟩ := hr
  cases addrs with
  | nil => simpa using hseg.nil_invD.1
  | cons a l => simpa using hseg.start_eqD

/-! ### Doubly list: operation correctness over the representation -/

theorem doubly_push_front_spec {s : DState α} {addrs : List Nat} {xs : List α}
    (hr : DRep s addrs xs) (x : α) :
    (doubly_list_push_front true s x).1 = .SUCCESS ∧
    DRep (doubly_list_push_front true s x).2
      (s.heap.store.length :: addrs) (x :: xs) := by
  obtain ⟨hseg, hlen, htail, hnd⟩ := hr
  have hnodup2 : (s.heap.store.length :: addrs).Nodup :=
    List.nodup_cons.mpr ⟨fun hmem => by have := hseg.mem_ltD hmem; omega, hnd⟩
  cases addrs with
  | nil =>
    have hx : xs = [] := List.length_eq_zero.mp (by simpa using hseg.length_eqD)
    subst hx
    have hhead : s.list.head = none := by
      rw [DRep.head_eqD ⟨hseg, hlen, htail, hnd⟩]
      rfl
    have htl : s.list.tail = none := by rw [htail]; rfl
    unfold doubly_list_push_front
    simp only [reduceIte, hhead]
    have hgetf : ((s.heap.alloc { data := x, next := none, prev := none }).1).get
        s.heap.store.length = some { data := x, next := none, prev := none } := by
      rw [DHeap.get_allocD, if_pos rfl]
    refine ⟨by trivial, DSeg.cons hgetf rfl (DSeg.nil _ none),
      by simpa using hlen.symm, ?_, hnodup2⟩
    rw [if_pos htl]
    rfl
  | cons hd rest =>
    have hhead : s.list.head = some hd := hseg.start_eqD
    unfold doubly_list_push_front
    simp only [reduceIte, hhead]
    have hseg1 : DSeg (s.heap.alloc
        { data := x, next := some hd, prev := none }).1 none (some hd) none
        (hd :: rest) xs := (hhead ▸ hseg).alloc_frameD _
    have hseg2 : DSeg ((s.heap.alloc
        { data := x, next := some hd, prev := none }).1.setPrev hd
        (some s.heap.store.length)) (some s.heap.store.length) (some hd) none
        (hd :: rest) xs := hseg1.setPrev_first hnd _
    obtain ⟨ndhd, hndhd⟩ := hseg1.get_memD (a := hd) (by simp)
    have hhdlt : hd < s.heap.store.length := hseg.mem_ltD (by simp)
    have hgetf : ((s.heap.alloc { data := x, next := some hd, prev := none }).1.setPrev
        hd (some s.heap.store.length)).get s.heap.store.length =
        some { data := x, next := some hd, prev := none } := by
      rw [DHeap.get_setPrev hndhd, if_neg (by omega), DHeap.get_allocD, if_pos rfl]
    refine ⟨by trivial, DSeg.cons hgetf rfl hseg2, by simpa using hlen, ?_, hnodup2⟩
    rw [if_neg (by rw [htail]; simp [List.getLast?_cons]), List.getLast?_cons_cons,
      htail]

theorem doubly_push_back_spec {s : DState α} {addrs : List Nat} {xs : List α}
    (hr : DRep s addrs xs) (x : α) :
    (doubly_list_push_back true s x).1 = .SUCCESS ∧
    DRep (doubly_list_push_back true s x).2
      (addrs ++ [s.heap.store.length]) (xs ++ [x]) := by
  obtain ⟨hseg, hlen, htail, hnd⟩ := hr
  have hfresh : s.heap.store.length ∉ addrs := fun hmem => by
    have := hseg.mem_ltD hmem
    omega
  have hnd2 : (addrs ++ [s.heap.store.length]).Nodup := by
    rw [List.nodup_append]
    exact ⟨hnd, by simp, by intro a ha hb; simp at hb; subst hb; exact hfresh ha⟩
  cases htl : s.list.tail with
  | none =>
    have haddr : addrs = [] := (DRep.tail_none_iffD ⟨hseg, hlen, htail, hnd⟩).mp htl
    have hx : xs = [] := by
      subst haddr
      exact List.length_eq_zero.mp (by simpa using hseg.length_eqD)
    subst haddr hx
    have hhead : s.list.head = none := by
      rw [DRep.head_eqD ⟨hseg, hlen, htail, hnd⟩]
      rfl
    unfold doubly_list_push_back
    simp only [reduceIte, htl, hhead]
    have hgetf : ((s.heap.alloc { data := x, next := none, prev := none }).1).get
        s.heap.store.length = some { data := x, next := none, prev := none } := by
      rw [DHeap.get_allocD, if_pos rfl]
    exact ⟨by trivial, DSeg.cons hgetf rfl (DSeg.nil _ none),
      by simpa using hlen.symm, by rfl, by simp⟩
  | some t =>
    obtain ⟨l0, hl0⟩ : ∃ l0, addrs = l0 ++ [t] := by
      rw [htail] at htl
      exact List.getLast?_eq_some_iff.mp htl
    subst hl0
    have hheadne : ¬ s.list.head = none := by
      rw [DRep.head_eqD ⟨hseg, hlen, htail, hnd⟩]
      cases l0 <;> simp
    unfold doubly_list_push_back
    simp only [reduceIte, htl, if_neg hheadne]
    have hseg1 : DSeg (s.heap.alloc
        { data := x, next := none, prev := some t }).1 none s.list.head none
        (l0 ++ [t]) xs := hseg.alloc_frameD _
    have hseg2 : DSeg ((s.heap.alloc
        { data := x, next := none, prev := some t }).1.setNext t
        (some s.heap.store.length)) none s.list.head (some s.heap.store.length)
        (l0 ++ [t]) xs := hseg1.setNext_lastD hnd _
    have htlt : t < s.heap.store.length := hseg.mem_ltD (by simp)
    obtain ⟨ndt, hndt⟩ := hseg1.get_memD (a := t) (by simp)
    have hgetf : ((s.heap.alloc { data := x, next := none, prev := some t }).1.setNext
        t (some s.heap.store.length)).get s.heap.store.length =
        some { data := x, next := none, prev := some t } := by
      rw [DHeap.get_setNextD hndt, if_neg (by omega), DHeap.get_allocD, if_pos rfl]
    have hsingle : DSeg ((s.heap.alloc
        { data := x, next := none, prev := some t }).1.setNext t
        (some s.heap.store.length)) (endPtr none (l0 ++ [t]))
        (some s.heap.store.length) none [s.heap.store.length] [x] := by
      rw [endPtr_concat]
      exact DSeg.cons hgetf rfl (DSeg.nil _ none)
    refine ⟨by trivial, hseg2.appendD hsingle, ?_, ?_, hnd2⟩
    · simp only [List.length_append, List.length_cons, List.length_nil] at hlen ⊢
      omega
    · rw [List.getLast?_concat]
      rfl

theorem doubly_pop_front_empty {s : DState α} (h : s.list.head = none) :
    doubly_list_pop_front s = (.ERROR_EMPTY_CONTAINER, s, none) := by
  unfold doubly_list_pop_front
  rw [h]

theorem doubly_pop_back_empty {s : DState α} (h : s.list.tail = none) :
    doubly_list_pop_back s = (.ERROR_EMPTY_CONTAINER, s, none) := by
  unfold doubly_list_pop_back
  rw [h]

theorem doubly_pop_front_spec {s : DState α} {a : Nat} {addrs : List Nat}
    {x : α} {xs : List α} (hr : DRep s (a :: addrs) (x :: xs)) :
    (doubly_list_pop_front s).1 = .SUCCESS ∧
    DRep (doubly_list_pop_front s).2.1 addrs xs ∧
    (doubly_list_pop_front s).2.2 = some x := by
  obtain ⟨hseg, hlen, htail, hnd⟩ := hr
  have hhead : s.list.head = some a := hseg.start_eqD
  obtain ⟨-, nd, xs0, hget, hprev, hxs, hrest⟩ := hseg.cons_invD
  injection hxs with hdx hxs0
  subst hxs0
  have hnext : s.heap.nextOf a = nd.next := DHeap.nextOf_someD hget
  obtain ⟨hna, hndr⟩ := List.nodup_cons.mp hnd
  unfold doubly_list_pop_front
  simp only [hhead, hnext, hget, Option.map_some]
  cases addrs with
  | nil =>
    obtain ⟨hnn, hxs0⟩ := hrest.nil_invD
    subst hxs0
    simp only [hnn, reduceIte]
    refine ⟨by trivial, ⟨DSeg.nil none none, ?_, rfl, by simp⟩, by simp [hdx]⟩
    simp only [List.length_cons, List.length_nil] at hlen ⊢
    omega
  | cons b rest2 =>
    have hb : nd.next = some b := hrest.start_eqD
    have hchain0 : DSeg (s.heap.setPrev b none) none (some b) none (b :: rest2)
        xs := (hb ▸ hrest).setPrev_first hndr none
    have hchain : DSeg ((s.heap.setPrev b none).free a) none (some b) none
        (b :: rest2) xs := hchain0.frameD fun c hc => by
      rw [DHeap.get_freeD]
      exact if_neg (show ¬ c = a from fun h => hna (h ▸ hc))
    simp only [hb, reduceIte]
    refine ⟨by trivial, ⟨hchain, ?_, ?_, hndr⟩, by simp [hdx]⟩
    · simp only [List.length_cons] at hlen ⊢
      omega
    · rw [htail, List.getLast?_cons_cons]
      simp

theorem doubly_pop_back_spec {s : DState α} {a : Nat} {addrs : List Nat}
    {x : α} {xs : List α} (hr : DRep s (addrs ++ [a]) (xs ++ [x])) :
    (doubly_list_pop_back s).1 = .SUCCESS ∧
    DRep (doubly_list_pop_back s).2.1 addrs xs ∧
    (doubly_list_pop_back s).2.2 = some x := by
  obtain ⟨hseg, hlen, htail, hnd⟩ := hr
  have htl : s.list.tail = some a := by rw [htail, List.getLast?_concat]
  have hlen2 : xs.length = addrs.length := by
    have := hseg.length_eqD
    simp only [List.length_append, List.length_cons, List.length_nil] at this
    omega
  obtain ⟨m, h1, h2⟩ := hseg.splitD hlen2
  obtain ⟨hm, nd, xs0, hget, hprev, hxs, hrest⟩ := h2.cons_invD
  injection hxs with hdx hxs0
  obtain ⟨hnn, -⟩ := hrest.nil_invD
  have hna : a ∉ addrs := fun hmem => by
    rcases List.nodup_append.mp hnd with ⟨-, -, hdisj⟩
    exact hdisj hmem (by simp)
  have hprevOf : s.heap.prevOf a = endPtr none addrs :=
    (DHeap.prevOf_some hget).trans hprev
  subst hm
  unfold doubly_list_pop_back
  simp only [htl, hprevOf, hget, Option.map_some]
  rcases List.eq_nil_or_concat addrs with haddr | ⟨l0, t, haddr⟩
  · subst haddr
    have hx : xs = [] := List.length_eq_zero.mp (by simpa using hlen2)
    subst hx
    obtain ⟨hhm, -⟩ := h1.nil_invD
    simp only [endPtr_nil, reduceIte]
    refine ⟨by trivial, ⟨DSeg.nil none none, ?_, rfl, by simp⟩, by simp [hdx]⟩
    simp only [List.length_append, List.length_cons, List.length_nil] at hlen ⊢
    omega
  · rw [List.concat_eq_append] at haddr
    subst haddr
    have hndl : (l0 ++ [t]).Nodup :=
      List.Nodup.sublist (List.sublist_append_left _ _) hnd
    have hchain0 : DSeg (s.heap.setNext t none) none s.list.head none
        (l0 ++ [t]) xs := h1.setNext_lastD hndl none
    have hchain : DSeg ((s.heap.setNext t none).free a) none s.list.head none
        (l0 ++ [t]) xs := hchain0.frameD fun c hc => by
      rw [DHeap.get_freeD]
      exact if_neg (show ¬ c = a from fun h => hna (h ▸ hc))
    simp only [endPtr_concat, reduceIte]
    refine ⟨by trivial, ⟨hchain, ?_, ?_, hndl⟩, by simp [hdx]⟩
    · simp only [List.length_append, List.length_cons, List.length_nil]
        at hlen ⊢
      omega
    · rw [List.getLast?_concat]

theorem get_doubly_node_at_spec {s : DState α} {addrs : List Nat}
    {xs : List α} (hr : DRep s addrs xs) (i : Nat) (hi : i < s.list.size) :
    get_doubly_node_at s i = addrs[i]? := by
  obtain ⟨hseg, hlen, htail, hnd⟩ := hr
  unfold get_doubly_node_at
  rw [if_neg (by omega)]
  by_cases hhalf : i < s.list.size / 2
  · rw [if_pos hhalf]
    exact hseg.walk_ltD i (by omega)
  · rw [if_neg hhalf, htail,
      DSeg.walk_prev hseg (s.list.size - 1 - i) (by omega)]
    have hidx : addrs.length - 1 - (s.list.size - 1 - i) = i := by omega
    rw [hidx]

theorem doubly_get_spec {s : DState α} {addrs : List Nat} {xs : List α}
    (hr : DRep s addrs xs) (i : Nat) (hi : i < s.list.size) :
    doubly_list_get s i = (.SUCCESS, xs[i]?) := by
  have hn := get_doubly_node_at_spec hr i hi
  obtain ⟨hseg, hlen, htail, hnd⟩ := hr
  have hib : i < addrs.length := by omega
  have hb : addrs[i]? = some addrs[i] := List.getElem?_eq_getElem hib
  obtain ⟨nd, hget, hdata⟩ := hseg.data_atD i addrs[i] hb
  simp only [doubly_list_get, hn, hb, hget, Option.map_some]
  rw [hdata]
  rfl

theorem doubly_get_oob {s : DState α} (i : Nat) (hi : s.list.size ≤ i) :
    doubly_list_get s i = (.ERROR_INDEX_OUT_OF_BOUNDS, none) := by
  simp only [doubly_list_get, get_doubly_node_at, if_pos hi]

theorem doubly_set_spec {s : DState α} {addrs : List Nat} {xs : List α}
    (hr : DRep s addrs xs) (i : Nat) (hi : i < s.list.size) (x : α) :
    (doubly_list_set s i x).1 = .SUCCESS ∧
    DRep (doubly_list_set s i x).2 addrs (xs.set i x) := by
  have hn := get_doubly_node_at_spec hr i hi
  obtain ⟨hseg, hlen, htail, hnd⟩ := hr
  have hib : i < addrs.length := by omega
  have hb : addrs[i]? = some addrs[i] := List.getElem?_eq_getElem hib
  have hchain := hseg.setData_atD hnd i addrs[i] x hb
  simp only [doubly_list_set, hn, hb]
  exact ⟨by trivial, hchain, hlen, htail, hnd⟩

theorem doubly_set_oob {s : DState α} (i : Nat) (x : α)
    (hi : s.list.size ≤ i) :
    doubly_list_set s i x = (.ERROR_INDEX_OUT_OF_BOUNDS, s) := by
  simp only [doubly_list_set, get_doubly_node_at, if_pos hi]

theorem doubly_clear_spec (s : DState α) :
    DRep (doubly_list_clear s) [] ([] : List α) :=
  ⟨DSeg.nil none none, rfl, rfl, List.nodup_nil⟩

theorem endPtr_none (l : List Nat) : endPtr none l = l.getLast? := by
  unfold endPtr
  cases l.getLast? <;> rfl

/-- The heap after splicing out the node `nd` at address `rm`:
`rm->prev->next = rm->next`, `rm->next->prev = rm->prev`, then `free rm`
(shared shape of `doubly_list_remove` and `doubly_list_iter_remove`). -/
def d_spliced (h : DHeap α) (rm : Nat) (nd : doubly_node_t α) : DHeap α :=
  ((match nd.next with
    | some n =>
      (match nd.prev with
       | some p => h.setNext p nd.next
       | none => h).setPrev n nd.prev
    | none =>
      match nd.prev with
      | some p => h.setNext p nd.next
      | none => h) : DHeap α).free rm

theorem d_splice {s : DState α} {addrs : List Nat} {xs : List α}
    (hr : DRep s addrs xs) {k : Nat} (hk : k < addrs.length) :
    ∃ nd, s.heap.get addrs[k] = some nd ∧
      nd.prev = (addrs.take k).getLast? ∧
      nd.next = addrs[k + 1]? ∧
      xs[k]? = some nd.data ∧
      DSeg (d_spliced s.heap addrs[k] nd) none
        (if k = 0 then nd.next else s.list.head) none
        (addrs.eraseIdx k) (xs.eraseIdx k) := by
  obtain ⟨hseg, hlen, htail, hnd⟩ := hr
  have hxlen : xs.length = addrs.length := hseg.length_eqD
  have hkx : k < xs.length := by omega
  have hdropA : addrs.drop k = addrs[k] :: addrs.drop (k + 1) :=
    List.drop_eq_getElem_cons hk
  have hdropX : xs.drop k = xs[k] :: xs.drop (k + 1) :=
    List.drop_eq_getElem_cons hkx
  have hseg2 : DSeg s.heap none s.list.head none
      (addrs.take k ++ addrs[k] :: addrs.drop (k + 1))
      (xs.take k ++ xs[k] :: xs.drop (k + 1)) := by
    rw [← hdropA, ← hdropX, List.take_append_drop, List.take_append_drop]
    exact hseg
  have hXlen : (xs.take k).length = (addrs.take k).length := by
    simp only [List.length_take]
    omega
  obtain ⟨m, hA, hB⟩ := hseg2.splitD hXlen
  obtain ⟨hm, nd, xs0, hget, hprev, hxs, hrest⟩ := hB.cons_invD
  injection hxs with hdx hxs0
  subst hxs0
  have hnd2 : (addrs.take k ++ addrs[k] :: addrs.drop (k + 1)).Nodup := by
    rw [← hdropA, List.take_append_drop]
    exact hnd
  obtain ⟨hrmAB, hndAB⟩ := List.nodup_cons.mp (List.nodup_middle.mp hnd2)
  have hrmA : addrs[k] ∉ addrs.take k :=
    fun h => hrmAB (List.mem_append.mpr (.inl h))
  have hrmB : addrs[k] ∉ addrs.drop (k + 1) :=
    fun h => hrmAB (List.mem_append.mpr (.inr h))
  obtain ⟨hndA, hndB, hdisj⟩ := List.nodup_append.mp hndAB
  have herA : addrs.eraseIdx k = addrs.take k ++ addrs.drop (k + 1) :=
    List.eraseIdx_eq_take_drop_succ addrs k
  have herX : xs.eraseIdx k = xs.take k ++ xs.drop (k + 1) :=
    List.eraseIdx_eq_take_drop_succ xs k
  have hnext : nd.next = addrs[k + 1]? := by
    cases hd2 : addrs.drop (k + 1) with
    | nil =>
      rw [hd2] at hrest
      rw [hrest.nil_invD.1]
      have hle : addrs.length ≤ k + 1 := by
        have hlen0 : (addrs.drop (k + 1)).length = 0 := by rw [hd2]; rfl
        rw [List.length_drop] at hlen0
        omega
      exact (List.getElem?_eq_none hle).symm
    | cons b B2 =>
      rw [hd2] at hrest
      rw [hrest.start_eqD]
      have h0 : addrs[k + 1]? = (addrs.drop (k + 1))[0]? := by
        rw [List.getElem?_drop]
      rw [h0, hd2]
      simp
  refine ⟨nd, hget, by rw [hprev, endPtr_none], hnext,
    by rw [List.getElem?_eq_getElem hkx, hdx], ?_⟩
  rw [herA, herX]
  unfold d_spliced
  subst hm
  rcases List.eq_nil_or_concat (addrs.take k) with hA0 | ⟨A0, p, hA0⟩
  · have hk0 : k = 0 := by
      have := congrArg List.length hA0
      simp only [List.length_take, List.length_nil] at this
      omega
    subst hk0
    have hpn : nd.prev = none := by rw [hprev, hA0, endPtr_nil]
    rw [if_pos rfl, hA0, List.nil_append]
    have hX0 : xs.take 0 = [] := List.take_zero xs
    rw [hX0, List.nil_append]
    cases hd2 : addrs.drop 1 with
    | nil =>
      rw [hd2] at hrest
      obtain ⟨hnn, hY0⟩ := hrest.nil_invD
      rw [show xs.drop (0 + 1) = xs.drop 1 from rfl] at hY0 ⊢
      rw [hY0, hnn]
      simp only [hpn, hnn]
      exact DSeg.nil none none
    | cons b B2 =>
      rw [hd2] at hrest
      have hbn : nd.next = some b := hrest.start_eqD
      rw [hbn] at hrest
      have hndB2 : (b :: B2).Nodup := by rw [← hd2]; exact hndB
      have hrmB2 : addrs[0] ∉ b :: B2 := by rw [← hd2]; exact hrmB
      have hchain : DSeg ((s.heap.setPrev b none).free addrs[0]) none (some b)
          none (b :: B2) (xs.drop (0 + 1)) :=
        (hrest.setPrev_first hndB2 none).frameD fun c hc => by
          rw [DHeap.get_freeD]
          exact if_neg (show ¬ c = addrs[0] from fun h => hrmB2 (h ▸ hc))
      simp only [hbn, hpn]
      exact hchain
  · rw [List.concat_eq_append] at hA0
    have hkne : ¬ k = 0 := by
      intro h
      rw [h, List.take_zero] at hA0
      exact absurd hA0 (by simp)
    have hpp : nd.prev = some p := by rw [hprev, hA0, endPtr_concat]
    rw [if_neg hkne]
    rw [hA0] at hA hndA hrmA
    have hpA : p ∈ addrs.take k := by rw [hA0]; simp
    cases hd2 : addrs.drop (k + 1) with
    | nil =>
      rw [hd2] at hrest
      obtain ⟨hnn, hY0⟩ := hrest.nil_invD
      have hchainA : DSeg ((s.heap.setNext p none).free addrs[k]) none
          s.list.head none (A0 ++ [p]) (xs.take k) :=
        (hA.setNext_lastD hndA none).frameD fun c hc => by
          rw [DHeap.get_freeD]
          exact if_neg (show ¬ c = addrs[k] from fun h => hrmA (h ▸ hc))
      simp only [hpp, hnn]
      rw [hA0, hY0, List.append_nil, List.append_nil]
      exact hchainA
    | cons b B2 =>
      have hbB : b ∈ addrs.drop (k + 1) := by rw [hd2]; simp
      rw [hd2] at hrest hndB hrmB
      have hbn : nd.next = some b := hrest.start_eqD
      rw [hbn] at hrest
      have hpA2 : p ∈ A0 ++ [p] := by simp
      have hbp : ¬ b = p := fun h => hdisj (h ▸ hpA) hbB
      obtain ⟨ndb, hndb⟩ := hrest.get_memD (a := b) (by simp)
      obtain ⟨ndp, hndp⟩ := hA.get_memD hpA2
      have hgetb1 : ((s.heap.setNext p (some b)).get b) = some ndb := by
        rw [DHeap.get_setNextD hndp, if_neg hbp]
        exact hndb
      have step1A : DSeg (s.heap.setNext p (some b)) none s.list.head (some b)
          (A0 ++ [p]) (xs.take k) := hA.setNext_lastD hndA (some b)
      have step2A : DSeg ((s.heap.setNext p (some b)).setPrev b (some p)) none
          s.list.head (some b) (A0 ++ [p]) (xs.take k) :=
        step1A.frameD fun c hc => by
          rw [DHeap.get_setPrev hgetb1]
          have hcA : c ∈ addrs.take k := by rw [hA0]; exact hc
          exact if_neg (fun h => hdisj (h ▸ hcA) hbB)
      have step3A : DSeg (((s.heap.setNext p (some b)).setPrev b
          (some p)).free addrs[k]) none s.list.head (some b) (A0 ++ [p])
          (xs.take k) := step2A.frameD fun c hc => by
        rw [DHeap.get_freeD]
        exact if_neg (show ¬ c = addrs[k] from fun h => hrmA (h ▸ hc))
      have step1B : DSeg (s.heap.setNext p (some b)) (some addrs[k]) (some b)
          none (b :: B2) (xs.drop (k + 1)) := hrest.frameD fun c hc => by
        rw [DHeap.get_setNextD hndp]
        exact if_neg (fun h => hdisj hpA (by rw [hd2]; exact h ▸ hc))
      have step2B : DSeg ((s.heap.setNext p (some b)).setPrev b (some p))
          (some p) (some b) none (b :: B2) (xs.drop (k + 1)) :=
        step1B.setPrev_first hndB (some p)
      have step3B : DSeg (((s.heap.setNext p (some b)).setPrev b
          (some p)).free addrs[k]) (some p) (some b) none (b :: B2)
          (xs.drop (k + 1)) := step2B.frameD fun c hc => by
        rw [DHeap.get_freeD]
        exact if_neg (show ¬ c = addrs[k] from fun h => hrmB (h ▸ hc))
      have hj : DSeg (((s.heap.setNext p (some b)).setPrev b
          (some p)).free addrs[k]) (endPtr none (A0 ++ [p])) (some b) none
          (b :: B2) (xs.drop (k + 1)) := by
        rw [endPtr_concat]
        exact step3B
      simp only [hbn, hpp]
      rw [hA0]
      exact step3A.appendD hj

theorem doubly_remove_middle {s : DState α} {addrs : List Nat} {xs : List α}
    (hr : DRep s addrs xs) {i : Nat} (h0 : 0 < i) (hi : i < s.list.size - 1) :
    (doubly_list_remove s i).1 = .SUCCESS ∧
    DRep (doubly_list_remove s i).2 (addrs.eraseIdx i) (xs.eraseIdx i) := by
  have hlen := hr.2.1
  have htail := hr.2.2.1
  have hnd := hr.2.2.2
  have hsize : i < s.list.size := by omega
  have hklen : i < addrs.length := by omega
  have hn := get_doubly_node_at_spec hr i hsize
  obtain ⟨nd, hget, hprev, hnext, hdata, hchain⟩ := d_splice hr hklen
  have hb : addrs[i]? = some addrs[i] := List.getElem?_eq_getElem hklen
  have hpOf : s.heap.prevOf addrs[i] = nd.prev := DHeap.prevOf_some hget
  have hnOf : s.heap.nextOf addrs[i] = nd.next := DHeap.nextOf_someD hget
  rw [if_neg (by omega : ¬ i = 0)] at hchain
  unfold d_spliced at hchain
  unfold doubly_list_remove
  rw [if_neg (by omega), if_neg (by omega), if_neg (by omega)]
  simp only [hn, hb, hpOf, hnOf]
  refine ⟨by trivial, hchain, ?_, ?_, ?_⟩
  · rw [List.eraseIdx_eq_take_drop_succ]
    simp only [List.length_append, List.length_take, List.length_drop]
    omega
  · have hne : addrs.drop (i + 1) ≠ [] := by
      intro h
      have := congrArg List.length h
      simp only [List.length_drop, List.length_nil] at this
      omega
    rw [List.eraseIdx_eq_take_drop_succ,
      List.getLast?_append_of_ne_nil _ hne]
    rw [show addrs = addrs.take (i + 1) ++ addrs.drop (i + 1) from
      (List.take_append_drop _ _).symm,
      List.getLast?_append_of_ne_nil _ hne] at htail
    exact htail
  · exact List.Nodup.sublist (List.eraseIdx_sublist addrs i) hnd

theorem doubly_insert_middle {s : DState α} {addrs : List Nat} {xs : List α}
    (hr : DRep s addrs xs) {i : Nat} (h0 : 0 < i) (hi : i < s.list.size)
    (x : α) :
    (doubly_list_insert true s i x).1 = .SUCCESS ∧
    DRep (doubly_list_insert true s i x).2
      (addrs.take i ++ s.heap.store.length :: addrs.drop i)
      (xs.take i ++ x :: xs.drop i) := by
  obtain ⟨hseg, hlen, htail, hnd⟩ := hr
  have hklen : i < addrs.length := by omega
  have hxlen : xs.length = addrs.length := hseg.length_eqD
  have hkx : i < xs.length := by omega
  have hn := get_doubly_node_at_spec ⟨hseg, hlen, htail, hnd⟩ i hi
  have hb : addrs[i]? = some addrs[i] := List.getElem?_eq_getElem hklen
  have hdropA : addrs.drop i = addrs[i] :: addrs.drop (i + 1) :=
    List.drop_eq_getElem_cons hklen
  have hdropX : xs.drop i = xs[i] :: xs.drop (i + 1) :=
    List.drop_eq_getElem_cons hkx
  have hseg2 : DSeg s.heap none s.list.head none
      (addrs.take i ++ addrs[i] :: addrs.drop (i + 1))
      (xs.take i ++ xs[i] :: xs.drop (i + 1)) := by
    rw [← hdropA, ← hdropX, List.take_append_drop, List.take_append_drop]
    exact hseg
  have hXlen : (xs.take i).length = (addrs.take i).length := by
    simp only [List.length_take]
    omega
  obtain ⟨m, hA, hB⟩ := hseg2.splitD hXlen
  have hm : m = some addrs[i] := hB.start_eqD
  subst hm
  have hnd2 : (addrs.take i ++ addrs[i] :: addrs.drop (i + 1)).Nodup := by
    rw [← hdropA, List.take_append_drop]
    exact hnd
  obtain ⟨hrmAB, hndAB⟩ := List.nodup_cons.mp (List.nodup_middle.mp hnd2)
  have hrmA : addrs[i] ∉ addrs.take i :=
    fun h => hrmAB (List.mem_append.mpr (.inl h))
  obtain ⟨hndA, hndB, hdisj⟩ := List.nodup_append.mp hndAB
  obtain ⟨-, ndc, xsc, hgetc, hprevc, hxsc, hrestc⟩ := hB.cons_invD
  rcases List.eq_nil_or_concat (addrs.take i) with hA0 | ⟨A0, p, hA0⟩
  · exact absurd (congrArg List.length hA0)
      (by simp only [List.length_take, List.length_nil]; omega)
  rw [List.concat_eq_append] at hA0
  have hppE : endPtr none (addrs.take i) = some p := by
    rw [hA0, endPtr_concat]
  have hprevOf : s.heap.prevOf addrs[i] = some p := by
    rw [DHeap.prevOf_some hgetc, hprevc, hppE]
  have hfresh : ∀ c ∈ addrs, c < s.heap.store.length :=
    fun c hc => hseg.mem_ltD hc
  have hpmem : p ∈ addrs := by
    have : p ∈ addrs.take i := by rw [hA0]; simp
    exact List.mem_of_mem_take this
  have hcurmem : addrs[i] ∈ addrs := List.getElem_mem hklen
  have hplt : p < s.heap.store.length := hfresh p hpmem
  have hcurlt : addrs[i] < s.heap.store.length := hfresh _ hcurmem
  have hcurp : ¬ addrs[i] = p := fun h => hrmA (by rw [hA0, h]; simp)
  rw [hA0] at hA hndA hrmA
  have hB2 : DSeg s.heap (some p) (some addrs[i]) none
      (addrs[i] :: addrs.drop (i + 1)) (xs[i] :: xs.drop (i + 1)) := by
    rw [← hppE]
    exact hB
  unfold doubly_list_insert
  rw [if_neg (by omega), if_neg (by omega), if_neg (by omega)]
  simp only [hn, hb, hprevOf, reduceIte]
  obtain ⟨ndp, hndp0⟩ := hA.get_memD (a := p) (by simp)
  have hndp1 : ((s.heap.alloc
      { data := x, next := some addrs[i], prev := some p }).1).get p =
      some ndp := by
    rw [DHeap.get_allocD, if_neg (by omega)]
    exact hndp0
  have hgetc1 : (((s.heap.alloc
      { data := x, next := some addrs[i], prev := some p }).1).setNext p
      (some s.heap.store.length)).get addrs[i] = some ndc := by
    rw [DHeap.get_setNextD hndp1, if_neg hcurp, DHeap.get_allocD,
      if_neg (by omega)]
    exact hgetc
  have stepA1 : DSeg (s.heap.alloc
      { data := x, next := some addrs[i], prev := some p }).1 none
      s.list.head (some addrs[i]) (A0 ++ [p]) (xs.take i) := hA.alloc_frameD _
  have stepA2 : DSeg ((s.heap.alloc
      { data := x, next := some addrs[i], prev := some p }).1.setNext p
      (some s.heap.store.length)) none s.list.head
      (some s.heap.store.length) (A0 ++ [p]) (xs.take i) :=
    stepA1.setNext_lastD hndA _
  have stepA3 : DSeg (((s.heap.alloc
      { data := x, next := some addrs[i], prev := some p }).1.setNext p
      (some s.heap.store.length)).setPrev addrs[i]
      (some s.heap.store.length)) none s.list.head
      (some s.heap.store.length) (A0 ++ [p]) (xs.take i) :=
    stepA2.frameD fun c hc => by
      rw [DHeap.get_setPrev hgetc1]
      exact if_neg (show ¬ c = addrs[i] from fun h => hrmA (h ▸ hc))
  have stepB1 : DSeg (s.heap.alloc
      { data := x, next := some addrs[i], prev := some p }).1 (some p)
      (some addrs[i]) none (addrs[i] :: addrs.drop (i + 1))
      (xs[i] :: xs.drop (i + 1)) := hB2.alloc_frameD _
  have hpTA : p ∈ addrs.take i := by rw [hA0]; simp
  have stepB2 : DSeg ((s.heap.alloc
      { data := x, next := some addrs[i], prev := some p }).1.setNext p
      (some s.heap.store.length)) (some p) (some addrs[i]) none
      (addrs[i] :: addrs.drop (i + 1)) (xs[i] :: xs.drop (i + 1)) :=
    stepB1.frameD fun c hc => by
      rw [DHeap.get_setNextD hndp1]
      refine if_neg (show ¬ c = p from fun h => ?_)
      rcases List.mem_cons.mp hc with hc0 | hc1
      · exact hcurp (hc0 ▸ h)
      · exact hdisj hpTA (h ▸ hc1)
  have hndBc : (addrs[i] :: addrs.drop (i + 1)).Nodup :=
    List.nodup_cons.mpr ⟨fun h => hrmAB (List.mem_append.mpr (.inr h)), hndB⟩
  have stepB3 : DSeg (((s.heap.alloc
      { data := x, next := some addrs[i], prev := some p }).1.setNext p
      (some s.heap.store.length)).setPrev addrs[i]
      (some s.heap.store.length)) (some s.heap.store.length)
      (some addrs[i]) none (addrs[i] :: addrs.drop (i + 1))
      (xs[i] :: xs.drop (i + 1)) := stepB2.setPrev_first hndBc _
  have hgetf : ((((s.heap.alloc
      { data := x, next := some addrs[i], prev := some p }).1).setNext p
      (some s.heap.store.length)).setPrev addrs[i]
      (some s.heap.store.length)).get s.heap.store.length =
      some { data := x, next := some addrs[i], prev := some p } := by
    rw [DHeap.get_setPrev hgetc1, if_neg (by omega),
      DHeap.get_setNextD hndp1, if_neg (by omega), DHeap.get_allocD,
      if_pos rfl]
  have fseg := DSeg.cons hgetf rfl stepB3
  have hj : DSeg ((((s.heap.alloc
      { data := x, next := some addrs[i], prev := some p }).1).setNext p
      (some s.heap.store.length)).setPrev addrs[i]
      (some s.heap.store.length)) (endPtr none (A0 ++ [p]))
      (some s.heap.store.length) none
      (s.heap.store.length :: addrs[i] :: addrs.drop (i + 1))
      (x :: xs[i] :: xs.drop (i + 1)) := by
    rw [endPtr_concat]
    exact fseg
  have total := stepA3.appendD hj
  have hne : addrs.drop i ≠ [] := by
    intro h
    have := congrArg List.length h
    simp only [List.length_drop, List.length_nil] at this
    omega
  rw [show addrs = addrs.take i ++ addrs.drop i from
    (List.take_append_drop _ _).symm,
    List.getLast?_append_of_ne_nil _ hne] at htail
  refine ⟨by trivial, ?_, ?_, ?_, ?_⟩
  · rw [hdropA, hdropX, hA0]
    exact total
  · simp only [List.length_append, List.length_take, List.length_cons,
      List.length_drop]
    omega
  · rw [List.getLast?_append_cons, hdropA, List.getLast?_cons_cons,
      ← hdropA]
    exact htail
  · refine List.nodup_middle.mpr ?_
    rw [List.take_append_drop]
    exact List.nodup_cons.mpr
      ⟨fun h => by have := hfresh _ h; omega, hnd⟩

theorem endPtr_reverse (q : Option Nat) (l : List Nat) :
    endPtr q l.reverse = l.head?.or q := by
  cases l with
  | nil => rfl
  | cons b t =>
    rw [List.reverse_cons, endPtr_concat]
    rfl

/-- Flipping every `next`/`prev` pair along a chain reverses it. -/
theorem DSeg.flip {h h' : DHeap α} {p s q : Option Nat} {addrs : List Nat}
    {xs : List α} (hs : DSeg h p s q addrs xs)
    (hflip : ∀ a ∈ addrs, h'.get a = (h.get a).map
      (fun nd => { nd with next := nd.prev, prev := nd.next })) :
    DSeg h' q (endPtr p addrs) p addrs.reverse xs.reverse := by
  induction hs with
  | nil =>
    rw [endPtr_nil]
    exact DSeg.nil _ _
  | cons hget hprev hrest ih =>
    rename_i p0 a nd q0 rest xs0
    have hget' : h'.get a = some
        { nd with next := nd.prev, prev := nd.next } := by
      rw [hflip a (by simp), hget]
      rfl
    have hbound : endPtr q0 rest.reverse = nd.next := by
      rw [endPtr_reverse]
      cases rest with
      | nil =>
        rw [hrest.nil_invD.1]
        rfl
      | cons b t =>
        rw [hrest.start_eqD]
        rfl
    have h2 : DSeg h' (some a)
        ({ nd with next := nd.prev, prev := nd.next } :
          doubly_node_t α).next p0 [] [] := by
      show DSeg h' (some a) nd.prev p0 [] []
      rw [hprev]
      exact DSeg.nil (some a) p0
    have h1 : DSeg h' nd.next (some a) p0 [a]
        [({ nd with next := nd.prev, prev := nd.next } :
          doubly_node_t α).data] := DSeg.cons hget' (by rfl) h2
    have hsingle : DSeg h' (endPtr q0 rest.reverse) (some a) p0 [a]
        [nd.data] := by
      rw [hbound]
      exact h1
    have hih := ih fun b hb => hflip b (by simp [hb])
    have happ := hih.appendD hsingle
    rw [List.reverse_cons, List.reverse_cons, endPtr_cons]
    exact happ

/-- Pointwise effect of the `doubly_list_reverse` loop: every node on the
chain gets its link pair swapped, all other addresses are untouched. -/
theorem d_rev_loop_get :
    ∀ {addrs : List Nat} {h : DHeap α} {p s q : Option Nat} {xs : List α},
      DSeg h p s q addrs xs → addrs.Nodup →
      ∀ b, (d_rev_loop h s addrs.length).get b =
        if b ∈ addrs then (h.get b).map
          (fun nd => { nd with next := nd.prev, prev := nd.next })
        else h.get b := by
  intro addrs
  induction addrs with
  | nil =>
    intro h p s q xs hs hnd b
    rw [if_neg (by simp)]
    obtain ⟨hsq, -⟩ := hs.nil_invD
    cases s <;> rfl
  | cons a rest ih =>
    intro h p s q xs hs hnd b
    obtain ⟨hsa, nd, xs0, hget, hprev, hxs, hrest⟩ := hs.cons_invD
    subst hsa
    obtain ⟨hna, hndr⟩ := List.nodup_cons.mp hnd
    have hrest2 : DSeg (h.write a
        { nd with next := nd.prev, prev := nd.next }) (some a) nd.next q
        rest xs0 := hrest.frameD fun c hc => by
      rw [DHeap.get_writeD hget]
      exact if_neg (show ¬ c = a from fun hh => hna (hh ▸ hc))
    have hloop : d_rev_loop h (some a) (rest.length + 1) =
        d_rev_loop (h.write a { nd with next := nd.prev, prev := nd.next })
          nd.next rest.length := by
      rw [d_rev_loop, hget]
    rw [List.length_cons, hloop, ih hrest2 hndr b]
    by_cases hb : b = a
    · subst hb
      rw [if_neg (fun hc => hna hc), if_pos (by simp),
        DHeap.get_writeD hget, if_pos rfl, hget]
      rfl
    · rw [DHeap.get_writeD hget, if_neg hb]
      by_cases hbr : b ∈ rest
      · rw [if_pos hbr, if_pos (by simp [hbr])]
      · rw [if_neg hbr, if_neg (by simp [hb, hbr])]

theorem doubly_reverse_spec {s : DState α} {addrs : List Nat} {xs : List α}
    (hr : DRep s addrs xs) :
    (doubly_list_reverse s).1 = .SUCCESS ∧
    DRep (doubly_list_reverse s).2 addrs.reverse xs.reverse := by
  obtain ⟨hseg, hlen, htail, hnd⟩ := hr
  have hxlen : xs.length = addrs.length := hseg.length_eqD
  unfold doubly_list_reverse
  by_cases hsz : s.list.size ≤ 1
  · rw [if_pos hsz]
    refine ⟨rfl, ?_⟩
    match haddr : addrs, hx : xs with
    | [], [] => exact ⟨hseg, hlen, htail, hnd⟩
    | [], y :: ys => simp at hxlen
    | [a], [y] => exact ⟨hseg, hlen, htail, hnd⟩
    | [a], [] => simp at hxlen
    | [a], y :: z :: ys => simp at hxlen
    | a :: b :: rest, _ =>
      simp only [List.length_cons] at hlen
      omega
  · rw [if_neg hsz]
    have hflip := d_rev_loop_get hseg hnd
    have hflip2 : ∀ a ∈ addrs,
        (d_rev_loop s.heap s.list.head s.list.size).get a =
          (s.heap.get a).map
            (fun nd => { nd with next := nd.prev, prev := nd.next }) := by
      intro a ha
      rw [← hlen, hflip a, if_pos ha]
    have hchain := hseg.flip hflip2
    refine ⟨rfl, ?_, ?_, ?_, ?_⟩
    · show DSeg (d_rev_loop s.heap s.list.head s.list.size) none
        s.list.tail none addrs.reverse xs.reverse
      rw [htail, ← endPtr_none]
      exact hchain
    · rw [List.length_reverse]
      exact hlen
    · show s.list.head = addrs.reverse.getLast?
      rw [List.getLast?_reverse]
      exact DRep.head_eqD ⟨hseg, hlen, htail, hnd⟩
    · exact List.nodup_reverse.mpr hnd

theorem d_walk_next_none (h : DHeap α) (k : Nat) :
    d_walk_next h none k = none := by
  cases k <;> rfl

theorem d_walk_next_add (h : DHeap α) :
    ∀ (m : Nat) (n : Nat) (s : Option Nat),
      d_walk_next h s (m + n) = d_walk_next h (d_walk_next h s m) n := by
  intro m
  induction m with
  | zero =>
    intro n s
    rw [Nat.zero_add]
    cases s <;> rfl
  | succ m ih =>
    intro n s
    cases s with
    | none => rw [d_walk_next_none, d_walk_next_none, d_walk_next_none]
    | some a =>
      have h1 : m + 1 + n = (m + n) + 1 := by omega
      rw [h1]
      show d_walk_next h (h.nextOf a) (m + n) =
        d_walk_next h (d_walk_next h (h.nextOf a) m) n
      exact ih n _

theorem DSeg.walk_exit {h : DHeap α} {p s q : Option Nat} {addrs : List Nat}
    {xs : List α} (hs : DSeg h p s q addrs xs) :
    d_walk_next h s addrs.length = q := by
  induction hs with
  | nil =>
    rename_i p0 q0
    cases q0 <;> rfl
  | cons hget hprev hrest ih =>
    rw [List.length_cons, d_walk_next, DHeap.nextOf_someD hget]
    exact ih

theorem DSeg.walk_endD {h : DHeap α} {p s : Option Nat} {addrs : List Nat}
    {xs : List α} (hs : DSeg h p s none addrs xs) {k : Nat}
    (hk : addrs.length ≤ k) : d_walk_next h s k = none := by
  have h1 : k = addrs.length + (k - addrs.length) := by omega
  rw [h1, d_walk_next_add, hs.walk_exit, d_walk_next_none]

theorem doubly_iter_remove_spec {s : DState α} {addrs : List Nat}
    {xs : List α} (hr : DRep s addrs xs) {k : Nat} (hk : k < addrs.length)
    (pos : Nat) :
    (doubly_list_iter_remove s ⟨some addrs[k], pos⟩).1 = .SUCCESS ∧
    DRep (doubly_list_iter_remove s ⟨some addrs[k], pos⟩).2.1
      (addrs.eraseIdx k) (xs.eraseIdx k) ∧
    (doubly_list_iter_remove s ⟨some addrs[k], pos⟩).2.2 =
      ⟨addrs[k + 1]?, pos⟩ := by
  obtain ⟨nd, hget, hprev, hnext, hdata, hchain⟩ := d_splice hr hk
  obtain ⟨hseg, hlen, htail, hnd⟩ := hr
  have hk0iff : nd.prev = none ↔ k = 0 := by
    rw [hprev]
    constructor
    · intro h
      have h2 : addrs.take k = [] := by
        cases htk : addrs.take k with
        | nil => rfl
        | cons c t =>
          rw [htk] at h
          rw [List.getLast?_cons] at h
          exact absurd h (by simp)
      have := congrArg List.length h2
      simp only [List.length_take, List.length_nil] at this
      omega
    · intro h
      rw [h, List.take_zero]
      rfl
  have hnconeiff : nd.next = none ↔ addrs.length ≤ k + 1 := by
    rw [hnext]
    exact List.getElem?_eq_none_iff
  unfold d_spliced at hchain
  unfold doubly_list_iter_remove
  simp only [hget]
  refine ⟨by trivial, ⟨?_, ?_, ?_, ?_⟩, ?_⟩
  · show DSeg _ none (if nd.prev = none then nd.next else s.list.head) none
      (addrs.eraseIdx k) (xs.eraseIdx k)
    by_cases hk0 : k = 0
    · rw [if_pos hk0] at hchain
      rw [if_pos (hk0iff.mpr hk0)]
      exact hchain
    · rw [if_neg hk0] at hchain
      rw [if_neg (fun h => hk0 (hk0iff.mp h))]
      exact hchain
  · rw [List.eraseIdx_eq_take_drop_succ]
    simp only [List.length_append, List.length_take, List.length_drop]
    omega
  · show (if nd.next = none then nd.prev else s.list.tail) = _
    by_cases hn0 : nd.next = none
    · rw [if_pos hn0]
      have hdrop : addrs.drop (k + 1) = [] :=
        List.drop_eq_nil_of_le (hnconeiff.mp hn0)
      rw [List.eraseIdx_eq_take_drop_succ, hdrop, List.append_nil]
      exact hprev
    · rw [if_neg hn0]
      have hlt : k + 1 < addrs.length := by
        by_contra hc
        exact hn0 (hnconeiff.mpr (by omega))
      have hne : addrs.drop (k + 1) ≠ [] := by
        intro h
        have := congrArg List.length h
        simp only [List.length_drop, List.length_nil] at this
        omega
      rw [List.eraseIdx_eq_take_drop_succ,
        List.getLast?_append_of_ne_nil _ hne]
      rw [show addrs = addrs.take (k + 1) ++ addrs.drop (k + 1) from
        (List.take_append_drop _ _).symm,
        List.getLast?_append_of_ne_nil _ hne] at htail
      exact htail
  · exact List.Nodup.sublist (List.eraseIdx_sublist addrs k) hnd
  · show (⟨nd.next, pos⟩ : doubly_list_iter_t) = _
    rw [hnext]

theorem doubly_push_front_error (s : DState α) (e : α) :
    doubly_list_push_front false s e = (.ERROR_MEMORY_ALLOCATION, s) := rfl

theorem doubly_push_back_error (s : DState α) (e : α) :
    doubly_list_push_back false s e = (.ERROR_MEMORY_ALLOCATION, s) := rfl

theorem doubly_insert_false_unchanged (s : DState α) (i : Nat) (e : α) :
    (doubly_list_insert false s i e).2 = s := by
  unfold doubly_list_insert doubly_list_push_front doubly_list_push_back
  split_ifs <;> first
    | rfl
    | (cases get_doubly_node_at s i <;> rfl)
    | simp_all

theorem doubly_insert_pres {s : DState α} {addrs : List Nat} {xs : List α}
    (hr : DRep s addrs xs) (i : Nat) (e : α) :
    DWF (doubly_list_insert true s i e).2 := by
  have hlen := hr.2.1
  by_cases hoob : s.list.size < i
  · show DWF (doubly_list_insert true s i e).2
    unfold doubly_list_insert
    rw [if_pos hoob]
    exact ⟨addrs, xs, hr⟩
  by_cases h0 : i = 0
  · subst h0
    show DWF (doubly_list_insert true s 0 e).2
    unfold doubly_list_insert
    rw [if_neg hoob, if_pos rfl]
    exact ⟨_, _, (doubly_push_front_spec hr e).2⟩
  by_cases hsz : i = s.list.size
  · show DWF (doubly_list_insert true s i e).2
    unfold doubly_list_insert
    rw [if_neg hoob, if_neg h0, if_pos hsz]
    exact ⟨_, _, (doubly_push_back_spec hr e).2⟩
  · exact ⟨_, _, (doubly_insert_middle hr (by omega) (by omega) e).2⟩

theorem doubly_remove_pres {s : DState α} {addrs : List Nat} {xs : List α}
    (hr : DRep s addrs xs) (i : Nat) :
    DWF (doubly_list_remove s i).2 := by
  have hlen := hr.2.1
  have hxlen := hr.1.length_eqD
  by_cases hoob : s.list.size ≤ i
  · show DWF (doubly_list_remove s i).2
    unfold doubly_list_remove
    rw [if_pos hoob]
    exact ⟨addrs, xs, hr⟩
  by_cases h0 : i = 0
  · subst h0
    show DWF (doubly_list_remove s 0).2
    unfold doubly_list_remove
    rw [if_neg hoob, if_pos rfl]
    cases addrs with
    | nil => simp at hlen; omega
    | cons a rest =>
      cases xs with
      | nil => simp at hxlen
      | cons x xr => exact ⟨_, _, (doubly_pop_front_spec hr).2.1⟩
  by_cases hlast : i = s.list.size - 1
  · show DWF (doubly_list_remove s i).2
    unfold doubly_list_remove
    rw [if_neg hoob, if_neg h0, if_pos hlast]
    rcases List.eq_nil_or_concat addrs with haddr | ⟨l0, t, haddr⟩
    · rw [haddr] at hlen
      simp at hlen
      omega
    rcases List.eq_nil_or_concat xs with hx | ⟨y0, y, hx⟩
    · rw [haddr, hx] at hxlen
      simp at hxlen
    rw [List.concat_eq_append] at haddr hx
    subst haddr hx
    exact ⟨_, _, (doubly_pop_back_spec hr).2.1⟩
  · exact ⟨_, _, (doubly_remove_middle hr (by omega) (by omega)).2⟩

/-- The doubly-list operations (iter_remove at position `k` models an
iterator advanced `k` times from `iter_create`). -/
inductive DoublyOp (α : Type) where
  | push_front (allocOk : Bool) (e : α)
  | push_back (allocOk : Bool) (e : α)
  | pop_front
  | pop_back
  | insert (allocOk : Bool) (i : Nat) (e : α)
  | remove (i : Nat)
  | get (i : Nat)
  | set (i : Nat) (e : α)
  | clear
  | reverse
  | iter_remove (k : Nat) (pos : Nat)
deriving DecidableEq, Repr

/-- Applies a doubly-list operation. -/
def applyD (op : DoublyOp α) (s : DState α) : status_t × DState α :=
  match op with
  | .push_front b e => doubly_list_push_front b s e
  | .push_back b e => doubly_list_push_back b s e
  | .pop_front => let r := doubly_list_pop_front s; (r.1, r.2.1)
  | .pop_back => let r := doubly_list_pop_back s; (r.1, r.2.1)
  | .insert b i e => doubly_list_insert b s i e
  | .remove i => doubly_list_remove s i
  | .get i => ((doubly_list_get s i).1, s)
  | .set i e => doubly_list_set s i e
  | .clear => (.SUCCESS, doubly_list_clear s)
  | .reverse => doubly_list_reverse s
  | .iter_remove k pos =>
    let r := doubly_list_iter_remove s
      ⟨d_walk_next s.heap s.list.head k, pos⟩
    (r.1, r.2.1)

/-- Every doubly-list operation preserves structural well-formedness. -/
theorem applyD_wf (op : DoublyOp α) (s : DState α) (hwf : DWF s) :
    DWF (applyD op s).2 := by
  obtain ⟨addrs, xs, hr⟩ := hwf
  cases op with
  | push_front b e =>
    cases b with
    | true => exact ⟨_, _, (doubly_push_front_spec hr e).2⟩
    | false => exact ⟨addrs, xs, hr⟩
  | push_back b e =>
    cases b with
    | true => exact ⟨_, _, (doubly_push_back_spec hr e).2⟩
    | false => exact ⟨addrs, xs, hr⟩
  | pop_front =>
    cases addrs with
    | nil =>
      have hh : s.list.head = none := by
        rw [DRep.head_eqD hr]
        rfl
      show DWF (doubly_list_pop_front s).2.1
      rw [doubly_pop_front_empty hh]
      exact ⟨[], xs, hr⟩
    | cons a rest =>
      cases xs with
      | nil =>
        have := hr.1.length_eqD
        simp at this
      | cons x xr => exact ⟨_, _, (doubly_pop_front_spec hr).2.1⟩
  | pop_back =>
    cases htl : s.list.tail with
    | none =>
      show DWF (doubly_list_pop_back s).2.1
      rw [doubly_pop_back_empty htl]
      exact ⟨addrs, xs, hr⟩
    | some t =>
      have haddr : addrs ≠ [] := fun h =>
        by rw [(DRep.tail_none_iffD hr).mpr h] at htl; cases htl
      rcases List.eq_nil_or_concat addrs with h | ⟨l0, a, h⟩
      · exact absurd h haddr
      rcases List.eq_nil_or_concat xs with hx | ⟨y0, y, hx⟩
      · rw [h, hx] at hr
        have := hr.1.length_eqD
        simp at this
      rw [List.concat_eq_append] at h hx
      rw [h, hx] at hr
      exact ⟨_, _, (doubly_pop_back_spec hr).2.1⟩
  | insert b i e =>
    cases b with
    | true => exact doubly_insert_pres hr i e
    | false =>
      show DWF (doubly_list_insert false s i e).2
      rw [doubly_insert_false_unchanged]
      exact ⟨addrs, xs, hr⟩
  | remove i => exact doubly_remove_pres hr i
  | get i => exact ⟨addrs, xs, hr⟩
  | set i e =>
    by_cases hi : i < s.list.size
    · exact ⟨_, _, (doubly_set_spec hr i hi e).2⟩
    · show DWF (doubly_list_set s i e).2
      rw [doubly_set_oob i e (by omega)]
      exact ⟨addrs, xs, hr⟩
  | clear => exact ⟨_, _, doubly_clear_spec s⟩
  | reverse => exact ⟨_, _, (doubly_reverse_spec hr).2⟩
  | iter_remove k pos =>
    have hlen := hr.2.1
    by_cases hk : k < addrs.length
    · have hw : d_walk_next s.heap s.list.head k = some addrs[k] := by
        rw [hr.1.walk_ltD k hk]
        exact List.getElem?_eq_getElem hk
      show DWF (doubly_list_iter_remove s
        ⟨d_walk_next s.heap s.list.head k, pos⟩).2.1
      rw [hw]
      exact ⟨_, _, (doubly_iter_remove_spec hr hk pos).2.1⟩
    · have hw : d_walk_next s.heap s.list.head k = none :=
        hr.1.walk_endD (by omega)
      show DWF (doubly_list_iter_remove s
        ⟨d_walk_next s.heap s.list.head k, pos⟩).2.1
      rw [hw]
      exact ⟨addrs, xs, hr⟩

/-- Any doubly-list operation that fails leaves the state exactly as it
was. -/
theorem applyD_error_unchanged (op : DoublyOp α) (s : DState α)
    (h : (applyD op s).1 ≠ .SUCCESS) : (applyD op s).2 = s := by
  cases op with
  | push_front b e =>
    cases b with
    | true => simp [applyD, doubly_list_push_front] at h
    | false => rfl
  | push_back b e =>
    cases b with
    | true => simp [applyD, doubly_list_push_back] at h
    | false => rfl
  | pop_front =>
    cases hh : s.list.head with
    | none => simp [applyD, doubly_list_pop_front, hh]
    | some a => simp [applyD, doubly_list_pop_front, hh] at h
  | pop_back =>
    cases htl : s.list.tail with
    | none => simp [applyD, doubly_list_pop_back, htl]
    | some a => simp [applyD, doubly_list_pop_back, htl] at h
  | insert b i e =>
    show (doubly_list_insert b s i e).2 = s
    replace h : (doubly_list_insert b s i e).1 ≠ .SUCCESS := h
    cases b with
    | false => exact doubly_insert_false_unchanged s i e
    | true =>
      unfold doubly_list_insert at *
      split_ifs at h ⊢ with h1 h2 h3
      · rfl
      · exact absurd (by rfl) h
      · exact absurd (by rfl) h
      · cases hn : get_doubly_node_at s i with
        | none => rfl
        | some cur =>
          simp only [hn] at h
          simp at h
      · cases get_doubly_node_at s i <;> rfl
  | remove i =>
    show (doubly_list_remove s i).2 = s
    replace h : (doubly_list_remove s i).1 ≠ .SUCCESS := h
    unfold doubly_list_remove at *
    split_ifs at h ⊢ with h1 h2 h3
    · rfl
    · cases hh : s.list.head with
      | none => simp [doubly_list_pop_front, hh]
      | some a => simp [doubly_list_pop_front, hh] at h
    · cases htl : s.list.tail with
      | none => simp [doubly_list_pop_back, htl]
      | some a => simp [doubly_list_pop_back, htl] at h
    · cases hn : get_doubly_node_at s i with
      | none => rfl
      | some rm =>
        simp only [hn] at h
        simp at h
  | get i => rfl
  | set i e =>
    show (doubly_list_set s i e).2 = s
    replace h : (doubly_list_set s i e).1 ≠ .SUCCESS := h
    cases hn : get_doubly_node_at s i with
    | none => simp [doubly_list_set, hn]
    | some a => simp [doubly_list_set, hn] at h
  | clear => simp [applyD] at h
  | reverse =>
    replace h : (doubly_list_reverse s).1 ≠ .SUCCESS := h
    unfold doubly_list_reverse at h
    split_ifs at h <;> simp_all
  | iter_remove k pos =>
    show (doubly_list_iter_remove s
      ⟨d_walk_next s.heap s.list.head k, pos⟩).2.1 = s
    replace h : (doubly_list_iter_remove s
      ⟨d_walk_next s.heap s.list.head k, pos⟩).1 ≠ .SUCCESS := h
    cases hw : d_walk_next s.heap s.list.head k with
    | none => simp [doubly_list_iter_remove, hw]
    | some a =>
      rw [hw] at h
      cases hg : s.heap.get a with
      | none => simp [doubly_list_iter_remove, hg] at h
      | some nd => simp [doubly_list_iter_remove, hg] at h

/-! ### Invariant consequences of well-formedness -/

theorem SSeg.last_next {h : SHeap α} {s q : Option Nat} {addrs : List Nat}
    {xs : List α} (hs : SSeg h s q addrs xs) {t : Nat}
    (ht : addrs.getLast? = some t) :
    ∃ nd, h.get t = some nd ∧ nd.next = q := by
  induction hs with
  | nil => simp at ht
  | cons hget hrest ih =>
    rename_i a nd q0 rest xs0
    cases rest with
    | nil =>
      obtain ⟨hq, -⟩ := hrest.nil_inv
      have hta : t = a := by simpa using ht.symm
      subst hta
      exact ⟨nd, hget, hq⟩
    | cons b r2 =>
      exact ih (by rw [← ht, List.getLast?_cons_cons])

theorem DSeg.last_nextD {h : DHeap α} {p s q : Option Nat} {addrs : List Nat}
    {xs : List α} (hs : DSeg h p s q addrs xs) {t : Nat}
    (ht : addrs.getLast? = some t) :
    ∃ nd, h.get t = some nd ∧ nd.next = q := by
  induction hs with
  | nil => simp at ht
  | cons hget hprev hrest ih =>
    rename_i p0 a nd q0 rest xs0
    cases rest with
    | nil =>
      obtain ⟨hq, -⟩ := hrest.nil_invD
      have hta : t = a := by simpa using ht.symm
      subst hta
      exact ⟨nd, hget, hq⟩
    | cons b r2 =>
      exact ih (by rw [← ht, List.getLast?_cons_cons])

theorem SWF_invariants {s : SState α} (hwf : SWF s) :
    (s.list.head = none ↔ s.list.size = 0) ∧
    (s.list.tail = none ↔ s.list.size = 0) ∧
    (∀ t, s.list.tail = some t → s.heap.nextOf t = none) ∧
    s_walk s.heap s.list.head s.list.size = none ∧
    (0 < s.list.size →
      s_walk s.heap s.list.head (s.list.size - 1) = s.list.tail) := by
  obtain ⟨addrs, xs, hr⟩ := hwf
  obtain ⟨hseg, hlen, htail, hnd⟩ := hr
  refine ⟨?_, ?_, ?_, ?_, ?_⟩
  · rw [SRep.head_eq ⟨hseg, hlen, htail, hnd⟩]
    cases addrs with
    | nil => simp [← hlen]
    | cons a rest => simp [← hlen]
  · rw [SRep.tail_none_iff ⟨hseg, hlen, htail, hnd⟩]
    constructor
    · intro h
      rw [h] at hlen
      simpa using hlen.symm
    · intro h
      cases haddr : addrs with
      | nil => rfl
      | cons a rest =>
        rw [haddr] at hlen
        simp only [List.length_cons] at hlen
        omega
  · intro t ht
    rw [htail] at ht
    obtain ⟨nd, hget, hnext⟩ := hseg.last_next ht
    rw [SHeap.nextOf_some hget, hnext]
  · rw [← hlen]
    exact hseg.walk_end
  · intro hpos
    have hlt : s.list.size - 1 < addrs.length := by omega
    rw [hseg.walk_lt _ hlt, htail, List.getLast?_eq_getElem?]
    have : addrs.length - 1 = s.list.size - 1 := by omega
    rw [this]

theorem DWF_invariants {s : DState α} (hwf : DWF s) :
    (s.list.head = none ↔ s.list.size = 0) ∧
    (s.list.tail = none ↔ s.list.size = 0) ∧
    (∀ t, s.list.tail = some t → s.heap.nextOf t = none) ∧
    d_walk_next s.heap s.list.head s.list.size = none ∧
    (0 < s.list.size →
      d_walk_next s.heap s.list.head (s.list.size - 1) = s.list.tail) ∧
    (∀ (i a : Nat) (nd : doubly_node_t α) (m : Nat),
      d_walk_next s.heap s.list.head i = some a →
      s.heap.get a = some nd → nd.next = some m →
      s.heap.prevOf m = some a) ∧
    (∀ (hd : Nat) (nd : doubly_node_t α), s.list.head = some hd →
      s.heap.get hd = some nd → nd.prev = none) := by
  obtain ⟨addrs, xs, hr⟩ := hwf
  have hseg := hr.1
  have hlen := hr.2.1
  have htail := hr.2.2.1
  have hnd := hr.2.2.2
  refine ⟨?_, ?_, ?_, ?_, ?_, ?_, ?_⟩
  · rw [DRep.head_eqD hr]
    cases addrs with
    | nil => simp [← hlen]
    | cons a rest => simp [← hlen]
  · rw [DRep.tail_none_iffD hr]
    constructor
    · intro h
      rw [h] at hlen
      simpa using hlen.symm
    · intro h
      cases haddr : addrs with
      | nil => rfl
      | cons a rest =>
        rw [haddr] at hlen
        simp only [List.length_cons] at hlen
        omega
  · intro t ht
    rw [htail] at ht
    obtain ⟨nd, hget, hnext⟩ := hseg.last_nextD ht
    rw [DHeap.nextOf_someD hget, hnext]
  · rw [← hlen]
    exact hseg.walk_endD (le_refl _)
  · intro hpos
    have hlt : s.list.size - 1 < addrs.length := by omega
    rw [hseg.walk_ltD _ hlt, htail, List.getLast?_eq_getElem?]
    have : addrs.length - 1 = s.list.size - 1 := by omega
    rw [this]
  · intro i a nd m hwalk hget hnext
    have hi : i < addrs.length := by
      by_contra hc
      rw [hseg.walk_endD (by omega)] at hwalk
      cases hwalk
    have ha : addrs[i] = a := by
      have h1 := hseg.walk_ltD i hi
      rw [hwalk, List.getElem?_eq_getElem hi] at h1
      exact (Option.some.injEq _ _).mp h1.symm
    obtain ⟨nd1, hget1, -, hnext1, -, -⟩ := d_splice hr hi
    rw [ha, hget] at hget1
    have hnd1 : nd1 = nd := by
      cases hget1
      rfl
    subst hnd1
    rw [hnext] at hnext1
    have hi2 : i + 1 < addrs.length :=
      List.getElem?_eq_some_iff.mp hnext1.symm |>.choose
    have hm : addrs[i + 1] = m := by
      rw [List.getElem?_eq_getElem hi2] at hnext1
      exact (Option.some.injEq _ _).mp hnext1.symm
    obtain ⟨nd2, hget2, hprev2, -, -, -⟩ := d_splice hr hi2
    rw [hm] at hget2
    rw [DHeap.prevOf_some hget2, hprev2, List.take_succ,
      List.getElem?_eq_getElem hi]
    simp only [Option.toList_some, List.getLast?_concat]
    rw [ha]
  · intro hd nd hhd hget
    have hh2 := DRep.head_eqD hr
    rw [hhd] at hh2
    cases haddr : addrs with
    | nil =>
      rw [haddr] at hh2
      cases hh2
    | cons a rest =>
      rw [haddr] at hh2
      have ha : a = hd := by simpa using hh2.symm
      subst ha
      rw [haddr] at hr
      obtain ⟨nd1, hget1, hprev1, -, -, -⟩ :=
        d_splice hr (by simp : 0 < (a :: rest).length)
      simp only [List.getElem_cons_zero] at hget1 hprev1
      rw [hget] at hget1
      have : nd1 = nd := by
        cases hget1
        rfl
      subst this
      rw [hprev1, List.take_zero]
      rfl

/-! ### Concrete example states -/

/-- A concrete two-element doubly list `[10, 20]` (node 0 ↔ node 1). -/
def dstate2 : DState Nat :=
  ⟨⟨[some ⟨10, some 1, none⟩, some ⟨20, none, some 0⟩]⟩,
   ⟨some 0, some 1, 2, 8⟩⟩

/-- The empty doubly-list state. -/
def dstate0 : DState Nat := ⟨⟨[]⟩, ⟨none, none, 0, 8⟩⟩

/-- A concrete two-element singly list `[10, 20]`. -/
def sstate2 : SState Nat :=
  ⟨⟨[some ⟨10, some 1⟩, some ⟨20, none⟩]⟩, ⟨some 0, some 1, 2, 8⟩⟩

theorem dstate2_rep : DRep dstate2 [0, 1] [10, 20] := by
  have c1 : DSeg dstate2.heap (some 0) (some 1) none [1] [20] :=
    DSeg.cons (by rfl) (by rfl) (DSeg.nil (some 1) none)
  have c0 : DSeg dstate2.heap none (some 0) none [0, 1] [10, 20] :=
    DSeg.cons (by rfl) (by rfl) c1
  exact ⟨c0, rfl, rfl, by decide⟩

theorem dstate0_rep : DRep dstate0 [] ([] : List Nat) :=
  ⟨DSeg.nil none none, rfl, rfl, by decide⟩

theorem sstate2_rep : SRep sstate2 [0, 1] [10, 20] := by
  have c1 : SSeg sstate2.heap (some 1) none [1] [20] :=
    SSeg.cons (by rfl) (SSeg.nil none)
  have c0 : SSeg sstate2.heap (some 0) none [0, 1] [10, 20] :=
    SSeg.cons (by rfl) c1
  exact ⟨c0, rfl, rfl, by decide⟩

/-! ### Claim theorems -/

/-- C1 (corrected): a successful `doubly_list_iter_remove` removes the
iterator's *current* node — the next element to be yielded, not the element
last yielded — decrements the size by one, and leaves the iterator on the
element that followed the removed one (exhausted if there was none). -/
theorem doubly_iter_remove_removes_current {s : DState α} {addrs : List Nat}
    {xs : List α} (hr : DRep s addrs xs) {k : Nat} (hk : k < addrs.length)
    (pos : Nat) :
    (doubly_list_iter_remove s ⟨some addrs[k], pos⟩).1 = .SUCCESS ∧
    DRep (doubly_list_iter_remove s ⟨some addrs[k], pos⟩).2.1
      (addrs.eraseIdx k) (xs.eraseIdx k) ∧
    (doubly_list_iter_remove s ⟨some addrs[k], pos⟩).2.1.list.size =
      s.list.size - 1 ∧
    (doubly_list_iter_remove s ⟨some addrs[k], pos⟩).2.2 =
      ⟨addrs[k + 1]?, pos⟩ := by
  obtain ⟨h1, h2, h3⟩ := doubly_iter_remove_spec hr hk pos
  refine ⟨h1, h2, ?_, h3⟩
  rw [← h2.2.1, List.eraseIdx_eq_take_drop_succ]
  have hlen := hr.2.1
  simp only [List.length_append, List.length_take, List.length_drop]
  omega

theorem doubly_iter_remove_removes_current_witness :
    DRep dstate2 [0, 1] [10, 20] ∧
    ((doubly_list_iter_remove dstate2 ⟨some 1, 1⟩).1 = .SUCCESS ∧
     DRep (doubly_list_iter_remove dstate2 ⟨some 1, 1⟩).2.1 [0] [10] ∧
     (doubly_list_iter_remove dstate2 ⟨some 1, 1⟩).2.1.list.size = 2 - 1 ∧
     (doubly_list_iter_remove dstate2 ⟨some 1, 1⟩).2.2 = ⟨none, 1⟩) :=
  ⟨dstate2_rep,
    doubly_iter_remove_removes_current dstate2_rep
      (by decide : 1 < ([0, 1] : List Nat).length) 1⟩

/-- Counterexample to the claim as stated: on the two-element list
`[10, 20]`, after `iter_next` yields 10 the iterator's `current` is the
node holding 20, so `iter_remove` removes 20 — the element *about to be*
yielded — while the last-yielded 10 survives in the list. -/
theorem doubly_iter_remove_cex :
    (doubly_list_iter_next dstate2 (doubly_list_iter_create dstate2)).2.2 =
      some 10 ∧
    (doubly_list_iter_remove dstate2
      (doubly_list_iter_next dstate2
        (doubly_list_iter_create dstate2)).2.1).1 = .SUCCESS ∧
    (doubly_list_iter_remove dstate2
      (doubly_list_iter_next dstate2
        (doubly_list_iter_create dstate2)).2.1).2.1 =
      ⟨⟨[some ⟨10, none, none⟩, none]⟩, ⟨some 0, some 0, 1, 8⟩⟩ := by
  refine ⟨rfl, rfl, ?_⟩
  decide

/-- C5: every singly-list and doubly-list operation preserves the structural
invariant, and well-formedness yields the spec's invariants: head is none
iff size is 0 iff tail is none, the tail's next link is none, the chain from
head has exactly size nodes ending at tail, and (doubly) every chain node
points back from its successor while the head's prev is none. -/
theorem list_ops_preserve_invariants (α : Type) :
    (∀ (op : SinglyOp α) (s : SState α), SWF s → SWF (applyS op s).2) ∧
    (∀ (op : DoublyOp α) (s : DState α), DWF s → DWF (applyD op s).2) ∧
    (∀ s : SState α, SWF s →
      (s.list.head = none ↔ s.list.size = 0) ∧
      (s.list.tail = none ↔ s.list.size = 0) ∧
      (∀ t, s.list.tail = some t → s.heap.nextOf t = none) ∧
      s_walk s.heap s.list.head s.list.size = none ∧
      (0 < s.list.size →
        s_walk s.heap s.list.head (s.list.size - 1) = s.list.tail)) ∧
    (∀ s : DState α, DWF s →
      (s.list.head = none ↔ s.list.size = 0) ∧
      (s.list.tail = none ↔ s.list.size = 0) ∧
      (∀ t, s.list.tail = some t → s.heap.nextOf t = none) ∧
      d_walk_next s.heap s.list.head s.list.size = none ∧
      (0 < s.list.size →
        d_walk_next s.heap s.list.head (s.list.size - 1) = s.list.tail) ∧
      (∀ (i a : Nat) (nd : doubly_node_t α) (m : Nat),
        d_walk_next s.heap s.list.head i = some a →
        s.heap.get a = some nd → nd.next = some m →
        s.heap.prevOf m = some a) ∧
      (∀ (hd : Nat) (nd : doubly_node_t α), s.list.head = some hd →
        s.heap.get hd = some nd → nd.prev = none)) :=
  ⟨applyS_wf, applyD_wf, fun _ h => SWF_invariants h,
    fun _ h => DWF_invariants h⟩

theorem list_ops_preserve_invariants_witness :
    SWF sstate2 ∧ DWF dstate2 ∧
    SWF (applyS SinglyOp.pop_front sstate2).2 ∧
    DWF (applyD DoublyOp.pop_back dstate2).2 := by
  have hs : SWF sstate2 := ⟨_, _, sstate2_rep⟩
  have hd : DWF dstate2 := ⟨_, _, dstate2_rep⟩
  obtain ⟨w1, w2, -, -⟩ := list_ops_preserve_invariants Nat
  exact ⟨hs, hd, w1 _ _ hs, w2 _ _ hd⟩

/-- C6: for every container (vector, singly list, doubly list) and every
modeled operation, a non-`SUCCESS` outcome (invalid argument, out-of-bounds
index, empty container, or allocation failure) leaves the container state
completely unchanged. -/
theorem failed_ops_leave_state_unchanged (α : Type) :
    (∀ (op : VectorOp α) (v : vector_t α),
      (applyV op v).1 ≠ .SUCCESS → (applyV op v).2 = v) ∧
    (∀ (op : SinglyOp α) (s : SState α),
      (applyS op s).1 ≠ .SUCCESS → (applyS op s).2 = s) ∧
    (∀ (op : DoublyOp α) (s : DState α),
      (applyD op s).1 ≠ .SUCCESS → (applyD op s).2 = s) :=
  ⟨applyV_error_unchanged, applyS_error_unchanged, applyD_error_unchanged⟩

theorem failed_ops_leave_state_unchanged_witness :
    ((applyV VectorOp.pop_back (⟨[], 16, 4⟩ : vector_t Nat)).1 ≠
      .SUCCESS) ∧
    (applyV VectorOp.pop_back (⟨[], 16, 4⟩ : vector_t Nat)).2 =
      ⟨[], 16, 4⟩ ∧
    ((applyD DoublyOp.pop_front dstate0).1 ≠ .SUCCESS) ∧
    (applyD DoublyOp.pop_front dstate0).2 = dstate0 := by
  have h1 : (applyV VectorOp.pop_back (⟨[], 16, 4⟩ : vector_t Nat)).1 ≠
      .SUCCESS := by decide
  have h2 : (applyD DoublyOp.pop_front dstate0).1 ≠ .SUCCESS := by decide
  obtain ⟨w1, -, w3⟩ := failed_ops_leave_state_unchanged Nat
  exact ⟨h1, w1 _ _ h1, h2, w3 _ _ h2⟩

/-- C7: on identical logical element sequences, `doubly_list_get` (with its
nearest-end traversal) and `singly_list_get` (forward-only) agree for every
in-range index, both returning SUCCESS and the i-th element. -/
theorem get_traversal_equivalence {ss : SState α} {sd : DState α}
    {saddrs daddrs : List Nat} {xs : List α} (hs : SRep ss saddrs xs)
    (hd : DRep sd daddrs xs) {i : Nat} (hi : i < xs.length) :
    doubly_list_get sd i = singly_list_get ss i ∧
    singly_list_get ss i = (.SUCCESS, xs[i]?) := by
  have h1 := singly_get_spec hs i (by rw [← SRep.length_xs hs]; exact hi)
  have hxd := hd.1.length_eqD
  have hld := hd.2.1
  have h2 := doubly_get_spec hd i (by omega)
  exact ⟨h2.trans h1.symm, h1⟩

theorem get_traversal_equivalence_witness :
    SRep sstate2 [0, 1] [10, 20] ∧ DRep dstate2 [0, 1] [10, 20] ∧
    (doubly_list_get dstate2 1 = singly_list_get sstate2 1 ∧
     singly_list_get sstate2 1 = (.SUCCESS, some 20)) :=
  ⟨sstate2_rep, dstate2_rep,
    get_traversal_equivalence sstate2_rep dstate2_rep
      (by decide : 1 < ([10, 20] : List Nat).length)⟩

/-- C8: reversing a list twice restores the original element sequence (and
node addresses), for both the singly and the doubly linked list, including
the empty and one-element cases (where reverse is the identity). -/
theorem reverse_involution (α : Type) :
    (∀ (s : SState α) (addrs : List Nat) (xs : List α), SRep s addrs xs →
      (singly_list_reverse (singly_list_reverse s).2).1 = .SUCCESS ∧
      SRep (singly_list_reverse (singly_list_reverse s).2).2 addrs xs) ∧
    (∀ (s : DState α) (addrs : List Nat) (xs : List α), DRep s addrs xs →
      (doubly_list_reverse (doubly_list_reverse s).2).1 = .SUCCESS ∧
      DRep (doubly_list_reverse (doubly_list_reverse s).2).2 addrs xs) := by
  constructor
  · intro s addrs xs hr
    obtain ⟨-, h1⟩ := singly_reverse_spec hr
    obtain ⟨hst, h2⟩ := singly_reverse_spec h1
    rw [List.reverse_reverse, List.reverse_reverse] at h2
    exact ⟨hst, h2⟩
  · intro s addrs xs hr
    obtain ⟨-, h1⟩ := doubly_reverse_spec hr
    obtain ⟨hst, h2⟩ := doubly_reverse_spec h1
    rw [List.reverse_reverse, List.reverse_reverse] at h2
    exact ⟨hst, h2⟩

theorem reverse_involution_witness :
    SRep sstate2 [0, 1] [10, 20] ∧
    SRep (singly_list_reverse (singly_list_reverse sstate2).2).2 [0, 1]
      [10, 20] ∧
    DRep dstate2 [0, 1] [10, 20] ∧
    DRep (doubly_list_reverse (doubly_list_reverse dstate2).2).2 [0, 1]
      [10, 20] := by
  obtain ⟨w1, w2⟩ := reverse_involution Nat
  exact ⟨sstate2_rep, (w1 _ _ _ sstate2_rep).2, dstate2_rep,
    (w2 _ _ _ dstate2_rep).2⟩

/-- C10: a reverse iterator created on an empty doubly list gets
`position = size - 1` in `size_t` arithmetic, which wraps to `2^64 - 1`,
while `current` is NULL; `has_next` and `has_prev` are both false, so no
element can be yielded. -/
theorem iter_create_reverse_empty_wraps {s : DState α}
    (hr : DRep s [] ([] : List α)) :
    (doubly_list_iter_create_reverse s).position = 2 ^ 64 - 1 ∧
    (doubly_list_iter_create_reverse s).current = none ∧
    doubly_list_iter_has_next (doubly_list_iter_create_reverse s) = false ∧
    doubly_list_iter_has_prev (doubly_list_iter_create_reverse s) = false := by
  have hsz : s.list.size = 0 := by
    have := hr.2.1
    simpa using this.symm
  have htl : s.list.tail = none := (DRep.tail_none_iffD hr).mpr rfl
  refine ⟨?_, ?_, ?_, ?_⟩
  · show (s.list.size % SIZE_T_MOD + SIZE_T_MOD - 1) % SIZE_T_MOD =
      2 ^ 64 - 1
    rw [hsz]
    decide
  · exact htl
  · simp [doubly_list_iter_has_next, doubly_list_iter_create_reverse, htl]
  · simp [doubly_list_iter_has_prev, doubly_list_iter_create_reverse, htl]

theorem iter_create_reverse_empty_wraps_witness :
    DRep dstate0 [] ([] : List Nat) ∧
    ((doubly_list_iter_create_reverse dstate0).position = 2 ^ 64 - 1 ∧
     (doubly_list_iter_create_reverse dstate0).current = none ∧
     doubly_list_iter_has_next
       (doubly_list_iter_create_reverse dstate0) = false ∧
     doubly_list_iter_has_prev
       (doubly_list_iter_create_reverse dstate0) = false) :=
  ⟨dstate0_rep, iter_create_reverse_empty_wraps dstate0_rep⟩

end CStructs
